import Mathlib

/-!
Verification of the DLX-Sudoku repository: a shallow embedding of the
dancing-links (DLX) exact-cover engine (src/dlx/dlx.c) and of the sudoku
encoding layer (src/sudoku/sudoku.c), with theorems settling the spec claims.

Nodes live in a single arena and are addressed by natural-number ids; the
pointer fields left/right/up/down/chead of the C structs become functions
from ids to ids, and the size_t counter s becomes a Nat with explicit
wrap-around at 2^64 where the C code can underflow.  Loops over the cyclic
lists are written with explicit fuel; theorems carry hypotheses guaranteeing
the fuel suffices on well-formed matrices.
-/

namespace DlxSudoku

/-- Wrap-around bound of the C type size_t (64-bit target). -/
def szMod : Nat := 2 ^ 64

/-- size_t decrement with wrap-around (models the C expression x - 1). -/
def szDec (x : Nat) : Nat := if x = 0 then szMod - 1 else x - 1

/-- size_t increment with wrap-around (models the C expression x + 1). -/
def szInc (x : Nat) : Nat := if x = szMod - 1 then 0 else x + 1

/-- The dancing-links arena state: the link fields of struct node_s plus the
s counter and id pointer of struct headnode_s, as functions from node ids.
(In the C code id is a void pointer; in the sudoku client it always points to
the column's integer index, so it is embedded as that integer value.) -/
@[ext]
structure S where
  left : Nat → Nat
  right : Nat → Nat
  up : Nat → Nat
  down : Nat → Nat
  chead : Nat → Nat
  s : Nat → Nat
  idv : Nat → Nat

/-- Pointwise update of a link function at one node id. -/
def upd (f : Nat → Nat) (a b : Nat) : Nat → Nat := fun x => if x = a then b else f x

/-- remove_lr: n->left->right = n->right; n->right->left = n->left. -/
def remove_lr (σ : S) (n : Nat) : S :=
  let σ1 := { σ with right := upd σ.right (σ.left n) (σ.right n) }
  { σ1 with left := upd σ1.left (σ1.right n) (σ1.left n) }

/-- remove_ud: n->up->down = n->down; n->down->up = n->up. -/
def remove_ud (σ : S) (n : Nat) : S :=
  let σ1 := { σ with down := upd σ.down (σ.up n) (σ.down n) }
  { σ1 with up := upd σ1.up (σ1.down n) (σ1.up n) }

/-- insert_lr: n->left->right = n->right->left = n. -/
def insert_lr (σ : S) (n : Nat) : S :=
  let σ1 := { σ with left := upd σ.left (σ.right n) n }
  { σ1 with right := upd σ1.right (σ1.left n) n }

/-- insert_ud: n->up->down = n->down->up = n. -/
def insert_ud (σ : S) (n : Nat) : S :=
  let σ1 := { σ with up := upd σ.up (σ.down n) n }
  { σ1 with down := upd σ1.down (σ1.up n) n }

/-- is_removed_ud: returns 1 iff n->up->down != n. -/
def is_removed_ud (σ : S) (n : Nat) : Bool := σ.down (σ.up n) ≠ n

/-- column_append_node: append node n at the bottom of column c. -/
def column_append_node (σ : S) (c n : Nat) : S :=
  let σ1 := { σ with chead := upd σ.chead n c }
  let σ2 := { σ1 with up := upd σ1.up n (σ1.up c) }
  let σ3 := { σ2 with down := upd σ2.down n c }
  insert_ud σ3 n

/-- The s-decrement step of the cover loop: (j->chead->s)--. -/
def decS (σ : S) (j : Nat) : S :=
  { σ with s := upd σ.s (σ.chead j) (szDec (σ.s (σ.chead j))) }

/-- The s-increment step of the uncover loop: (j->chead->s)++. -/
def incS (σ : S) (j : Nat) : S :=
  { σ with s := upd σ.s (σ.chead j) (szInc (σ.s (σ.chead j))) }

/-- One full removal step of cover's inner loop: remove_ud(j); (j->chead->s)--. -/
def covStep (σ : S) (j : Nat) : S := decS (remove_ud σ j) j

/-- One full restoration step of uncover's inner loop:
(j->chead->s)++; insert_ud(j). -/
def uncovStep (σ : S) (j : Nat) : S := insert_ud (incS σ j) j

/-- cover's inner loop: j = i; while ((j = j->right) != i) covStep j. -/
def coverRowLoop : Nat → S → Nat → Nat → S
  | 0, σ, _, _ => σ
  | fuel + 1, σ, i, j =>
    let j1 := σ.right j
    if j1 = i then σ else coverRowLoop fuel (covStep σ j1) i j1

/-- cover's outer loop: i = c; while ((i = i->down) != c) run inner loop. -/
def coverColLoop : Nat → S → Nat → Nat → S
  | 0, σ, _, _ => σ
  | fuel + 1, σ, c, i =>
    let i1 := σ.down i
    if i1 = c then σ else coverColLoop fuel (coverRowLoop fuel (σ) i1 i1) c i1

/-- cover(c): remove c from the header list, then remove every other node of
every row of column c from its own column, decrementing the counts. -/
def cover (fuel : Nat) (σ : S) (c : Nat) : S :=
  coverColLoop fuel (remove_lr σ c) c c

/-- uncover's inner loop: j = i; while ((j = j->left) != i) uncovStep j. -/
def uncoverRowLoop : Nat → S → Nat → Nat → S
  | 0, σ, _, _ => σ
  | fuel + 1, σ, i, j =>
    let j1 := σ.left j
    if j1 = i then σ else uncoverRowLoop fuel (uncovStep σ j1) i j1

/-- uncover's outer loop: i = c; while ((i = i->up) != c) run inner loop. -/
def uncoverColLoop : Nat → S → Nat → Nat → S
  | 0, σ, _, _ => σ
  | fuel + 1, σ, c, i =>
    let i1 := σ.up i
    if i1 = c then σ else uncoverColLoop fuel (uncoverRowLoop fuel (σ) i1 i1) c i1

/-- uncover(c): restore all rows of column c bottom-to-top (inner loops
right-to-left), then insert c back into the header list. -/
def uncover (fuel : Nat) (σ : S) (c : Nat) : S :=
  insert_lr (uncoverColLoop fuel σ c c) c

/-- min_hnode_s's scan loop.  min starts at -1u = 2^32 - 1 (an unsigned int
literal, not a size_t one) and the running best c starts at NULL (none). -/
def minHLoop : Nat → S → Nat → Nat → Nat → Option Nat → Option Nat
  | 0, _, _, _, _, c => c
  | fuel + 1, σ, h, i, min, c =>
    let i1 := σ.right i
    if i1 = h then c
    else
      let n := σ.s i1
      if n < min then minHLoop fuel σ h i1 n (some i1)
      else minHLoop fuel σ h i1 min c

/-- min_hnode_s: header with the smallest s field, NULL if the list is empty. -/
def min_hnode_s (fuel : Nat) (σ : S) (root : Nat) : Option Nat :=
  minHLoop fuel σ root root (2 ^ 32 - 1) none

/-- dlx_force_row's do-while loop: cover(i->chead); i = i->right; until i = r.
The first cover has already been peeled off by the caller. -/
def forceRowLoop : Nat → Nat → S → Nat → Nat → S
  | 0, _, σ, _, _ => σ
  | fuel + 1, cf, σ, r, i =>
    let σ1 := cover cf σ (σ.chead i)
    let i1 := σ1.right i
    if i1 = r then σ1 else forceRowLoop fuel cf σ1 r i1

/-- dlx_force_row(r): fail without mutating if r is already removed, else
cover every column of r's row starting with r's own column.  Returns the C
return value (0 success, -1 failure) with the new state. -/
def dlx_force_row (fuel : Nat) (σ : S) (r : Nat) : Int × S :=
  if is_removed_ud σ r then (-1, σ)
  else (0, forceRowLoop fuel fuel σ r r)

/-- dlx_unselect_row's do-while loop: i = i->left; uncover(i->chead); until
i = r. -/
def unselectRowLoop : Nat → Nat → S → Nat → Nat → S
  | 0, _, σ, _, _ => σ
  | fuel + 1, cf, σ, r, i =>
    let i1 := σ.left i
    let σ1 := uncover cf σ (σ.chead i1)
    if i1 = r then σ1 else unselectRowLoop fuel cf σ1 r i1

/-- dlx_unselect_row(r): fail without mutating if r is still in the matrix,
else uncover every column of r's row in the reverse order of dlx_force_row. -/
def dlx_unselect_row (fuel : Nat) (σ : S) (r : Nat) : Int × S :=
  if is_removed_ud σ r then (0, unselectRowLoop fuel fuel σ r r)
  else (-1, σ)

/-- The loop that covers all other columns of the chosen row:
j = i; while ((j = j->right) != i) cover(j->chead). -/
def coverOthersLoop : Nat → Nat → S → Nat → Nat → S
  | 0, _, σ, _, _ => σ
  | fuel + 1, cf, σ, i, j =>
    let j1 := σ.right j
    if j1 = i then σ else coverOthersLoop fuel cf (cover cf σ (σ.chead j1)) i j1

/-- The loop that uncovers them again in reverse:
j = i; while ((j = j->left) != i) uncover(j->chead). -/
def uncoverOthersLoop : Nat → Nat → S → Nat → Nat → S
  | 0, _, σ, _, _ => σ
  | fuel + 1, cf, σ, i, j =>
    let j1 := σ.left j
    if j1 = i then σ else uncoverOthersLoop fuel cf (uncover cf σ (σ.chead j1)) i j1

/-- Update of an Option-valued array cell (uninitialized cells are none). -/
def updO {α : Type} (f : Nat → Option α) (a : Nat) (b : α) : Nat → Option α :=
  fun x => if x = a then some b else f x

mutual

/-- dlx_exact_cover(solution, root, k).  fuel bounds the recursion depth,
lf the cyclic-list loops.  Returns the C return value, the final state
and the solution array; none models running out of fuel or the NULL-column
dereference the C code would perform on a malformed matrix. -/
def dlx_exact_cover (fuel lf : Nat) (σ : S) (root : Nat)
    (sol : Nat → Option Nat) (k : Nat) : Option (Nat × S × (Nat → Option Nat)) :=
  match fuel with
  | 0 => none
  | fuel + 1 =>
    if σ.right root = root then some (k, σ, sol)
    else
      match min_hnode_s lf σ root with
      | none => none
      | some c =>
        match dlxECLoop fuel lf (cover lf σ c) root sol k c c with
        | none => none
        | some (n, σ2, sol2) => some (n, uncover lf σ2 c, sol2)
termination_by structural fuel

/-- The row loop of dlx_exact_cover: guess each row of column c, cover the
other columns of the row, recurse, uncover them again, and stop at the first
success. -/
def dlxECLoop (fuel lf : Nat) (σ : S) (root : Nat) (sol : Nat → Option Nat)
    (k c i : Nat) : Option (Nat × S × (Nat → Option Nat)) :=
  match fuel with
  | 0 => none
  | fuel + 1 =>
    let i1 := σ.down i
    if i1 = c then some (0, σ, sol)
    else
      let sol1 := updO sol k i1
      let σa := coverOthersLoop lf lf σ i1 i1
      match dlx_exact_cover fuel lf σa root sol1 (k + 1) with
      | none => none
      | some (n, σb, sol2) =>
        let σc := uncoverOthersLoop lf lf σb i1 i1
        if n > 0 then some (n, σc, sol2)
        else dlxECLoop fuel lf σc root sol2 k c i1
termination_by structural fuel

end

/-- The per-step record of dlx_hint: column id, its count s, and the chosen
row node. -/
structure DHint where
  idh : Nat
  sh : Nat
  row : Nat
deriving DecidableEq

mutual

/-- dlx_exact_cover_hints(solution, root, k) with the solution array starting
at offset base (the C caller passes the pointer dlx_hints + base). -/
def dlx_exact_cover_hints (fuel lf : Nat) (σ : S) (root : Nat)
    (sol : Nat → Option DHint) (base k : Nat) :
    Option (Nat × S × (Nat → Option DHint)) :=
  match fuel with
  | 0 => none
  | fuel + 1 =>
    if σ.right root = root then some (k, σ, sol)
    else
      match min_hnode_s lf σ root with
      | none => none
      | some c =>
        let σ1 := cover lf σ c
        let sol1 := updO sol (base + k) ⟨σ1.idv c, σ1.s c, 0⟩
        match dlxECHLoop fuel lf σ1 root sol1 base k c c with
        | none => none
        | some (n, σ2, sol2) => some (n, uncover lf σ2 c, sol2)
termination_by structural fuel

/-- The row loop of dlx_exact_cover_hints; additionally records the chosen
row node in solution[k].row. -/
def dlxECHLoop (fuel lf : Nat) (σ : S) (root : Nat) (sol : Nat → Option DHint)
    (base k c i : Nat) : Option (Nat × S × (Nat → Option DHint)) :=
  match fuel with
  | 0 => none
  | fuel + 1 =>
    let i1 := σ.down i
    if i1 = c then some (0, σ, sol)
    else
      let sol1 := fun x => if x = base + k
        then (sol (base + k)).map (fun d => { d with row := i1 })
        else sol x
      let σa := coverOthersLoop lf lf σ i1 i1
      match dlx_exact_cover_hints fuel lf σa root sol1 base (k + 1) with
      | none => none
      | some (n, σb, sol2) =>
        let σc := uncoverOthersLoop lf lf σb i1 i1
        if n > 0 then some (n, σc, sol2)
        else dlxECHLoop fuel lf σc root sol2 base k c i1
termination_by structural fuel

end

mutual

/-- dlx_has_covers(root, k): bounded solution counting; each time the header
list empties one unit of budget is consumed by the size_t decrement k - 1. -/
def dlx_has_covers (fuel lf : Nat) (σ : S) (root k : Nat) : Option (Nat × S) :=
  match fuel with
  | 0 => none
  | fuel + 1 =>
    if σ.right root = root then some (szDec k, σ)
    else
      match min_hnode_s lf σ root with
      | none => none
      | some c =>
        match dlxHCLoop fuel lf (cover lf σ c) root k c c with
        | none => none
        | some (k1, σ2) => some (k1, uncover lf σ2 c)
termination_by structural fuel

/-- The row loop of dlx_has_covers: keeps exploring further rows until the
budget k reaches 0. -/
def dlxHCLoop (fuel lf : Nat) (σ : S) (root k c i : Nat) : Option (Nat × S) :=
  match fuel with
  | 0 => none
  | fuel + 1 =>
    let i1 := σ.down i
    if i1 = c then some (k, σ)
    else
      let σa := coverOthersLoop lf lf σ i1 i1
      match dlx_has_covers fuel lf σa root k with
      | none => none
      | some (k1, σb) =>
        let σc := uncoverOthersLoop lf lf σb i1 i1
        if k1 = 0 then some (0, σc)
        else dlxHCLoop fuel lf σc root k1 c i1
termination_by structural fuel

end

/-!  Matrix construction (dlx_make_headers, dlx_make_row).  -/

/-- Node id of NULL.  The C code stores NULL in the root's up/down/chead and
id fields; none of them is ever read back. -/
def nullId : Nat := 0

/-- Initialize one column header (left and right as given, up/down/chead
pointing to itself, s = 0). -/
def mkHeader (σ : S) (h l r : Nat) : S :=
  { σ with
    left := upd σ.left h l
    right := upd σ.right h r
    up := upd σ.up h h
    down := upd σ.down h h
    chead := upd σ.chead h h
    s := upd σ.s h 0 }

/-- dlx_make_headers(root, headers, n): root plus n contiguous headers
(ids hbase .. hbase+n-1) chained into a circular left-right list.
The C code requires n ≥ 2 (for n ≤ 1 it writes out of bounds). -/
def dlx_make_headers (σ : S) (root hbase n : Nat) : S :=
  let σ0 := { σ with
    left := upd σ.left root (hbase + n - 1)
    right := upd σ.right root hbase
    up := upd σ.up root nullId
    down := upd σ.down root nullId
    chead := upd σ.chead root nullId
    s := upd σ.s root 0 }
  let σ1 := mkHeader σ0 hbase root (hbase + 1)
  let σ2 := (List.range (n - 2)).foldl
    (fun τ k => mkHeader τ (hbase + k + 1) (hbase + k) (hbase + k + 2)) σ1
  mkHeader σ2 (hbase + n - 1) (hbase + n - 2) root

/-- Insert row node n into column c and bump the column count:
column_append_node(headers + col, ni); (ni->chead->s)++. -/
def addNode (σ : S) (n c : Nat) : S :=
  let σ1 := column_append_node σ c n
  { σ1 with s := upd σ1.s (σ1.chead n) (szInc (σ1.s (σ1.chead n))) }

/-- The tail of dlx_make_row: middle nodes (left/right to the previous/next
node) and the last node (right back to the first). -/
def mkRowRest (base hbase n : Nat) : S → Nat → List Nat → S
  | σ, _, [] => σ
  | σ, i, [c] =>
    let σ1 := { σ with
      left := upd σ.left (base + i) (base + i - 1)
      right := upd σ.right (base + i) base }
    addNode σ1 (base + i) (hbase + c)
  | σ, i, c :: rest =>
    let σ1 := { σ with
      left := upd σ.left (base + i) (base + i - 1)
      right := upd σ.right (base + i) (base + i + 1) }
    mkRowRest base hbase n (addNode σ1 (base + i) (hbase + c)) (i + 1) rest

/-- dlx_make_row(nodes, headers, cols, n): link the n contiguous nodes
base .. base+n-1 into a circular row and append each to its column.
The C code requires n ≥ 2 (for n = 1 it writes past the row). -/
def dlx_make_row (σ : S) (base hbase : Nat) (cols : List Nat) : S :=
  let n := cols.length
  match cols with
  | [] => σ
  | c0 :: rest =>
    let σ1 := { σ with
      left := upd σ.left base (base + n - 1)
      right := upd σ.right base (base + 1) }
    mkRowRest base hbase n (addNode σ1 base (hbase + c0)) 1 rest

/-!  The sudoku layer (src/sudoku/sudoku.c).

Arena layout for the sudoku_dlx struct: the root is node 0, header i is
node 1 + i (0 ≤ i < 324), and nodes[r][t] is node 325 + 4r + t
(0 ≤ r < 729, 0 ≤ t < 4).  -/

def NCOLS : Nat := 324
def NROWS : Nat := 729
def NTYPES : Nat := 4

def CELL_ID : Nat := 0
def ROW_ID : Nat := 1
def COL_ID : Nat := 2
def REGION_ID : Nat := 3

/-- Arena id of the root header. -/
def rootId : Nat := 0

/-- Arena id of column header i. -/
def hdrBase : Nat := 1

/-- Arena id of nodes[0][0]. -/
def nodeBase : Nat := 325

/-- get_ids(r, c, n): the four constraint-column ids satisfied by digit n at
row r, column c, in ascending order (r, c, n are 1-indexed). -/
def get_ids (r c n : Nat) : List Nat :=
  let R := (r - 1) / 3 * 3 + (c - 1) / 3 + 1
  [CELL_ID * 81 + (9 * r) - 9 + c - 1,
   ROW_ID * 81 + (9 * r) - 9 + n - 1,
   COL_ID * 81 + (9 * c) - 9 + n - 1,
   REGION_ID * 81 + (9 * R) - 9 + n - 1]

/-- row_id(r, c, n) = ((9r - 9 + c - 1) * 9 + n - 1, computed in int and
converted to size_t (hence the wrap-around for out-of-range inputs). -/
def row_id (r c n : Nat) : Nat :=
  ((((9 * (r : Int)) - 9 + c - 1) * 9 + n - 1) % (szMod : Int)).toNat

/-- fill_values(col, &r, &c, &n, &R): recover from a constraint-column id the
components it determines, leaving the others unchanged. -/
def fill_values (col : Nat) (r c n R : Nat) : Nat × Nat × Nat × Nat :=
  if col < (CELL_ID + 1) * 81 then
    ((col - CELL_ID * 81) / 9 + 1, (col - CELL_ID * 81) % 9 + 1, n, R)
  else if col < (ROW_ID + 1) * 81 then
    ((col - ROW_ID * 81) / 9 + 1, c, (col - ROW_ID * 81) % 9 + 1, R)
  else if col < (COL_ID + 1) * 81 then
    (r, (col - COL_ID * 81) / 9 + 1, (col - COL_ID * 81) % 9 + 1, R)
  else
    (r, c, (col - REGION_ID * 81) % 9 + 1, (col - REGION_ID * 81) / 9 + 1)

/-- row2row_id(rn): read the column ids of rn and its next two row
neighbours, recover (r, c, n) and return row_id(r, c, n). -/
def row2row_id (σ : S) (rn : Nat) : Nat :=
  let v1 := fill_values (σ.idv (σ.chead rn)) 0 0 0 0
  let rn1 := σ.right rn
  let v2 := fill_values (σ.idv (σ.chead rn1)) v1.1 v1.2.1 v1.2.2.1 v1.2.2.2
  let rn2 := σ.right rn1
  let v3 := fill_values (σ.idv (σ.chead rn2)) v2.1 v2.2.1 v2.2.2.1 v2.2.2.2
  row_id v3.1 v3.2.1 v3.2.2.1

/-- A state whose fields carry arbitrary values, standing for the
uninitialized stack-allocated sudoku_dlx struct. -/
def blankS : S where
  left := fun _ => 0
  right := fun _ => 0
  up := fun _ => 0
  down := fun _ => 0
  chead := fun _ => 0
  s := fun _ => 0
  idv := fun _ => 0

/-- init(puzzle_dlx): make the 324 headers, set the header ids to the column
indices, and add the 729 rows in cell-major order ((1,1,1), (1,1,2), ...,
(9,9,9)). -/
def sudoku_init (σ : S) : S :=
  let σ1 := dlx_make_headers σ rootId hdrBase NCOLS
  let σ2 := (List.range NCOLS).foldl
    (fun τ i => { τ with idv := upd τ.idv (hdrBase + i) i }) σ1
  let σ3 := { σ2 with idv := upd σ2.idv rootId nullId }
  (List.range NROWS).foldl
    (fun τ r =>
      dlx_make_row τ (nodeBase + NTYPES * r) hdrBase
        (get_ids (r / 81 + 1) (r / 9 % 9 + 1) (r % 9 + 1))) σ3

/-- The fully built sudoku matrix. -/
def sudoku_dlx_init : S := sudoku_init blankS

/-- process_givens(givens, puzzle_dlx, solution): force-select the row of
each given digit; on a dlx_force_row failure stop with count 255.  The char
codes of the puzzle are Ints; cell i with byte b is a given of digit b - 48
when 0 < b - 48 ≤ 9. -/
def processGivensAux (fuel : Nat) : List Int → Nat → Nat → List Nat → S →
    Nat × S × List Nat
  | [], _, n, sol, σ => (n, σ, sol)
  | b :: rest, i, n, sol, σ =>
    let c : Int := b - 48
    if 0 < c ∧ c ≤ 9 then
      let ni := nodeBase + NTYPES * (i * 9 + c.toNat - 1)
      let r := dlx_force_row fuel σ ni
      if r.1 ≠ 0 then (255, r.2, sol)
      else processGivensAux fuel rest (i + 1) (n + 1) (sol ++ [ni]) r.2
    else processGivensAux fuel rest (i + 1) n sol σ

/-- process_givens, starting at cell 0 with no givens found. -/
def process_givens (fuel : Nat) (σ : S) (givens : List Int) : Nat × S × List Nat :=
  processGivensAux fuel givens 0 0 [] σ

/-- to_simple_string(buf, solution, len): write digit char n%9 + '1' of each
solution row at buf position n/9, where n = row2row_id of the row. -/
def to_simple_string (σ : S) (sol : List Nat) : (Nat → Option Nat) :=
  sol.foldl
    (fun buf r =>
      let n := row2row_id σ r
      updO buf (n / 9) (n % 9 + 49))
    (fun _ => none)

/-- sudoku_solve, with the search and the already-initialized matrix state as
parameters: sudoku_solve itself is this applied to dlx_exact_cover and the
built matrix.  Returns the C return value and the output buffer. -/
def sudoku_solve_core
    (search : S → Nat → Option (Nat × S × (Nat → Option Nat)))
    (σ0 : S) (puzzle : List Int) : Option (Nat × (Nat → Option Nat)) :=
  let g := process_givens 400 σ0 puzzle
  if 81 < g.1 then some (0, fun _ => none)
  else
    match search g.2.1 g.1 with
    | none => none
    | some (k, σ2, sol) =>
      let n := g.1 + k
      if n < 81 then some (0, fun _ => none)
      else
        let solList := g.2.2 ++ (List.range k).filterMap sol
        some (1, to_simple_string σ2 solList)

/-- The search dlx_exact_cover(solution + n, root, 0) as passed by
sudoku_solve (the offset n only shifts the destination array, which the
embedding keeps separate, so the offset argument is unused). -/
def ecSearch (fuel lf : Nat) (σ : S) (_offset : Nat) :
    Option (Nat × S × (Nat → Option Nat)) :=
  dlx_exact_cover fuel lf σ rootId (fun _ => none) 0

/-- sudoku_solve(puzzle, buf). -/
def sudoku_solve (fuel lf : Nat) (puzzle : List Int) :
    Option (Nat × (Nat → Option Nat)) :=
  sudoku_solve_core (ecSearch fuel lf) sudoku_dlx_init puzzle

/-- size_t subtraction n - a with wrap-around. -/
def szSub (x y : Nat) : Nat := if y ≤ x then x - y else szMod - (y - x)

/-- sudoku_nsolve with the two searches and the matrix state as parameters. -/
def sudoku_nsolve_core
    (searchN : S → Nat → Option (Nat × S))
    (search : S → Nat → Option (Nat × S × (Nat → Option Nat)))
    (σ0 : S) (puzzle : List Int) (n : Nat) : Option (Nat × (Nat → Option Nat)) :=
  let g := process_givens 400 σ0 puzzle
  if 81 < g.1 then some (0, fun _ => none)
  else
    match searchN g.2.1 n with
    | none => none
    | some (a, σ2) =>
      match search σ2 g.1 with
      | none => none
      | some (k, σ3, sol) =>
        let stot := g.1 + k
        if stot < 81 then some (0, fun _ => none)
        else
          let solList := g.2.2 ++ (List.range k).filterMap sol
          some (szSub n a, to_simple_string σ3 solList)

/-- The bounded search dlx_has_covers(root, n) as passed by sudoku_nsolve. -/
def hcSearch (fuel lf : Nat) (σ : S) (n : Nat) : Option (Nat × S) :=
  dlx_has_covers fuel lf σ rootId n

/-- sudoku_nsolve(puzzle, buf, n). -/
def sudoku_nsolve (fuel lf : Nat) (puzzle : List Int) (n : Nat) :
    Option (Nat × (Nat → Option Nat)) :=
  sudoku_nsolve_core (hcSearch fuel lf) (ecSearch fuel lf) sudoku_dlx_init puzzle n

/-- One sudoku_hint record. -/
structure SHint where
  constraint_id : Nat
  solution_id : Nat
  nchoices : Nat
deriving DecidableEq

/-- The first hint-filling loop of sudoku_solve_hints: one hint per given,
with nchoices = 1. -/
def given_hints (σ : S) (sol : List Nat) : Nat → Option SHint :=
  (List.range sol.length).foldl
    (fun h i =>
      updO h i
        ⟨σ.idv (σ.chead (sol.getD i 0)), row2row_id σ (sol.getD i 0), 1⟩)
    (fun _ => none)

/-- sudoku_solve_hints with the hint search and matrix state as parameters.
The local dlx_hints[81] array starts uninitialized (all none); the final loop
rebuilds every hints[m] for m < 81 from dlx_hints[m], reading uninitialized
entries (modelled as none) where dlx_hints was never written. -/
def sudoku_solve_hints_core
    (searchH : S → Nat → Option (Nat × S × (Nat → Option DHint)))
    (σ0 : S) (puzzle : List Int) : Option (Nat × (Nat → Option SHint)) :=
  let g := process_givens 400 σ0 puzzle
  if 81 < g.1 then some (0, fun _ => none)
  else
    let hints0 := given_hints g.2.1 g.2.2
    match searchH g.2.1 g.1 with
    | none => none
    | some (k, σ2, dh) =>
      let n := g.1 + k
      if n < 81 then some (0, hints0)
      else
        let hintsF := fun m =>
          if m < 81 then
            match dh m with
            | none => none
            | some d =>
              some ⟨σ2.idv (σ2.chead d.row), row2row_id σ2 d.row, d.sh⟩
          else hints0 m
        some (1, hintsF)

/-- The search dlx_exact_cover_hints(dlx_hints + n, root, 0) as passed by
sudoku_solve_hints. -/
def echSearch (fuel lf : Nat) (σ : S) (offset : Nat) :
    Option (Nat × S × (Nat → Option DHint)) :=
  dlx_exact_cover_hints fuel lf σ rootId (fun _ => none) offset 0

/-- sudoku_solve_hints(puzzle, hints). -/
def sudoku_solve_hints (fuel lf : Nat) (puzzle : List Int) :
    Option (Nat × (Nat → Option SHint)) :=
  sudoku_solve_hints_core (echSearch fuel lf) sudoku_dlx_init puzzle

/-- hint2rcn(hint): decode solution_id into (r, c, n) as the C code does
(note the n component uses % 81). -/
def hint2rcn (solutionId : Nat) : Nat × Nat × Nat :=
  (solutionId / 81 + 1, solutionId / 9 % 9 + 1, solutionId % 81 + 1)

/-- hint2cells(hint, cell_ids): the affected cell positions of the hint's
constraint column, and the C return value i (the loop counter). -/
def hint2cells (constraintId : Nat) : Nat × List Nat :=
  let v := fill_values constraintId 0 0 0 0
  let r := v.1
  let c := v.2.1
  let R := v.2.2.2
  if constraintId < (CELL_ID + 1) * 81 then
    (0, [9 * (r - 1) + c - 1])
  else if constraintId < (ROW_ID + 1) * 81 then
    (9, (List.range 9).map (fun i => 9 * (r - 1) + i))
  else if constraintId < (COL_ID + 1) * 81 then
    (9, (List.range 9).map (fun i => 9 * i + c - 1))
  else
    let r0 := (R - 1) / 3 * 3
    let c0 := (R - 1) % 3 * 3
    (9, (List.range 9).map (fun i => (r0 + i / 3) * 9 + c0 + i % 3))

/-!  Small concrete matrices used to evaluate the embedded code.  -/

/-- A well-formed one-column, one-row matrix: root 0, header 1, node 2.
It has exactly one exact cover (the single row). -/
def tinyS : S where
  left := fun x => if x = 0 then 1 else if x = 1 then 0 else x
  right := fun x => if x = 0 then 1 else if x = 1 then 0 else x
  up := fun x => if x = 1 then 2 else if x = 2 then 1 else x
  down := fun x => if x = 1 then 2 else if x = 2 then 1 else x
  chead := fun x => if x = 2 then 1 else x
  s := fun x => if x = 1 then 1 else 0
  idv := fun _ => 0

/-- A degenerate state in which every link of every node points to the node
itself; every node is live and every cover is a no-op on the links it
traverses. -/
def selfS : S where
  left := fun x => x
  right := fun x => x
  up := fun x => x
  down := fun x => x
  chead := fun x => x
  s := fun _ => 0
  idv := fun _ => 0

/-- An 81-character puzzle whose first cell is the given 1 and whose other
cells are blank (char codes: 49 = the digit 1, 45 = the hyphen). -/
def onePuzzle : List Int := 49 :: List.replicate 80 45

/-!  Rings: the circular doubly-linked lists of the dancing-links structure.

links f g a l says that following the forward link f from a visits the
elements of l in order, with the backward link g pointing back at each step.
A ring anchored at a with body l is a links chain from a through l back to
a, with all members distinct.  -/

/-- Forward/backward chain: f a = x₀, g x₀ = a, f x₀ = x₁, ... -/
def links (f g : Nat → Nat) : Nat → List Nat → Prop
  | _, [] => True
  | a, x :: xs => f a = x ∧ g x = a ∧ links f g x xs

/-- Forward-only chain: f a = x₀, f x₀ = x₁, ... -/
def fpath (f : Nat → Nat) : Nat → List Nat → Prop
  | _, [] => True
  | a, x :: xs => f a = x ∧ fpath f x xs

/-- The last element of a :: l. -/
def endOf (a : Nat) (l : List Nat) : Nat := l.getLastD a

/-- The head of l, or a if l is empty. -/
def headOf (l : List Nat) (a : Nat) : Nat := l.headD a

/-- Circular doubly-linked list anchored at a with body l. -/
def ringAt (f g : Nat → Nat) (a : Nat) (l : List Nat) : Prop :=
  links f g a (l ++ [a]) ∧ (a :: l).Nodup

def decLinks (f g : Nat → Nat) : (a : Nat) → (l : List Nat) → Decidable (links f g a l)
  | _, [] => isTrue trivial
  | a, x :: xs =>
    have _ih : Decidable (links f g x xs) := decLinks f g x xs
    inferInstanceAs (Decidable (f a = x ∧ g x = a ∧ links f g x xs))

instance (f g : Nat → Nat) (a : Nat) (l : List Nat) : Decidable (links f g a l) :=
  decLinks f g a l

def decFpath (f : Nat → Nat) : (a : Nat) → (l : List Nat) → Decidable (fpath f a l)
  | _, [] => isTrue trivial
  | a, x :: xs =>
    have _ih : Decidable (fpath f x xs) := decFpath f x xs
    inferInstanceAs (Decidable (f a = x ∧ fpath f x xs))

instance (f : Nat → Nat) (a : Nat) (l : List Nat) : Decidable (fpath f a l) :=
  decFpath f a l

instance (f g : Nat → Nat) (a : Nat) (l : List Nat) : Decidable (ringAt f g a l) :=
  inferInstanceAs (Decidable (_ ∧ _))

/-!  The static description of a matrix and its dynamic shape.  -/

/-- The static part of a dancing-links matrix: the arena ids of the root,
the column headers and the row nodes, and the partition of the row nodes
into rows.  None of this changes under cover/uncover. -/
structure Desc where
  root : Nat
  headers : List Nat
  nodes : List Nat
  rows : List (List Nat)

/-- The dynamic shape: the live header list (in header-ring order) and each
column's live node list (in top-to-bottom order).  Covered columns keep
their vertical lists. -/
structure Shape where
  hdrs : List Nat
  col : Nat → List Nat

/-- The static description of the one-column one-row matrix of tinyS. -/
def tinyD : Desc where
  root := 0
  headers := [1]
  nodes := [2]
  rows := [[2]]

/-- The dynamic shape of tinyS: header 1 live, its column holding node 2. -/
def tinySh : Shape where
  hdrs := [1]
  col := fun c => if c = 1 then [2] else []

/-- A two-column matrix whose second column is empty: one row [3] in column
1, nothing in column 2, hence no exact cover. -/
def tiny2S : S where
  left := fun x => if x = 0 then 2 else if x = 2 then 1
    else if x = 1 then 0 else if x = 3 then 3 else 0
  right := fun x => if x = 0 then 1 else if x = 1 then 2
    else if x = 2 then 0 else if x = 3 then 3 else 0
  up := fun x => if x = 1 then 3 else if x = 3 then 1
    else if x = 2 then 2 else 0
  down := fun x => if x = 1 then 3 else if x = 3 then 1
    else if x = 2 then 2 else 0
  chead := fun x => if x = 3 then 1 else 0
  s := fun x => if x = 1 then 1 else 0
  idv := fun _ => 0

/-- The static description of the two-column one-row matrix of tiny2S. -/
def tiny2D : Desc where
  root := 0
  headers := [1, 2]
  nodes := [3]
  rows := [[3]]

/-- The dynamic shape of tiny2S. -/
def tiny2Sh : Shape where
  hdrs := [1, 2]
  col := fun c => if c = 1 then [3] else []

/-- Remove node j from the column list of header d. -/
def eraseNode (sh : Shape) (d j : Nat) : Shape :=
  { sh with col := fun x => if x = d then (sh.col d).erase j else sh.col x }

/-- The row of D containing node i (the empty list if none does). -/
def rowOf (D : Desc) (i : Nat) : List Nat :=
  (D.rows.find? (fun r => r.contains i)).getD []

/-- The rest of the cyclic row r viewed from member i: the elements after
(the first occurrence of) i, then the elements before it.  This is the order
in which cover's inner loop visits the other nodes of i's row. -/
def rowRest (r : List Nat) (i : Nat) : List Nat :=
  (r.dropWhile (fun x => x != i)).tail ++ r.takeWhile (fun x => x != i)

/-- The other nodes of the row of i, in cover's traversal order. -/
def partsOf (D : Desc) (i : Nat) : List Nat := rowRest (rowOf D i) i

/-- The removal list of cover(c): for every live row of column c, the other
nodes of that row. -/
def remList (D : Desc) (sh : Shape) (c : Nat) : List Nat :=
  (sh.col c).flatMap (partsOf D)

/-- Every j in J is a known node that is currently live (present in its own
column's list). -/
def liveList (D : Desc) (sh : Shape) (σ : S) (J : List Nat) : Prop :=
  ∀ j ∈ J, j ∈ D.nodes ∧ j ∈ sh.col (σ.chead j)

/-- The core well-formedness invariant of a matrix state: the header ring,
the column rings with correct membership tags, counts and bounds, the static
row rings with one node per column, and the disjointness of all the id
families.  (Maintained by every single removal step.) -/
structure InvCore (D : Desc) (sh : Shape) (σ : S) : Prop where
  hdr_ring : ringAt σ.right σ.left D.root sh.hdrs
  hdrs_sub : ∀ h ∈ sh.hdrs, h ∈ D.headers
  col_ring : ∀ c ∈ D.headers, ringAt σ.down σ.up c (sh.col c)
  col_chead : ∀ c ∈ D.headers, ∀ n ∈ sh.col c, σ.chead n = c
  col_sub : ∀ c ∈ D.headers, ∀ n ∈ sh.col c, n ∈ D.nodes
  s_count : ∀ c ∈ D.headers, σ.s c = (sh.col c).length
  s_bound : ∀ c ∈ D.headers, (sh.col c).length < szMod
  rows_form : ∀ r ∈ D.rows, r ≠ []
  rows_ring : ∀ r ∈ D.rows, ringAt σ.right σ.left (r.headD 0) r.tail
  rows_chead_nodup : ∀ r ∈ D.rows, (r.map σ.chead).Nodup
  rows_nodes : D.rows.flatten.Perm D.nodes
  chead_mem : ∀ n ∈ D.nodes, σ.chead n ∈ D.headers
  root_not_hdr : D.root ∉ D.headers
  root_not_node : D.root ∉ D.nodes
  hdr_nodup : D.headers.Nodup
  node_nodup : D.nodes.Nodup
  hdr_node_disj : ∀ h ∈ D.headers, h ∉ D.nodes

/-- In every live row whose own column is still in the header list, the
whole row is live.  This is the protocol invariant that makes cover sound:
the rows cover traverses have all their other nodes present.  It holds
between complete cover calls but not in the middle of one. -/
def RowLive (D : Desc) (sh : Shape) (σ : S) : Prop :=
  ∀ r ∈ D.rows, ∀ n ∈ r, n ∈ sh.col (σ.chead n) → σ.chead n ∈ sh.hdrs →
    ∀ j ∈ r, j ∈ sh.col (σ.chead j)

/-- Full well-formedness: the core invariant plus the row-liveness protocol
invariant. -/
def Inv (D : Desc) (sh : Shape) (σ : S) : Prop :=
  InvCore D sh σ ∧ RowLive D sh σ

/-- The column-liveness protocol invariant used by the search: in every row
holding a live node of a live column, every node's column is still in the
header list.  Together with RowLive it is preserved by cover and lets the
search cover the other columns of a chosen row. -/
def RowHdr (D : Desc) (sh : Shape) (σ : S) : Prop :=
  ∀ r ∈ D.rows, ∀ n ∈ r, n ∈ sh.col (σ.chead n) → σ.chead n ∈ sh.hdrs →
    ∀ j ∈ r, σ.chead j ∈ sh.hdrs

/-- Every node of every row is live: the state of a freshly built matrix
before any cover. -/
def AllLive (D : Desc) (sh : Shape) (σ : S) : Prop :=
  ∀ r ∈ D.rows, ∀ x ∈ r, x ∈ sh.col (σ.chead x)

/-- The arena ids of a row of m contiguous nodes starting at base b. -/
def newRowIds (b m : Nat) : List Nat := (List.range m).map (b + ·)

/-- The description of a matrix after appending rows (each given by its node
base and its column-index list) to an existing description. -/
def extendDesc (D : Desc) (rows : List (Nat × List Nat)) : Desc :=
  { D with
    nodes := D.nodes
      ++ (rows.map (fun rc => newRowIds rc.1 rc.2.length)).flatten,
    rows := D.rows ++ rows.map (fun rc => newRowIds rc.1 rc.2.length) }

/-- The second stage of matrix construction: one dlx_make_row call per row,
each row given by its node base and its column-index list. -/
def buildRows (hbase : Nat) (σ : S) (rws : List (Nat × List Nat)) : S :=
  rws.foldl (fun τ rc => dlx_make_row τ rc.1 hbase rc.2) σ

/-- ys lists one representative live node per chosen row of an exact cover
of the live submatrix whose header list is hd: every chosen row is live, and
the columns of the chosen rows are exactly the headers hd, each covered
once. -/
def IsCover (D : Desc) (sh : Shape) (σ : S) (hd : List Nat)
    (ys : List Nat) : Prop :=
  (∀ y ∈ ys, y ∈ D.nodes ∧ y ∈ sh.col (σ.chead y)) ∧
  ((ys.map (fun y => (rowOf D y).map σ.chead)).flatten).Perm hd

/-- The intermediate invariant of dlx_make_row: after appending the prefix
done of the row's column list, the nodes b ... b+done.length-1 are linked
into their columns (node b+j into column hbase+done[j]), the header ring and
the old rows are untouched, counts match, and the processed new nodes carry
their final horizontal links for a row of total width n. -/
structure MRInv (D : Desc) (hbase b n : Nat) (done : List Nat)
    (sh : Shape) (σ : S) : Prop where
  hdrs_eq : sh.hdrs = D.headers
  hdr_ring : ringAt σ.right σ.left D.root sh.hdrs
  col_ring : ∀ c ∈ D.headers, ringAt σ.down σ.up c (sh.col c)
  col_chead : ∀ c ∈ D.headers, ∀ x ∈ sh.col c, σ.chead x = c
  s_count : ∀ c ∈ D.headers, σ.s c = (sh.col c).length
  col_mem : ∀ c ∈ D.headers, ∀ x ∈ sh.col c,
    x ∈ D.nodes ∨ ∃ j, j < done.length ∧ x = b + j
  col_parts : ∀ (j : Nat) (h : j < done.length),
    b + j ∈ sh.col (hbase + done.get ⟨j, h⟩)
  rows_ring : ∀ r ∈ D.rows, ringAt σ.right σ.left (r.headD 0) r.tail
  rows_chead : ∀ r ∈ D.rows, (r.map σ.chead).Nodup
  chead_mem : ∀ x ∈ D.nodes, σ.chead x ∈ D.headers
  all_live : ∀ r ∈ D.rows, ∀ x ∈ r, x ∈ sh.col (σ.chead x)
  new_lr : ∀ j, j < done.length →
    σ.left (b + j) = (if j = 0 then b + n - 1 else b + j - 1) ∧
    σ.right (b + j) = (if j + 1 = n then b else b + j + 1)

/-!
# Theorems

Basic facts about the update helpers, then the claim theorems.
-/

@[simp] theorem upd_same (f : Nat → Nat) (a b : Nat) : upd f a b a = b := by
  simp [upd]

@[simp] theorem upd_other (f : Nat → Nat) (a b x : Nat) (h : x ≠ a) :
    upd f a b x = f x := by
  simp [upd, h]

theorem upd_upd (f : Nat → Nat) (a b c : Nat) : upd (upd f a b) a c = upd f a c := by
  funext x
  by_cases h : x = a <;> simp [upd, h]

theorem upd_id (f : Nat → Nat) (a : Nat) : upd f a (f a) = f := by
  funext x
  by_cases h : x = a <;> simp [upd, h]

theorem szInc_szDec (x : Nat) (h : x < szMod) : szInc (szDec x) = x := by
  rcases Nat.eq_zero_or_pos x with h0 | h0
  · subst h0; simp [szInc, szDec]
  · have h1 : x ≠ 0 := by omega
    have h2 : x - 1 ≠ szMod - 1 := by
      have : 0 < szMod := by norm_num [szMod]
      omega
    simp [szInc, szDec, h1, h2]
    omega

/-!  endOf / headOf basics.  -/

@[simp] theorem endOf_nil (a : Nat) : endOf a [] = a := rfl

@[simp] theorem endOf_cons (a x : Nat) (l : List Nat) :
    endOf a (x :: l) = endOf x l := by
  cases l <;> simp [endOf, List.getLastD]

theorem endOf_append_single (a b : Nat) (l : List Nat) :
    endOf a (l ++ [b]) = b := by
  induction l generalizing a with
  | nil => simp
  | cons x xs ih => simpa using ih x

/-!  fpath and links lemmas.  -/

theorem links_fpath (f g : Nat → Nat) :
    ∀ (l : List Nat) (a : Nat), links f g a l → fpath f a l := by
  intro l
  induction l with
  | nil => intro a _; trivial
  | cons x xs ih =>
    intro a h
    obtain ⟨h1, _, h3⟩ := h
    exact ⟨h1, ih x h3⟩

theorem fpath_append (f : Nat → Nat) :
    ∀ (l1 l2 : List Nat) (a : Nat),
      fpath f a (l1 ++ l2) ↔ fpath f a l1 ∧ fpath f (endOf a l1) l2 := by
  intro l1
  induction l1 with
  | nil => intro l2 a; simp [fpath]
  | cons x xs ih =>
    intro l2 a
    simp only [List.cons_append, fpath, endOf_cons, List.append_eq]
    rw [ih l2 x]
    tauto

theorem links_append (f g : Nat → Nat) :
    ∀ (l1 l2 : List Nat) (a : Nat),
      links f g a (l1 ++ l2) ↔ links f g a l1 ∧ links f g (endOf a l1) l2 := by
  intro l1
  induction l1 with
  | nil => intro l2 a; simp [links]
  | cons x xs ih =>
    intro l2 a
    simp only [List.cons_append, links, endOf_cons, List.append_eq]
    rw [ih l2 x]
    tauto

theorem gpath_of_links (f g : Nat → Nat) :
    ∀ (l : List Nat) (a b : Nat), links f g a (l ++ [b]) →
      fpath g b (l.reverse ++ [a]) := by
  intro l
  induction l with
  | nil =>
    intro a b h
    obtain ⟨_, h2, _⟩ := h
    exact ⟨h2, trivial⟩
  | cons x xs ih =>
    intro a b h
    obtain ⟨h1, h2, h3⟩ := h
    have hx := ih x b h3
    simp only [List.reverse_cons]
    rw [fpath_append g (xs.reverse ++ [x]) [a] b]
    refine ⟨hx, ?_⟩
    rw [endOf_append_single b x xs.reverse]
    exact ⟨h2, trivial⟩

theorem links_congr (f g f' g' : Nat → Nat) :
    ∀ (l : List Nat) (a : Nat),
      (∀ x ∈ a :: l.dropLast, f' x = f x) → (∀ y ∈ l, g' y = g y) →
      links f g a l → links f' g' a l := by
  intro l
  induction l with
  | nil => intro a _ _ _; trivial
  | cons x xs ih =>
    intro a hf hg h
    obtain ⟨h1, h2, h3⟩ := h
    cases xs with
    | nil =>
      exact ⟨(hf a (by simp)).trans h1, (hg x (by simp)).trans h2, trivial⟩
    | cons w ws =>
      have hd : (x :: w :: ws).dropLast = x :: (w :: ws).dropLast := by
        simp
      refine ⟨(hf a (by simp [hd])).trans h1, (hg x (by simp)).trans h2, ?_⟩
      apply ih x ?_ (fun y hy => hg y (List.mem_cons_of_mem _ hy)) h3
      intro z hz
      apply hf
      rw [hd]
      exact List.mem_cons_of_mem _ hz

theorem endOf_mem : ∀ (l : List Nat) (a : Nat), endOf a l ∈ a :: l := by
  intro l
  induction l with
  | nil => intro a; simp
  | cons x xs ih =>
    intro a
    rw [endOf_cons]
    have := ih x
    simp only [List.mem_cons] at this ⊢
    tauto

theorem headOf_mem (l : List Nat) (a : Nat) : headOf l a ∈ a :: l := by
  cases l <;> simp [headOf]

theorem endOf_not_mem_dropLast :
    ∀ (l : List Nat) (a : Nat), (a :: l).Nodup → endOf a l ∉ (a :: l).dropLast := by
  intro l
  induction l with
  | nil => intro a _; simp
  | cons x xs ih =>
    intro a hn
    rw [endOf_cons]
    have hd : (a :: x :: xs).dropLast = a :: (x :: xs).dropLast := by simp
    rw [hd]
    intro hmem
    rcases List.mem_cons.1 hmem with hmem | hmem
    · have h1 : endOf x xs ∈ x :: xs := endOf_mem xs x
      have h2 : a ∉ x :: xs := by
        have := List.nodup_cons.1 hn
        exact this.1
      rw [hmem] at h1
      exact h2 h1
    · exact ih x (List.nodup_cons.1 hn).2 hmem

theorem ring_congr (f g f' g' : Nat → Nat) (a : Nat) (l : List Nat)
    (h : ∀ x ∈ a :: l, f' x = f x ∧ g' x = g x)
    (hr : ringAt f g a l) : ringAt f' g' a l := by
  obtain ⟨hl, hn⟩ := hr
  refine ⟨?_, hn⟩
  apply links_congr f g f' g' _ _ ?_ ?_ hl
  · intro x hx
    apply (h x ?_).1
    rcases List.mem_cons.1 hx with hx | hx
    · simp [hx]
    · have := List.dropLast_sublist (l ++ [a])
      have hx2 : x ∈ l ++ [a] := this.mem hx
      have hx3 : x ∈ l := by
        have : (l ++ [a]).dropLast = l := by simp
        rw [this] at hx
        exact hx
      simp [hx3]
  · intro y hy
    apply (h y ?_).2
    rcases List.mem_append.1 hy with hy | hy
    · simp [hy]
    · simp at hy
      simp [hy]

/-- The fundamental removal surgery: unlinking j from the ring anchored at a
(writing f at j's predecessor and g at j's successor, exactly what remove_ud
and remove_lr do) yields the ring without j, and j's own links are the
predecessor and successor. -/
theorem ring_erase (f g : Nat → Nat) (a j : Nat) (l1 l2 : List Nat)
    (hr : ringAt f g a (l1 ++ j :: l2)) :
    g j = endOf a l1 ∧ f j = headOf l2 a ∧
    f (endOf a l1) = j ∧ g (headOf l2 a) = j ∧
    ringAt (upd f (endOf a l1) (f j)) (upd g (headOf l2 a) (g j)) a (l1 ++ l2) := by
  obtain ⟨hl, hn⟩ := hr
  have hassoc : (l1 ++ j :: l2) ++ [a] = l1 ++ (j :: (l2 ++ [a])) := by simp
  rw [hassoc, links_append] at hl
  obtain ⟨hl1, hpj, hgj, hrest⟩ := hl
  -- nodup components
  have hn' := hn
  simp only [List.nodup_cons, List.nodup_append, List.mem_append,
    List.mem_cons, not_or, List.disjoint_left] at hn'
  obtain ⟨⟨ha1, haj, ha2⟩, hl1n, ⟨hjl2, hl2n⟩, hdisj⟩ := hn'
  have hjl1 : j ∉ l1 := fun hmem => (hdisj hmem).1 rfl
  have hd12 : ∀ x ∈ l1, x ∉ l2 := fun x hx hx2 => (hdisj hx).2 hx2
  -- j's links
  have hfj : f j = headOf l2 a := by
    cases l2 with
    | nil => exact hrest.1
    | cons q t => exact hrest.1
  -- the endpoints
  have hpmem : endOf a l1 ∈ a :: l1 := endOf_mem l1 a
  have hqmem : headOf l2 a ∈ a :: l2 := headOf_mem l2 a
  have hgqj : g (headOf l2 a) = j := by
    cases l2 with
    | nil => exact hrest.2.1
    | cons q t => exact hrest.2.1
  refine ⟨hgj, hfj, hpj, hgqj, ?_, ?_⟩
  · -- the links chain of the shortened ring
    have hassoc2 : (l1 ++ l2) ++ [a] = l1 ++ (l2 ++ [a]) := by simp
    rw [hassoc2, links_append]
    constructor
    · -- links on l1 unchanged
      cases l1 with
      | nil => trivial
      | cons x xs =>
        apply links_congr f g _ _ _ _ ?_ ?_ hl1
        · intro z hz
          apply upd_other
          intro hzp
          have hnd : (a :: x :: xs).Nodup := List.nodup_cons.2 ⟨ha1, hl1n⟩
          have hnot : endOf a (x :: xs) ∉ (a :: x :: xs).dropLast :=
            endOf_not_mem_dropLast (x :: xs) a hnd
          have hdl : (a :: x :: xs).dropLast = a :: (x :: xs).dropLast := by simp
          rw [hdl] at hnot
          rw [← hzp] at hnot
          exact hnot hz
        · intro y hy
          apply upd_other
          intro hyq
          rw [hyq] at hy
          rcases List.mem_cons.1 hqmem with hq | hq
          · rw [hq] at hy; exact ha1 hy
          · exact hd12 _ hy hq
    · -- links from the predecessor through l2 back to a
      cases l2 with
      | nil =>
        refine ⟨?_, ?_, trivial⟩
        · rw [upd_same, hfj]; rfl
        · show upd g a (g j) a = endOf a l1
          rw [upd_same, hgj]
      | cons q t =>
        obtain ⟨hfjq, hgq, hrest2⟩ := hrest
        rw [List.append_eq] at hrest2
        have hqv : headOf (q :: t) a = q := rfl
        refine ⟨?_, ?_, ?_⟩
        · rw [upd_same, hfj, hqv]
        · rw [hqv]
          show upd g q (g j) q = endOf a l1
          rw [upd_same, hgj]
        · -- links f' g' q (t ++ [a]) by congruence
          apply links_congr f g _ _ _ _ ?_ ?_ hrest2
          · intro z hz
            apply upd_other
            intro hzp
            have hz2 : z ∈ q :: t := by
              rcases List.mem_cons.1 hz with hz | hz
              · simp [hz]
              · have hdlc : (t ++ [a]).dropLast = t := by simp
                rw [hdlc] at hz
                simp [hz]
            rcases List.mem_cons.1 hpmem with hp | hp
            · rw [hzp, hp] at hz2; exact ha2 hz2
            · rw [hzp] at hz2; exact hd12 _ hp hz2
          · intro y hy
            apply upd_other
            intro hyq
            rw [hqv] at hyq
            rcases List.mem_append.1 hy with hy | hy
            · rw [hyq] at hy
              exact (List.nodup_cons.1 hl2n).1 hy
            · simp only [List.mem_singleton] at hy
              rw [hy] at hyq
              rw [hyq] at ha2
              exact ha2 (List.mem_cons_self q t)
  · -- nodup of the shortened ring
    have hsub : (a :: (l1 ++ l2)).Sublist (a :: (l1 ++ j :: l2)) := by
      apply List.Sublist.cons₂
      apply List.Sublist.append_left
      exact List.sublist_cons_self j l2
    exact hn.sublist hsub

/-- Rings are rotation-invariant: the ring through a with i somewhere in its
body is also the ring through i with the rest rotated around. -/
theorem ring_rot (f g : Nat → Nat) (a i : Nat) (l1 l2 : List Nat)
    (hr : ringAt f g a (l1 ++ i :: l2)) : ringAt f g i (l2 ++ a :: l1) := by
  obtain ⟨hl, hn⟩ := hr
  have hassoc : (l1 ++ i :: l2) ++ [a] = l1 ++ (i :: (l2 ++ [a])) := by simp
  rw [hassoc, links_append] at hl
  obtain ⟨hl1, hpi, hgi, hrest⟩ := hl
  rw [links_append] at hrest
  obtain ⟨hi2, hfe, hge, _⟩ := hrest
  constructor
  · have hassoc2 : (l2 ++ a :: l1) ++ [i] = l2 ++ ([a] ++ (l1 ++ [i])) := by simp
    rw [hassoc2, links_append]
    refine ⟨hi2, hfe, hge, ?_⟩
    show links f g a (l1 ++ [i])
    rw [links_append]
    exact ⟨hl1, hpi, hgi, trivial⟩
  · have hperm : (a :: (l1 ++ i :: l2)).Perm (i :: (l2 ++ a :: l1)) := by
      have h1 : (l1 ++ i :: l2).Perm (i :: (l1 ++ l2)) := List.perm_middle
      have h2 : (l2 ++ a :: l1).Perm (a :: (l2 ++ l1)) := List.perm_middle
      have hstep1 : (a :: (l1 ++ i :: l2)).Perm (a :: i :: (l1 ++ l2)) := h1.cons a
      have hstep2 : (a :: i :: (l1 ++ l2)).Perm (i :: a :: (l1 ++ l2)) :=
        List.Perm.swap i a _
      have hstep3 : (i :: a :: (l1 ++ l2)).Perm (i :: a :: (l2 ++ l1)) :=
        ((List.perm_append_comm).cons a).cons i
      have hstep4 : (i :: a :: (l2 ++ l1)).Perm (i :: (l2 ++ a :: l1)) :=
        (h2.symm).cons i
      exact ((hstep1.trans hstep2).trans hstep3).trans hstep4
    exact hperm.nodup hn

/-!  The effect of one removal/restoration step on the state fields.  -/

theorem covStep_right (σ : S) (j : Nat) : (covStep σ j).right = σ.right := rfl

theorem covStep_left (σ : S) (j : Nat) : (covStep σ j).left = σ.left := rfl

theorem covStep_chead (σ : S) (j : Nat) : (covStep σ j).chead = σ.chead := rfl

theorem covStep_idv (σ : S) (j : Nat) : (covStep σ j).idv = σ.idv := rfl

theorem covStep_down (σ : S) (j : Nat) :
    (covStep σ j).down = upd σ.down (σ.up j) (σ.down j) := rfl

theorem covStep_up (σ : S) (j : Nat) :
    (covStep σ j).up = upd σ.up (σ.down j) (σ.up j) := by
  show upd σ.up ((upd σ.down (σ.up j) (σ.down j)) j) (σ.up j) =
    upd σ.up (σ.down j) (σ.up j)
  have : (upd σ.down (σ.up j) (σ.down j)) j = σ.down j := by
    show (if j = σ.up j then σ.down j else σ.down j) = σ.down j
    rw [ite_self]
  rw [this]

theorem covStep_s (σ : S) (j : Nat) :
    (covStep σ j).s = upd σ.s (σ.chead j) (szDec (σ.s (σ.chead j))) := rfl

theorem uncovStep_right (σ : S) (j : Nat) : (uncovStep σ j).right = σ.right := rfl

theorem uncovStep_left (σ : S) (j : Nat) : (uncovStep σ j).left = σ.left := rfl

theorem uncovStep_chead (σ : S) (j : Nat) : (uncovStep σ j).chead = σ.chead := rfl

theorem uncovStep_idv (σ : S) (j : Nat) : (uncovStep σ j).idv = σ.idv := rfl

theorem uncovStep_s (σ : S) (j : Nat) :
    (uncovStep σ j).s = upd σ.s (σ.chead j) (szInc (σ.s (σ.chead j))) := rfl

theorem uncovStep_up (σ : S) (j : Nat) :
    (uncovStep σ j).up = upd σ.up (σ.down j) j := rfl

theorem uncovStep_down (σ : S) (j : Nat) :
    (uncovStep σ j).down = upd σ.down ((upd σ.up (σ.down j) j) j) j := rfl

/-- A removal step followed by its restoration step is the identity when the
node is currently linked into its vertical list (its neighbours point back at
it) and the column count is in range. -/
theorem covStep_uncovStep (σ : S) (j : Nat)
    (hdu : σ.down (σ.up j) = j) (hud : σ.up (σ.down j) = j)
    (hs : σ.s (σ.chead j) < szMod) :
    uncovStep (covStep σ j) j = σ := by
  have htd : (covStep σ j).down j = σ.down j := by
    rw [covStep_down]
    show (if j = σ.up j then σ.down j else σ.down j) = σ.down j
    rw [ite_self]
  have htu : (covStep σ j).up j = σ.up j := by
    rw [covStep_up]
    show (if j = σ.down j then σ.up j else σ.up j) = σ.up j
    rw [ite_self]
  have hsf : (uncovStep (covStep σ j) j).s = σ.s := by
    rw [uncovStep_s, covStep_chead, covStep_s]
    rw [show (upd σ.s (σ.chead j) (szDec (σ.s (σ.chead j)))) (σ.chead j)
      = szDec (σ.s (σ.chead j)) from upd_same _ _ _]
    rw [szInc_szDec _ hs, upd_upd, upd_id]
  have hupf : (uncovStep (covStep σ j) j).up = σ.up := by
    rw [uncovStep_up, htd, covStep_up, upd_upd]
    funext x
    by_cases hx : x = σ.down j
    · rw [hx, upd_same]
      exact hud.symm
    · rw [upd_other _ _ _ _ hx]
  have hinner : (upd (covStep σ j).up ((covStep σ j).down j) j) j = σ.up j := by
    rw [htd]
    by_cases hx : j = σ.down j
    · show (if j = σ.down j then j else (covStep σ j).up j) = σ.up j
      rw [if_pos hx]
      rw [← hx] at hud
      exact hud.symm
    · show (if j = σ.down j then j else (covStep σ j).up j) = σ.up j
      rw [if_neg hx, htu]
  have hdnf : (uncovStep (covStep σ j) j).down = σ.down := by
    rw [uncovStep_down, hinner, covStep_down, upd_upd]
    funext x
    by_cases hx : x = σ.up j
    · rw [hx, upd_same]
      exact hdu.symm
    · rw [upd_other _ _ _ _ hx]
  refine S.ext ?_ ?_ ?_ ?_ ?_ ?_ ?_
  · exact uncovStep_left (covStep σ j) j
  · exact uncovStep_right (covStep σ j) j
  · exact hupf
  · exact hdnf
  · exact uncovStep_chead (covStep σ j) j
  · exact hsf
  · exact uncovStep_idv (covStep σ j) j

/-- Distinct columns of a well-formed matrix are disjoint (headers included). -/
theorem cols_disjoint (D : Desc) (sh : Shape) (σ : S) (hI : InvCore D sh σ)
    (c1 : Nat) (hc1 : c1 ∈ D.headers) (c2 : Nat) (hc2 : c2 ∈ D.headers)
    (hne : c1 ≠ c2) : ∀ x ∈ c1 :: sh.col c1, x ∉ c2 :: sh.col c2 := by
  intro x hx hx2
  rcases List.mem_cons.1 hx with hx | hx
  · rcases List.mem_cons.1 hx2 with hx2 | hx2
    · exact hne (by rw [← hx]; exact hx2)
    · exact hI.hdr_node_disj c1 hc1 (hx ▸ hI.col_sub c2 hc2 x hx2)
  · rcases List.mem_cons.1 hx2 with hx2 | hx2
    · exact hI.hdr_node_disj c2 hc2 (hx2 ▸ hI.col_sub c1 hc1 x hx)
    · have h1 : σ.chead x = c1 := hI.col_chead c1 hc1 x hx
      have h2 : σ.chead x = c2 := hI.col_chead c2 hc2 x hx2
      exact hne (h1.symm.trans h2)

/-- The central per-step lemma: removing a live node j from its column
preserves the core invariant with j erased from its column's list, leaves
every other column's links and count untouched, and j's neighbours pointed
at j (so the step can be undone). -/
theorem covStep_spec (D : Desc) (sh : Shape) (σ : S) (j : Nat)
    (hI : InvCore D sh σ) (hjn : j ∈ D.nodes) (hlj : j ∈ sh.col (σ.chead j)) :
    InvCore D (eraseNode sh (σ.chead j) j) (covStep σ j) ∧
    (∀ c' ∈ D.headers, c' ≠ σ.chead j →
      (∀ x ∈ c' :: sh.col c',
        (covStep σ j).down x = σ.down x ∧ (covStep σ j).up x = σ.up x) ∧
      (covStep σ j).s c' = σ.s c') ∧
    σ.down (σ.up j) = j ∧ σ.up (σ.down j) = j ∧ σ.s (σ.chead j) < szMod := by
  have hdh : σ.chead j ∈ D.headers := hI.chead_mem j hjn
  obtain ⟨l1, l2, hsplit⟩ := List.append_of_mem hlj
  have hrd := hI.col_ring (σ.chead j) hdh
  rw [hsplit] at hrd
  obtain ⟨hgj, hfj, hpj, hgqj, hring⟩ :=
    ring_erase σ.down σ.up (σ.chead j) j l1 l2 hrd
  have hdu : σ.down (σ.up j) = j := by rw [hgj]; exact hpj
  have hud : σ.up (σ.down j) = j := by rw [hfj]; exact hgqj
  have hples : σ.up j ∈ σ.chead j :: sh.col (σ.chead j) := by
    rw [hgj, hsplit]
    rcases List.mem_cons.1 (endOf_mem l1 (σ.chead j)) with h | h
    · rw [h]; exact List.mem_cons_self _ _
    · exact List.mem_cons_of_mem _ (List.mem_append_left _ h)
  have hqles : σ.down j ∈ σ.chead j :: sh.col (σ.chead j) := by
    rw [hfj, hsplit]
    rcases List.mem_cons.1 (headOf_mem l2 (σ.chead j)) with h | h
    · rw [h]; exact List.mem_cons_self _ _
    · exact List.mem_cons_of_mem _
        (List.mem_append_right _ (List.mem_cons_of_mem _ h))
  have hsb : σ.s (σ.chead j) < szMod := by
    rw [hI.s_count _ hdh]; exact hI.s_bound _ hdh
  have hjl1 : j ∉ l1 := by
    have hnd := (hI.col_ring (σ.chead j) hdh).2
    rw [hsplit] at hnd
    have h2 := (List.nodup_cons.1 hnd).2
    rw [List.nodup_append] at h2
    intro hmem
    exact h2.2.2 hmem (List.mem_cons_self j l2)
  have hstab : ∀ c' ∈ D.headers, c' ≠ σ.chead j →
      ∀ x ∈ c' :: sh.col c',
        (covStep σ j).down x = σ.down x ∧ (covStep σ j).up x = σ.up x := by
    intro c' hc' hne x hx
    have hnotin := cols_disjoint D sh σ hI c' hc' (σ.chead j) hdh hne x hx
    constructor
    · rw [covStep_down]
      apply upd_other
      intro hxe
      exact hnotin (by rw [hxe]; exact hples)
    · rw [covStep_up]
      apply upd_other
      intro hxe
      exact hnotin (by rw [hxe]; exact hqles)
  have herase : (eraseNode sh (σ.chead j) j).col (σ.chead j)
      = (sh.col (σ.chead j)).erase j := by
    show (if σ.chead j = σ.chead j then (sh.col (σ.chead j)).erase j
      else sh.col (σ.chead j)) = (sh.col (σ.chead j)).erase j
    rw [if_pos rfl]
  have hcol' : (eraseNode sh (σ.chead j) j).col (σ.chead j) = l1 ++ l2 := by
    rw [herase, hsplit, List.erase_append_right _ hjl1, List.erase_cons_head]
  have hcolO : ∀ c', c' ≠ σ.chead j →
      (eraseNode sh (σ.chead j) j).col c' = sh.col c' := by
    intro c' hne
    show (if c' = σ.chead j then (sh.col (σ.chead j)).erase j
      else sh.col c') = sh.col c'
    rw [if_neg hne]
  have hsO : ∀ c', c' ≠ σ.chead j → (covStep σ j).s c' = σ.s c' := by
    intro c' hne
    rw [covStep_s]
    exact upd_other _ _ _ _ hne
  have hsubcol : ∀ c ∈ D.headers, ∀ n ∈ (eraseNode sh (σ.chead j) j).col c,
      n ∈ sh.col c := by
    intro c hc n hn
    by_cases hcd : c = σ.chead j
    · subst hcd
      rw [herase] at hn
      exact List.mem_of_mem_erase hn
    · rw [hcolO c hcd] at hn
      exact hn
  refine ⟨⟨?_, ?_, ?_, ?_, ?_, ?_, ?_, ?_, ?_, ?_, ?_, ?_, ?_, ?_, ?_, ?_, ?_⟩,
    ?_, hdu, hud, hsb⟩
  · exact hI.hdr_ring
  · exact hI.hdrs_sub
  · intro c hc
    by_cases hcd : c = σ.chead j
    · subst hcd
      rw [hcol', covStep_down, covStep_up]
      rw [← hgj, ← hfj] at hring
      exact hring
    · rw [hcolO c hcd]
      exact ring_congr σ.down σ.up _ _ c (sh.col c) (hstab c hc hcd)
        (hI.col_ring c hc)
  · intro c hc n hn
    exact hI.col_chead c hc n (hsubcol c hc n hn)
  · intro c hc n hn
    exact hI.col_sub c hc n (hsubcol c hc n hn)
  · intro c hc
    by_cases hcd : c = σ.chead j
    · subst hcd
      rw [covStep_s, upd_same, hI.s_count _ hdh, hcol', hsplit]
      have hlen : (l1 ++ j :: l2).length ≠ 0 := by simp
      rw [szDec, if_neg hlen]
      simp [List.length_append]
    · rw [hsO c hcd, hcolO c hcd]
      exact hI.s_count c hc
  · intro c hc
    by_cases hcd : c = σ.chead j
    · subst hcd
      rw [hcol']
      have hb := hI.s_bound _ hdh
      rw [hsplit] at hb
      simp only [List.length_append, List.length_cons] at hb ⊢
      omega
    · rw [hcolO c hcd]
      exact hI.s_bound c hc
  · exact hI.rows_form
  · exact hI.rows_ring
  · exact hI.rows_chead_nodup
  · exact hI.rows_nodes
  · exact hI.chead_mem
  · exact hI.root_not_hdr
  · exact hI.root_not_node
  · exact hI.hdr_nodup
  · exact hI.node_nodup
  · exact hI.hdr_node_disj
  · intro c' hc' hne
    exact ⟨hstab c' hc' hne, hsO c' hne⟩

/-- takeWhile (not equal to i) of a list split at its first i is the prefix. -/
theorem takeWhile_split (i : Nat) :
    ∀ (l1 l2 : List Nat), i ∉ l1 →
      (l1 ++ i :: l2).takeWhile (fun x => x != i) = l1 := by
  intro l1
  induction l1 with
  | nil =>
    intro l2 _
    rw [List.nil_append, List.takeWhile_cons]
    simp
  | cons x xs ih =>
    intro l2 hni
    have hxi : (x != i) = true := by
      simp only [bne_iff_ne, ne_eq]
      intro h
      exact hni (by simp [h])
    rw [List.cons_append, List.takeWhile_cons, if_pos hxi,
      ih l2 (fun h => hni (by simp [h]))]

/-- dropWhile (not equal to i) of a list split at its first i is i and the
suffix. -/
theorem dropWhile_split (i : Nat) :
    ∀ (l1 l2 : List Nat), i ∉ l1 →
      (l1 ++ i :: l2).dropWhile (fun x => x != i) = i :: l2 := by
  intro l1
  induction l1 with
  | nil =>
    intro l2 _
    rw [List.nil_append, List.dropWhile_cons]
    simp
  | cons x xs ih =>
    intro l2 hni
    have hxi : (x != i) = true := by
      simp only [bne_iff_ne, ne_eq]
      intro h
      exact hni (by simp [h])
    rw [List.cons_append, List.dropWhile_cons, if_pos hxi,
      ih l2 (fun h => hni (by simp [h]))]

/-- Splitting a list at a member not in the prefix: rowRest is the part
after it followed by the part before it. -/
theorem rowRest_eq (i : Nat) (l1 l2 : List Nat) (h : i ∉ l1) :
    rowRest (l1 ++ i :: l2) i = l2 ++ l1 := by
  unfold rowRest
  rw [takeWhile_split i l1 l2 h, dropWhile_split i l1 l2 h]
  rfl

/-- The cyclic row seen from any of its members: rotating the row ring to
start at i gives a ring through the other members in traversal order. -/
theorem ring_rowRest (f g : Nat → Nat) (a : Nat) (t : List Nat) (i : Nat)
    (hi : i ∈ a :: t) (hr : ringAt f g a t) :
    ringAt f g i (rowRest (a :: t) i) := by
  obtain ⟨s1, s2, hsplit⟩ := List.append_of_mem hi
  have hnd : (a :: t).Nodup := hr.2
  have hins1 : i ∉ s1 := by
    rw [hsplit] at hnd
    rw [List.nodup_append] at hnd
    intro hmem
    exact hnd.2.2 hmem (List.mem_cons_self i s2)
  rw [hsplit, rowRest_eq i s1 s2 hins1]
  cases s1 with
  | nil =>
    have ha : a = i := by
      have := hsplit
      rw [List.nil_append] at this
      exact (List.cons_eq_cons.1 this).1
    have ht : t = s2 := by
      have := hsplit
      rw [List.nil_append] at this
      exact (List.cons_eq_cons.1 this).2
    rw [← ha, ← ht]
    simpa using hr
  | cons b s1' =>
    have hab : a = b ∧ t = s1' ++ i :: s2 := by
      have := hsplit
      rw [List.cons_append] at this
      exact ⟨(List.cons_eq_cons.1 this).1, (List.cons_eq_cons.1 this).2⟩
    obtain ⟨hab1, hab2⟩ := hab
    rw [hab2] at hr
    have := ring_rot f g a i s1' s2 hr
    rw [← hab1]
    simpa using this

/-- fpath depends on f only at the start and the intermediate points. -/
theorem fpath_congr (f f' : Nat → Nat) :
    ∀ (l : List Nat) (x : Nat), (∀ y ∈ x :: l, f' y = f y) →
      fpath f x l → fpath f' x l := by
  intro l
  induction l with
  | nil => intro x _ _; trivial
  | cons p rest ih =>
    intro x hcong h
    obtain ⟨h1, h2⟩ := h
    refine ⟨(hcong x (by simp)).trans h1, ?_⟩
    exact ih p (fun y hy => hcong y (List.mem_cons_of_mem _ hy)) h2

/-- Members of two different rows of a partition with no duplicates anywhere
are distinct. -/
theorem flatten_nodup_disjoint :
    ∀ (L : List (List Nat)), L.flatten.Nodup →
      ∀ r1 ∈ L, ∀ r2 ∈ L, r1 ≠ r2 → ∀ x ∈ r1, x ∉ r2 := by
  intro L
  induction L with
  | nil => intro _ r1 h; cases h
  | cons l L' ih =>
    intro hnd r1 h1 r2 h2 hne x hx1 hx2
    rw [List.flatten_cons, List.nodup_append] at hnd
    rcases List.mem_cons.1 h1 with h1 | h1 <;> rcases List.mem_cons.1 h2 with h2 | h2
    · exact hne (h1.trans h2.symm)
    · exact hnd.2.2 (h1 ▸ hx1) (List.mem_flatten.2 ⟨r2, h2, hx2⟩)
    · exact hnd.2.2 (h2 ▸ hx2) (List.mem_flatten.2 ⟨r1, h1, hx1⟩)
    · exact ih hnd.2.1 r1 h1 r2 h2 hne x hx1 hx2

theorem eraseNode_col_same (sh : Shape) (d j : Nat) :
    (eraseNode sh d j).col d = (sh.col d).erase j := by
  show (if d = d then (sh.col d).erase j else sh.col d) = (sh.col d).erase j
  rw [if_pos rfl]

theorem eraseNode_col_other (sh : Shape) (d j c : Nat) (h : c ≠ d) :
    (eraseNode sh d j).col c = sh.col c := by
  show (if c = d then (sh.col d).erase j else sh.col c) = sh.col c
  rw [if_neg h]

/-- A removal step keeps every other listed node live. -/
theorem liveList_step (D : Desc) (sh : Shape) (σ : S) (j : Nat) (B : List Nat)
    (hjB : j ∉ B) (hlive : liveList D sh σ B) :
    liveList D (eraseNode sh (σ.chead j) j) (covStep σ j) B := by
  intro j' hj'
  obtain ⟨hn', hl'⟩ := hlive j' hj'
  refine ⟨hn', ?_⟩
  have hch : (covStep σ j).chead j' = σ.chead j' := rfl
  rw [hch]
  by_cases hcd : σ.chead j' = σ.chead j
  · rw [hcd, eraseNode_col_same]
    refine (List.mem_erase_of_ne ?_).2 (hcd ▸ hl')
    intro h
    rw [h] at hj'
    exact hjB hj'
  · rw [eraseNode_col_other _ _ _ _ hcd]
    exact hl'

/-- Removing a pairwise-distinct list of live nodes preserves the core
invariant, never touches the horizontal links, and leaves any column that
none of the removed nodes belongs to entirely unchanged. -/
theorem covFold_spec (D : Desc) (ch : Nat → Nat) :
    ∀ (J : List Nat) (sh : Shape) (σ : S),
      InvCore D sh σ → (∀ j ∈ J, σ.chead j = ch j) → J.Nodup →
      liveList D sh σ J →
      InvCore D (J.foldl (fun t j => eraseNode t (ch j) j) sh)
        (J.foldl covStep σ) ∧
      (J.foldl covStep σ).right = σ.right ∧
      (J.foldl covStep σ).left = σ.left ∧
      (J.foldl covStep σ).chead = σ.chead ∧
      (J.foldl covStep σ).idv = σ.idv ∧
      (∀ c' ∈ D.headers, (∀ j ∈ J, σ.chead j ≠ c') →
        (∀ x ∈ c' :: sh.col c',
          (J.foldl covStep σ).down x = σ.down x ∧
          (J.foldl covStep σ).up x = σ.up x) ∧
        (J.foldl covStep σ).s c' = σ.s c' ∧
        (J.foldl (fun t j => eraseNode t (ch j) j) sh).col c' = sh.col c') := by
  intro J
  induction J with
  | nil =>
    intro sh σ hI _ _ _
    exact ⟨hI, rfl, rfl, rfl, rfl, fun c' _ _ =>
      ⟨fun x _ => ⟨rfl, rfl⟩, rfl, rfl⟩⟩
  | cons j J' ih =>
    intro sh σ hI hch hnd hlive
    obtain ⟨hjn, hjl⟩ := hlive j (List.mem_cons_self _ _)
    obtain ⟨hI1, hstab1, _, _, _⟩ := covStep_spec D sh σ j hI hjn hjl
    have hndc := List.nodup_cons.1 hnd
    have hlive1 : liveList D (eraseNode sh (σ.chead j) j) (covStep σ j) J' :=
      liveList_step D sh σ j J' hndc.1
        (fun j' hj' => hlive j' (List.mem_cons_of_mem _ hj'))
    have hch1 : ∀ j' ∈ J', (covStep σ j).chead j' = ch j' :=
      fun j' hj' => hch j' (List.mem_cons_of_mem _ hj')
    have hchj : σ.chead j = ch j := hch j (List.mem_cons_self _ _)
    rw [hchj] at hI1 hlive1
    obtain ⟨hIf, hr, hl, hc, hn, hstab⟩ :=
      ih (eraseNode sh (ch j) j) (covStep σ j) hI1 hch1 hndc.2 hlive1
    rw [List.foldl_cons, List.foldl_cons]
    refine ⟨hIf, hr, hl, hc, hn, ?_⟩
    intro c' hc' hcne
    have hcnej : σ.chead j ≠ c' := hcne j (List.mem_cons_self _ _)
    have hcne' : ∀ j' ∈ J', (covStep σ j).chead j' ≠ c' :=
      fun j' hj' => hcne j' (List.mem_cons_of_mem _ hj')
    obtain ⟨hstep_ud, hstep_s⟩ := hstab1 c' hc' (fun h => hcnej h.symm)
    have hstep_col : (eraseNode sh (ch j) j).col c' = sh.col c' := by
      rw [← hchj]
      exact eraseNode_col_other _ _ _ _ (fun h => hcnej h.symm)
    obtain ⟨hrec_ud, hrec_s, hrec_col⟩ := hstab c' hc' hcne'
    rw [hstep_col] at hrec_ud hrec_col
    refine ⟨?_, ?_, ?_⟩
    · intro x hx
      obtain ⟨hd1, hu1⟩ := hrec_ud x hx
      obtain ⟨hd2, hu2⟩ := hstep_ud x hx
      exact ⟨hd1.trans hd2, hu1.trans hu2⟩
    · exact hrec_s.trans hstep_s
    · exact hrec_col

/-- The reverse-replay theorem: restoring the removed nodes in exactly
reverse order returns the state to what it was before the removals. -/
theorem covFold_uncovFold (D : Desc) :
    ∀ (J : List Nat) (sh : Shape) (σ : S),
      InvCore D sh σ → J.Nodup → liveList D sh σ J →
      J.reverse.foldl uncovStep (J.foldl covStep σ) = σ := by
  intro J
  induction J with
  | nil => intro sh σ _ _ _; rfl
  | cons j J' ih =>
    intro sh σ hI hnd hlive
    obtain ⟨hjn, hjl⟩ := hlive j (List.mem_cons_self _ _)
    obtain ⟨hI1, _, hdu, hud, hsb⟩ := covStep_spec D sh σ j hI hjn hjl
    have hndc := List.nodup_cons.1 hnd
    have hlive1 : liveList D (eraseNode sh (σ.chead j) j) (covStep σ j) J' :=
      liveList_step D sh σ j J' hndc.1
        (fun j' hj' => hlive j' (List.mem_cons_of_mem _ hj'))
    rw [List.foldl_cons, List.reverse_cons, List.foldl_append,
      ih (eraseNode sh (σ.chead j) j) (covStep σ j) hI1 hndc.2 hlive1,
      List.foldl_cons, List.foldl_nil]
    exact covStep_uncovStep σ j hdu hud hsb

/-- cover's inner loop is the fold of removal steps over the rest of the
row, read off the static right links. -/
theorem coverRowLoop_fold :
    ∀ (P : List Nat) (fuel : Nat) (σ : S) (i x : Nat),
      P.length < fuel → fpath σ.right x (P ++ [i]) → (∀ y ∈ P, y ≠ i) →
      coverRowLoop fuel σ i x = P.foldl covStep σ := by
  intro P
  induction P with
  | nil =>
    intro fuel σ i x hf hp _
    obtain ⟨h1, _⟩ := hp
    cases fuel with
    | zero => omega
    | succ f =>
      show (if σ.right x = i then σ else _) = σ
      rw [if_pos h1]
  | cons p P' ih =>
    intro fuel σ i x hf hp hne
    obtain ⟨h1, h2⟩ := hp
    cases fuel with
    | zero => omega
    | succ f =>
      show (if σ.right x = i then σ
        else coverRowLoop f (covStep σ (σ.right x)) i (σ.right x))
        = (p :: P').foldl covStep σ
      rw [if_neg (h1 ▸ hne p (List.mem_cons_self _ _)), h1, List.foldl_cons]
      apply ih f (covStep σ p) i p (by simpa using hf) ?_
        (fun y hy => hne y (List.mem_cons_of_mem _ hy))
      have hrr : (covStep σ p).right = σ.right := rfl
      rw [hrr]
      exact h2

/-- uncover's inner loop is the fold of restoration steps over the reversed
rest of the row, read off the static left links. -/
theorem uncoverRowLoop_fold :
    ∀ (P : List Nat) (fuel : Nat) (σ : S) (i x : Nat),
      P.length < fuel → fpath σ.left x (P ++ [i]) → (∀ y ∈ P, y ≠ i) →
      uncoverRowLoop fuel σ i x = P.foldl uncovStep σ := by
  intro P
  induction P with
  | nil =>
    intro fuel σ i x hf hp _
    obtain ⟨h1, _⟩ := hp
    cases fuel with
    | zero => omega
    | succ f =>
      show (if σ.left x = i then σ else _) = σ
      rw [if_pos h1]
  | cons p P' ih =>
    intro fuel σ i x hf hp hne
    obtain ⟨h1, h2⟩ := hp
    cases fuel with
    | zero => omega
    | succ f =>
      show (if σ.left x = i then σ
        else uncoverRowLoop f (uncovStep σ (σ.left x)) i (σ.left x))
        = (p :: P').foldl uncovStep σ
      rw [if_neg (h1 ▸ hne p (List.mem_cons_self _ _)), h1, List.foldl_cons]
      apply ih f (uncovStep σ p) i p (by simpa using hf) ?_
        (fun y hy => hne y (List.mem_cons_of_mem _ hy))
      have hll : (uncovStep σ p).left = σ.left := rfl
      rw [hll]
      exact h2

theorem row_mem_nodes (D : Desc) (sh : Shape) (σ : S) (hI : InvCore D sh σ)
    (r : List Nat) (hr : r ∈ D.rows) (x : Nat) (hx : x ∈ r) : x ∈ D.nodes :=
  (hI.rows_nodes.mem_iff).1 (List.mem_flatten.2 ⟨r, hr, hx⟩)

/-- Every node of the matrix sits in a unique row; rowOf finds it, and the
row ring seen from the node itself runs through partsOf. -/
theorem row_split (D : Desc) (sh : Shape) (σ : S) (hI : InvCore D sh σ)
    (i : Nat) (hin : i ∈ D.nodes) :
    rowOf D i ∈ D.rows ∧ i ∈ rowOf D i ∧
    (∀ y ∈ partsOf D i, y ∈ rowOf D i) ∧
    ringAt σ.right σ.left i (partsOf D i) := by
  have hex : ∃ r ∈ D.rows, i ∈ r :=
    List.mem_flatten.1 ((hI.rows_nodes.mem_iff).2 hin)
  have hsome : (D.rows.find? (fun r => r.contains i)).isSome := by
    rw [List.find?_isSome]
    obtain ⟨r, hr, hir⟩ := hex
    exact ⟨r, hr, by simpa using hir⟩
  obtain ⟨r, hfind⟩ := Option.isSome_iff_exists.1 hsome
  have hrof : rowOf D i = r := by
    unfold rowOf
    rw [hfind]
    rfl
  have hrr : r ∈ D.rows := List.mem_of_find?_eq_some hfind
  have hir : i ∈ r := by
    have := List.find?_some hfind
    simpa using this
  have hne := hI.rows_form r hrr
  obtain ⟨a, t, hat⟩ : ∃ a t, r = a :: t := by
    cases r with
    | nil => exact absurd rfl hne
    | cons a t => exact ⟨a, t, rfl⟩
  have hring : ringAt σ.right σ.left a t := by
    have := hI.rows_ring r hrr
    rw [hat] at this
    simpa using this
  have hmem : i ∈ a :: t := by rw [← hat]; exact hir
  have hrot := ring_rowRest σ.right σ.left a t i hmem hring
  rw [← hat] at hrot
  have hparts : partsOf D i = rowRest r i := by
    unfold partsOf
    rw [hrof]
  refine ⟨hrof ▸ hrr, hrof ▸ hir, ?_, by rw [hparts]; exact hrot⟩
  -- partsOf members are row members
  intro y hy
  rw [hrof]
  obtain ⟨s1, s2, hsplit⟩ := List.append_of_mem hmem
  have hnd : (a :: t).Nodup := hring.2
  have hins1 : i ∉ s1 := by
    rw [hsplit, List.nodup_append] at hnd
    intro hm
    exact hnd.2.2 hm (List.mem_cons_self i s2)
  have hpr : partsOf D i = s2 ++ s1 := by
    unfold partsOf
    rw [hrof, hat, hsplit]
    exact rowRest_eq i s1 s2 hins1
  rw [hpr] at hy
  rw [hat, hsplit]
  rcases List.mem_append.1 hy with hy | hy
  · exact List.mem_append_right _ (List.mem_cons_of_mem _ hy)
  · exact List.mem_append_left _ hy

/-- Liveness of a pending removal list survives the removal of an earlier
disjoint batch. -/
theorem liveList_fold (D : Desc) (ch : Nat → Nat) :
    ∀ (A B : List Nat) (sh : Shape) (σ : S),
      InvCore D sh σ → (∀ j ∈ A, σ.chead j = ch j) → (A ++ B).Nodup →
      liveList D sh σ (A ++ B) →
      liveList D (A.foldl (fun t j => eraseNode t (ch j) j) sh)
        (A.foldl covStep σ) B := by
  intro A
  induction A with
  | nil =>
    intro B sh σ _ _ _ hlive
    exact fun j hj => hlive j (by simpa using hj)
  | cons j A' ih =>
    intro B sh σ hI hch hnd hlive
    obtain ⟨hjn, hjl⟩ := hlive j (List.mem_cons_self _ _)
    obtain ⟨hI1, _, _, _, _⟩ := covStep_spec D sh σ j hI hjn hjl
    have hndc := List.nodup_cons.1 hnd
    have hlive1 : liveList D (eraseNode sh (σ.chead j) j) (covStep σ j) (A' ++ B) :=
      liveList_step D sh σ j (A' ++ B) hndc.1
        (fun j' hj' => hlive j' (List.mem_cons_of_mem _ hj'))
    have hchj : σ.chead j = ch j := hch j (List.mem_cons_self _ _)
    rw [hchj] at hI1 hlive1
    rw [List.foldl_cons, List.foldl_cons]
    exact ih B (eraseNode sh (ch j) j) (covStep σ j) hI1
      (fun j' hj' => hch j' (List.mem_cons_of_mem _ hj')) hndc.2 hlive1

/-- cover's outer loop is the fold of removal steps over the concatenated
partner lists of the live rows of column c. -/
theorem coverColLoop_fold (D : Desc) (c : Nat) (hch : c ∈ D.headers) :
    ∀ (R : List Nat) (fuel : Nat) (sh : Shape) (σ : S) (x : Nat),
      InvCore D sh σ →
      R.length + D.nodes.length + 1 ≤ fuel →
      fpath σ.down x (R ++ [c]) →
      (∀ i ∈ R, i ∈ sh.col c) →
      (R.flatMap (partsOf D)).Nodup →
      liveList D sh σ (R.flatMap (partsOf D)) →
      (∀ j ∈ R.flatMap (partsOf D), σ.chead j ≠ c) →
      coverColLoop fuel σ c x = (R.flatMap (partsOf D)).foldl covStep σ := by
  intro R
  induction R with
  | nil =>
    intro fuel sh σ x _ hf hp _ _ _ _
    obtain ⟨h1, _⟩ := hp
    cases fuel with
    | zero => omega
    | succ f =>
      show (if σ.down x = c then σ else _) = _
      rw [if_pos h1]
      simp
  | cons i R' ih =>
    intro fuel sh σ x hI hf hp hRcol hJnd hJlive hJc
    obtain ⟨h1, h2⟩ := hp
    have hicol : i ∈ sh.col c := hRcol i (List.mem_cons_self _ _)
    have hinode : i ∈ D.nodes := hI.col_sub c hch i hicol
    have hic : i ≠ c := fun h => hI.hdr_node_disj c hch (h ▸ hinode)
    cases fuel with
    | zero => omega
    | succ f =>
      rw [List.length_cons] at hf
      show (if σ.down x = c then σ
        else coverColLoop f (coverRowLoop f σ (σ.down x) (σ.down x)) c (σ.down x))
        = _
      rw [if_neg (h1 ▸ hic), h1]
      -- the inner loop over row i
      obtain ⟨hrr, hirow, hsubrow, hring⟩ := row_split D sh σ hI i hinode
      have hPnd : (i :: partsOf D i).Nodup := hring.2
      have hPnotI : ∀ y ∈ partsOf D i, y ≠ i := by
        intro y hy he
        exact (List.nodup_cons.1 hPnd).1 (he ▸ hy)
      have hPsub : ∀ y ∈ partsOf D i, y ∈ D.nodes :=
        fun y hy => row_mem_nodes D sh σ hI _ hrr y (hsubrow y hy)
      have hPlen : (partsOf D i).length ≤ D.nodes.length :=
        (List.subperm_of_subset (List.nodup_cons.1 hPnd).2 hPsub).length_le
      have hJsplit : (i :: R').flatMap (partsOf D)
          = partsOf D i ++ R'.flatMap (partsOf D) := by
        simp
      rw [hJsplit] at hJnd hJlive hJc
      have hinner : coverRowLoop f σ i i = (partsOf D i).foldl covStep σ := by
        apply coverRowLoop_fold (partsOf D i) f σ i i (by omega) ?_ hPnotI
        exact links_fpath _ _ _ _ hring.1
      rw [hinner]
      -- the removal fold over row i's partners
      have hlivP : liveList D sh σ (partsOf D i) :=
        fun j hj => hJlive j (List.mem_append_left _ hj)
      have hndP : (partsOf D i).Nodup := (List.nodup_append.1 hJnd).1
      obtain ⟨hI1, hr1, hl1, hc1, hn1, hstab1⟩ :=
        covFold_spec D σ.chead (partsOf D i) sh σ hI (fun _ _ => rfl) hndP hlivP
      obtain ⟨hud1, hs1, hcol1⟩ := hstab1 c hch
        (fun j hj => hJc j (List.mem_append_left _ hj))
      -- recurse over the remaining rows
      have hfp' : fpath ((partsOf D i).foldl covStep σ).down i (R' ++ [c]) := by
        apply fpath_congr σ.down _ (R' ++ [c]) i ?_ h2
        intro y hy
        apply (hud1 y ?_).1
        rcases List.mem_cons.1 hy with hy | hy
        · rw [hy]
          exact List.mem_cons_of_mem _ hicol
        · rcases List.mem_append.1 hy with hy | hy
          · exact List.mem_cons_of_mem _ (hRcol y (List.mem_cons_of_mem _ hy))
          · simp only [List.mem_singleton] at hy
            rw [hy]
            exact List.mem_cons_self _ _
      have hRcol' : ∀ i' ∈ R',
          i' ∈ ((partsOf D i).foldl
            (fun t j => eraseNode t (σ.chead j) j) sh).col c := by
        intro i' hi'
        rw [hcol1]
        exact hRcol i' (List.mem_cons_of_mem _ hi')
      have hJnd' : (R'.flatMap (partsOf D)).Nodup := (List.nodup_append.1 hJnd).2.1
      have hJlive' : liveList D
          ((partsOf D i).foldl (fun t j => eraseNode t (σ.chead j) j) sh)
          ((partsOf D i).foldl covStep σ) (R'.flatMap (partsOf D)) :=
        liveList_fold D σ.chead (partsOf D i) (R'.flatMap (partsOf D)) sh σ hI
          (fun _ _ => rfl) hJnd hJlive
      have hJc' : ∀ j ∈ R'.flatMap (partsOf D),
          ((partsOf D i).foldl covStep σ).chead j ≠ c := by
        intro j hj
        rw [hc1]
        exact hJc j (List.mem_append_right _ hj)
      rw [ih f _ _ i hI1 (by omega) hfp' hRcol' hJnd' hJlive' hJc']
      rw [hJsplit, List.foldl_append]

/-- uncover's outer loop undoes cover's removals: starting from the state
with all partner nodes of the rows in Rrev (bottom-to-top order) removed, it
restores them row by row and ends in the original state. -/
theorem uncoverColLoop_unwind (D : Desc) (c : Nat) (hch : c ∈ D.headers) :
    ∀ (Rrev : List Nat) (fuel : Nat) (sh : Shape) (σ : S) (x : Nat),
      InvCore D sh σ →
      Rrev.length + D.nodes.length + 1 ≤ fuel →
      fpath σ.up x (Rrev ++ [c]) →
      x ∈ c :: sh.col c →
      (∀ i ∈ Rrev, i ∈ sh.col c) →
      (Rrev.reverse.flatMap (partsOf D)).Nodup →
      liveList D sh σ (Rrev.reverse.flatMap (partsOf D)) →
      (∀ j ∈ Rrev.reverse.flatMap (partsOf D), σ.chead j ≠ c) →
      uncoverColLoop fuel ((Rrev.reverse.flatMap (partsOf D)).foldl covStep σ)
        c x = σ := by
  intro Rrev
  induction Rrev with
  | nil =>
    intro fuel sh σ x _ hf hp _ _ _ _ _
    obtain ⟨h1, _⟩ := hp
    cases fuel with
    | zero => omega
    | succ f =>
      show (if σ.up x = c then σ else _) = σ
      rw [if_pos h1]
  | cons i Rrev' ih =>
    intro fuel sh σ x hI hf hp hx hRcol hJnd hJlive hJc
    obtain ⟨h1, h2⟩ := hp
    have hicol : i ∈ sh.col c := hRcol i (List.mem_cons_self _ _)
    have hinode : i ∈ D.nodes := hI.col_sub c hch i hicol
    have hic : i ≠ c := fun h => hI.hdr_node_disj c hch (h ▸ hinode)
    have hJf : (i :: Rrev').reverse.flatMap (partsOf D)
        = Rrev'.reverse.flatMap (partsOf D) ++ partsOf D i := by
      simp
    rw [hJf] at hJnd hJlive hJc ⊢
    -- the two stages of the removal fold
    obtain ⟨hIm, hrm, hlm, hcm, hnm, hstabm⟩ :=
      covFold_spec D σ.chead (Rrev'.reverse.flatMap (partsOf D)) sh σ hI
        (fun _ _ => rfl) (List.nodup_append.1 hJnd).1
        (fun j hj => hJlive j (List.mem_append_left _ hj))
    obtain ⟨hudm, hsm, hcolm⟩ := hstabm c hch
      (fun j hj => hJc j (List.mem_append_left _ hj))
    obtain ⟨hIfull, hrf, hlf, hcf, hnf, hstabf⟩ :=
      covFold_spec D σ.chead
        (Rrev'.reverse.flatMap (partsOf D) ++ partsOf D i) sh σ hI
        (fun _ _ => rfl) hJnd hJlive
    obtain ⟨hudf, hsf, hcolf⟩ := hstabf c hch hJc
    have hlivP : liveList D
        ((Rrev'.reverse.flatMap (partsOf D)).foldl
          (fun t j => eraseNode t (σ.chead j) j) sh)
        ((Rrev'.reverse.flatMap (partsOf D)).foldl covStep σ) (partsOf D i) :=
      liveList_fold D σ.chead _ _ sh σ hI (fun _ _ => rfl) hJnd hJlive
    cases fuel with
    | zero => omega
    | succ f =>
      rw [List.length_cons] at hf
      rw [List.foldl_append]
      show (if ((partsOf D i).foldl covStep
          ((Rrev'.reverse.flatMap (partsOf D)).foldl covStep σ)).up x = c then _
        else _) = σ
      rw [← List.foldl_append]
      have hupx : ((Rrev'.reverse.flatMap (partsOf D) ++ partsOf D i).foldl
          covStep σ).up x = σ.up x := (hudf x hx).2
      rw [hupx, if_neg (h1 ▸ hic), h1]
      -- the inner loop restores row i's partners
      obtain ⟨hrr, hirow, hsubrow, hring⟩ := row_split D sh σ hI i hinode
      have hPnd : (i :: partsOf D i).Nodup := hring.2
      have hPnotI : ∀ y ∈ (partsOf D i).reverse, y ≠ i := by
        intro y hy he
        have hmem := List.mem_reverse.1 hy
        rw [he] at hmem
        exact (List.nodup_cons.1 hPnd).1 hmem
      have hPsub : ∀ y ∈ partsOf D i, y ∈ D.nodes :=
        fun y hy => row_mem_nodes D sh σ hI _ hrr y (hsubrow y hy)
      have hPlen : (partsOf D i).length ≤ D.nodes.length :=
        (List.subperm_of_subset (List.nodup_cons.1 hPnd).2 hPsub).length_le
      have hinner : uncoverRowLoop f
          ((Rrev'.reverse.flatMap (partsOf D) ++ partsOf D i).foldl covStep σ)
          i i = ((partsOf D i).reverse).foldl uncovStep
            ((Rrev'.reverse.flatMap (partsOf D) ++ partsOf D i).foldl
              covStep σ) := by
        apply uncoverRowLoop_fold _ f _ i i (by simp; omega) ?_ hPnotI
        have hlfull : ((Rrev'.reverse.flatMap (partsOf D) ++ partsOf D i).foldl
            covStep σ).left = σ.left := hlf
        rw [hlfull]
        exact gpath_of_links σ.right σ.left (partsOf D i) i i hring.1
      rw [hinner]
      have hrestore : ((partsOf D i).reverse).foldl uncovStep
          ((Rrev'.reverse.flatMap (partsOf D) ++ partsOf D i).foldl covStep σ)
          = (Rrev'.reverse.flatMap (partsOf D)).foldl covStep σ := by
        rw [List.foldl_append]
        exact covFold_uncovFold D (partsOf D i) _ _ hIm
          (List.nodup_append.1 hJnd).2.1 hlivP
      rw [hrestore]
      -- recurse over the earlier rows
      apply ih f sh σ i hI (by omega) h2 (List.mem_cons_of_mem _ hicol)
        (fun y hy => hRcol y (List.mem_cons_of_mem _ hy))
        (List.nodup_append.1 hJnd).1
        (fun j hj => hJlive j (List.mem_append_left _ hj))
        (fun j hj => hJc j (List.mem_append_left _ hj))

theorem remove_lr_right (σ : S) (c : Nat) :
    (remove_lr σ c).right = upd σ.right (σ.left c) (σ.right c) := rfl

theorem remove_lr_left (σ : S) (c : Nat) :
    (remove_lr σ c).left = upd σ.left (σ.right c) (σ.left c) := by
  show upd σ.left ((upd σ.right (σ.left c) (σ.right c)) c) (σ.left c)
    = upd σ.left (σ.right c) (σ.left c)
  have : (upd σ.right (σ.left c) (σ.right c)) c = σ.right c := by
    show (if c = σ.left c then σ.right c else σ.right c) = σ.right c
    rw [ite_self]
  rw [this]

/-- remove_lr(c) on a header in the live list: the header ring loses c, all
vertical structure is untouched, and c's neighbours satisfy the equations
needed to re-insert it. -/
theorem remove_lr_spec (D : Desc) (sh : Shape) (σ : S) (c : Nat)
    (hI : InvCore D sh σ) (hc : c ∈ sh.hdrs) :
    InvCore D { hdrs := sh.hdrs.erase c, col := sh.col } (remove_lr σ c) ∧
    (remove_lr σ c).up = σ.up ∧ (remove_lr σ c).down = σ.down ∧
    (remove_lr σ c).chead = σ.chead ∧ (remove_lr σ c).s = σ.s ∧
    (remove_lr σ c).idv = σ.idv ∧
    σ.right (σ.left c) = c ∧ σ.left (σ.right c) = c ∧ c ≠ σ.right c := by
  obtain ⟨h1, h2, hsplit⟩ := List.append_of_mem hc
  have hring := hI.hdr_ring
  rw [hsplit] at hring
  have hnd := hring.2
  obtain ⟨hlc, hrc, hrp, hlq, hring'⟩ := ring_erase σ.right σ.left D.root c h1 h2 hring
  have hch1 : c ∉ h1 := by
    have h := (List.nodup_cons.1 hnd).2
    rw [List.nodup_append] at h
    intro hmem
    exact h.2.2 hmem (List.mem_cons_self c h2)
  have herase : sh.hdrs.erase c = h1 ++ h2 := by
    rw [hsplit, List.erase_append_right _ hch1, List.erase_cons_head]
  have hrl : σ.right (σ.left c) = c := by rw [hlc]; exact hrp
  have hlr : σ.left (σ.right c) = c := by rw [hrc]; exact hlq
  have hch2 : c ∉ h2 := by
    have h := (List.nodup_cons.1 hnd).2
    rw [List.nodup_append] at h
    exact (List.nodup_cons.1 h.2.1).1
  have hcq : c ≠ σ.right c := by
    rw [hrc]
    rcases List.mem_cons.1 (headOf_mem h2 D.root) with h | h
    · rw [h]
      intro he
      exact hI.root_not_hdr (hI.hdrs_sub _ (he ▸ hc))
    · intro he
      rw [← he] at h
      exact hch2 h
  have hsub : ∀ y ∈ sh.hdrs.erase c, y ∈ sh.hdrs :=
    fun y hy => List.mem_of_mem_erase hy
  have hpq_hdr : σ.left c ∈ D.root :: sh.hdrs ∧ σ.right c ∈ D.root :: sh.hdrs := by
    constructor
    · rw [hlc]
      rcases List.mem_cons.1 (endOf_mem h1 D.root) with h | h
      · rw [h]; exact List.mem_cons_self _ _
      · exact List.mem_cons_of_mem _ (by rw [hsplit]; exact List.mem_append_left _ h)
    · rw [hrc]
      rcases List.mem_cons.1 (headOf_mem h2 D.root) with h | h
      · rw [h]; exact List.mem_cons_self _ _
      · exact List.mem_cons_of_mem _
          (by rw [hsplit]
              exact List.mem_append_right _ (List.mem_cons_of_mem _ h))
  have hnode_ne : ∀ x ∈ D.nodes, x ≠ σ.left c ∧ x ≠ σ.right c := by
    intro x hx
    constructor
    · intro he
      rcases List.mem_cons.1 hpq_hdr.1 with h | h
      · exact hI.root_not_node (by rw [← h, ← he]; exact hx)
      · exact hI.hdr_node_disj (σ.left c) (hI.hdrs_sub _ h) (he ▸ hx)
    · intro he
      rcases List.mem_cons.1 hpq_hdr.2 with h | h
      · exact hI.root_not_node (by rw [← h, ← he]; exact hx)
      · exact hI.hdr_node_disj (σ.right c) (hI.hdrs_sub _ h) (he ▸ hx)
  refine ⟨⟨?_, ?_, ?_, ?_, ?_, ?_, ?_, ?_, ?_, ?_, ?_, ?_, ?_, ?_, ?_, ?_, ?_⟩,
    rfl, rfl, rfl, rfl, rfl, hrl, hlr, hcq⟩
  · -- header ring without c
    show ringAt (remove_lr σ c).right (remove_lr σ c).left D.root (sh.hdrs.erase c)
    rw [herase, remove_lr_right, remove_lr_left]
    rw [← hlc, ← hrc] at hring'
    exact hring'
  · exact fun h hh => hI.hdrs_sub h (hsub h hh)
  · exact hI.col_ring
  · exact hI.col_chead
  · exact hI.col_sub
  · exact hI.s_count
  · exact hI.s_bound
  · exact hI.rows_form
  · -- row rings are untouched: the two written cells are header-ring nodes
    intro r hr
    have hrow := hI.rows_ring r hr
    have hne := hI.rows_form r hr
    apply ring_congr σ.right σ.left _ _ _ _ ?_ hrow
    intro x hx
    have hxr : x ∈ r := by
      cases r with
      | nil => exact absurd rfl hne
      | cons a t => simpa using hx
    have hxn : x ∈ D.nodes := row_mem_nodes D sh σ hI r hr x hxr
    obtain ⟨hne1, hne2⟩ := hnode_ne x hxn
    constructor
    · rw [remove_lr_right]
      exact upd_other _ _ _ _ hne1
    · rw [remove_lr_left]
      exact upd_other _ _ _ _ hne2
  · exact hI.rows_chead_nodup
  · exact hI.rows_nodes
  · exact hI.chead_mem
  · exact hI.root_not_hdr
  · exact hI.root_not_node
  · exact hI.hdr_nodup
  · exact hI.node_nodup
  · exact hI.hdr_node_disj

/-- insert_lr(c) undoes remove_lr(c) when c's former neighbours still point
at it. -/
theorem remove_insert_lr (σ : S) (c : Nat)
    (hrl : σ.right (σ.left c) = c) (hlr : σ.left (σ.right c) = c)
    (hcr : c ≠ σ.right c) :
    insert_lr (remove_lr σ c) c = σ := by
  have htrc : (remove_lr σ c).right c = σ.right c := by
    rw [remove_lr_right]
    show (if c = σ.left c then σ.right c else σ.right c) = σ.right c
    rw [ite_self]
  have hlf : (insert_lr (remove_lr σ c) c).left = σ.left := by
    show upd (remove_lr σ c).left ((remove_lr σ c).right c) c = σ.left
    rw [htrc, remove_lr_left, upd_upd]
    funext x
    by_cases hx : x = σ.right c
    · rw [hx, upd_same]
      exact hlr.symm
    · rw [upd_other _ _ _ _ hx]
  have hl1c : (upd (remove_lr σ c).left ((remove_lr σ c).right c) c) c
      = σ.left c := by
    rw [htrc, remove_lr_left, upd_upd]
    rw [upd_other _ _ _ _ hcr]
  have hrf : (insert_lr (remove_lr σ c) c).right = σ.right := by
    show upd (remove_lr σ c).right
      ((upd (remove_lr σ c).left ((remove_lr σ c).right c) c) c) c = σ.right
    rw [hl1c, remove_lr_right, upd_upd]
    funext x
    by_cases hx : x = σ.left c
    · rw [hx, upd_same]
      exact hrl.symm
    · rw [upd_other _ _ _ _ hx]
  refine S.ext hlf hrf rfl rfl rfl rfl rfl

/-- Every other member of a list lands in its cyclic rest viewed from m. -/
theorem mem_rowRest :
    ∀ (r : List Nat) (m n : Nat), m ∈ r → n ∈ r → n ≠ m → n ∈ rowRest r m := by
  intro r
  induction r with
  | nil => intro m n hm; cases hm
  | cons x r' ih =>
    intro m n hm hn hne
    by_cases hx : x = m
    · subst hx
      have hrw : rowRest (x :: r') x = r' := by
        unfold rowRest
        rw [List.dropWhile_cons, List.takeWhile_cons]
        simp
      rw [hrw]
      rcases List.mem_cons.1 hn with h | h
      · exact absurd h hne
      · exact h
    · have hrw : rowRest (x :: r') m
          = ((r'.dropWhile (fun y => y != m)).tail)
            ++ x :: r'.takeWhile (fun y => y != m) := by
        unfold rowRest
        rw [List.dropWhile_cons, List.takeWhile_cons]
        have : (x != m) = true := by simpa using hx
        rw [this]
        simp
      rw [hrw]
      have hm' : m ∈ r' := by
        rcases List.mem_cons.1 hm with h | h
        · exact absurd h.symm hx
        · exact h
      rcases List.mem_cons.1 hn with h | h
      · subst h
        exact List.mem_append_right _ (List.mem_cons_self _ _)
      · have := ih m n hm' h hne
        unfold rowRest at this
        rcases List.mem_append.1 this with h' | h'
        · exact List.mem_append_left _ h'
        · exact List.mem_append_right _ (List.mem_cons_of_mem _ h')

/-- In a ring no element is its own forward successor. -/
theorem ring_next_ne (f g : Nat → Nat) (a : Nat) (l : List Nat) (j : Nat)
    (hr : ringAt f g a l) (hj : j ∈ l) : f j ≠ j := by
  obtain ⟨l1, l2, hsplit⟩ := List.append_of_mem hj
  rw [hsplit] at hr
  have hnd := hr.2
  obtain ⟨_, hfj, _, _, _⟩ := ring_erase f g a j l1 l2 hr
  intro he
  rw [he] at hfj
  cases l2 with
  | nil =>
    have hja : j = a := hfj
    have : a ∉ l1 ++ j :: ([] : List Nat) := (List.nodup_cons.1 hnd).1
    exact this (hja ▸ List.mem_append_right _ (List.mem_cons_self _ _))
  | cons b t =>
    have hjb : j = b := hfj
    have h2 := (List.nodup_cons.1 hnd).2
    rw [List.nodup_append] at h2
    have := (List.nodup_cons.1 h2.2.1).1
    exact this (hjb ▸ List.mem_cons_self _ _)

/-- Erasure folds do not touch the header list. -/
theorem foldl_eraseNode_hdrs (ch : Nat → Nat) :
    ∀ (J : List Nat) (sh : Shape),
      (J.foldl (fun t j => eraseNode t (ch j) j) sh).hdrs = sh.hdrs := by
  intro J
  induction J with
  | nil => intro sh; rfl
  | cons j J' ih => intro sh; rw [List.foldl_cons, ih]; rfl

/-- Each column of an erasure fold is a sublist of the original column. -/
theorem foldl_eraseNode_sublist (ch : Nat → Nat) :
    ∀ (J : List Nat) (sh : Shape) (d : Nat),
      List.Sublist ((J.foldl (fun t j => eraseNode t (ch j) j) sh).col d)
        (sh.col d) := by
  intro J
  induction J with
  | nil => intro sh d; exact List.Sublist.refl _
  | cons j J' ih =>
    intro sh d
    rw [List.foldl_cons]
    refine (ih (eraseNode sh (ch j) j) d).trans ?_
    by_cases hd : d = ch j
    · subst hd
      rw [eraseNode_col_same]
      exact List.erase_sublist j (sh.col (ch j))
    · rw [eraseNode_col_other _ _ _ _ hd]

/-- Every erased node is gone from its column after the fold, provided the
relevant columns start out duplicate-free. -/
theorem foldl_eraseNode_not_mem (ch : Nat → Nat) :
    ∀ (J : List Nat) (sh : Shape),
      (∀ j ∈ J, (sh.col (ch j)).Nodup) →
      ∀ j ∈ J, j ∉ (J.foldl (fun t j => eraseNode t (ch j) j) sh).col (ch j) := by
  intro J
  induction J with
  | nil => intro sh _ j hj; cases hj
  | cons i J' ih =>
    intro sh hnd j hj
    rw [List.foldl_cons]
    have hnd1 : ∀ j' ∈ J', ((eraseNode sh (ch i) i).col (ch j')).Nodup := by
      intro j' hj'
      by_cases hd : ch j' = ch i
      · rw [hd, eraseNode_col_same]
        have h0 := hnd j' (List.mem_cons_of_mem _ hj')
        rw [hd] at h0
        exact h0.sublist (List.erase_sublist i (sh.col (ch i)))
      · rw [eraseNode_col_other _ _ _ _ hd]
        exact hnd j' (List.mem_cons_of_mem _ hj')
    rcases List.mem_cons.1 hj with h | h
    · subst h
      intro hmem
      have := (foldl_eraseNode_sublist ch J' (eraseNode sh (ch j) j)
        (ch j)).subset hmem
      rw [eraseNode_col_same] at this
      exact (hnd j (List.mem_cons_self _ _)).not_mem_erase this
    · exact ih (eraseNode sh (ch i) i) hnd1 j h

/-- Nodes not named in the erasure fold keep their column membership. -/
theorem foldl_eraseNode_mem_iff (ch : Nat → Nat) :
    ∀ (J : List Nat) (sh : Shape) (x d : Nat), x ∉ J →
      (x ∈ (J.foldl (fun t j => eraseNode t (ch j) j) sh).col d ↔
        x ∈ sh.col d) := by
  intro J
  induction J with
  | nil => intro sh x d _; exact Iff.rfl
  | cons j J' ih =>
    intro sh x d hx
    have hxj : x ≠ j := fun h => hx (h ▸ List.mem_cons_self _ _)
    have hx' : x ∉ J' := fun h => hx (List.mem_cons_of_mem _ h)
    rw [List.foldl_cons, ih (eraseNode sh (ch j) j) x d hx']
    by_cases hd : d = ch j
    · subst hd
      rw [eraseNode_col_same]
      exact List.mem_erase_of_ne hxj
    · rw [eraseNode_col_other _ _ _ _ hd]

/-- The horizontal neighbours of a live header lie in the header ring. -/
theorem hdr_neighbors (D : Desc) (sh : Shape) (σ : S) (c : Nat)
    (hI : InvCore D sh σ) (hc : c ∈ sh.hdrs) :
    σ.left c ∈ D.root :: sh.hdrs ∧ σ.right c ∈ D.root :: sh.hdrs := by
  obtain ⟨l1, l2, hsplit⟩ := List.append_of_mem hc
  have hring := hI.hdr_ring
  rw [hsplit] at hring
  obtain ⟨hlc, hrc, _, _, _⟩ := ring_erase σ.right σ.left D.root c l1 l2 hring
  constructor
  · rw [hlc]
    rcases List.mem_cons.1 (endOf_mem l1 D.root) with h | h
    · rw [h]; exact List.mem_cons_self _ _
    · exact List.mem_cons_of_mem _ (hsplit ▸ List.mem_append_left _ h)
  · rw [hrc]
    rcases List.mem_cons.1 (headOf_mem l2 D.root) with h | h
    · rw [h]; exact List.mem_cons_self _ _
    · exact List.mem_cons_of_mem _
        (hsplit ▸ List.mem_append_right _ (List.mem_cons_of_mem _ h))

/-- If a list of mapped values has no duplicates, the map is injective on
the list. -/
theorem chead_inj_on_row (D : Desc) (sh : Shape) (σ : S) (hI : InvCore D sh σ)
    (r : List Nat) (hr : r ∈ D.rows) :
    ∀ x ∈ r, ∀ y ∈ r, σ.chead x = σ.chead y → x = y := by
  intro x hx y hy he
  exact List.inj_on_of_nodup_map (hI.rows_chead_nodup r hr) hx hy he

/-- The removal list of cover(c) on a well-formed state: pairwise distinct,
all live, and none of them in column c. -/
theorem remList_facts (D : Desc) (sh : Shape) (σ : S) (c : Nat)
    (hI : InvCore D sh σ) (hRL : RowLive D sh σ)
    (hc : c ∈ sh.hdrs) (hcH : c ∈ D.headers) :
    (remList D sh c).Nodup ∧
    liveList D sh σ (remList D sh c) ∧
    (∀ j ∈ remList D sh c, σ.chead j ≠ c) := by
  have hcolN : ∀ i ∈ sh.col c, i ∈ D.nodes := hI.col_sub c hcH
  have hchc : ∀ i ∈ sh.col c, σ.chead i = c := hI.col_chead c hcH
  -- membership in the removal list comes from a live row of column c
  have hmem : ∀ j ∈ remList D sh c, ∃ i ∈ sh.col c,
      j ∈ partsOf D i ∧ j ∈ rowOf D i ∧ j ≠ i ∧ rowOf D i ∈ D.rows ∧
      i ∈ rowOf D i := by
    intro j hj
    obtain ⟨i, hi, hji⟩ := List.mem_flatMap.1 hj
    obtain ⟨hrr, hirow, hsubrow, hring⟩ := row_split D sh σ hI i (hcolN i hi)
    refine ⟨i, hi, hji, hsubrow j hji, ?_, hrr, hirow⟩
    intro he
    have := hring.2
    rw [he] at hji
    exact (List.nodup_cons.1 this).1 hji
  refine ⟨?_, ?_, ?_⟩
  · -- nodup
    show ((sh.col c).flatMap (partsOf D)).Nodup
    rw [List.nodup_flatMap]
    constructor
    · intro i hi
      obtain ⟨_, _, _, hring⟩ := row_split D sh σ hI i (hcolN i hi)
      exact (List.nodup_cons.1 hring.2).2
    · have hcolnd : (sh.col c).Nodup :=
        (List.nodup_cons.1 (hI.col_ring c hcH).2).2
      apply List.Pairwise.imp_of_mem ?_ hcolnd
      intro i1 i2 hi1 hi2 hne
      obtain ⟨hrr1, hirow1, hsub1, _⟩ := row_split D sh σ hI i1 (hcolN i1 hi1)
      obtain ⟨hrr2, hirow2, hsub2, _⟩ := row_split D sh σ hI i2 (hcolN i2 hi2)
      have hrne : rowOf D i1 ≠ rowOf D i2 := by
        intro he
        apply hne
        apply chead_inj_on_row D sh σ hI (rowOf D i1) hrr1 i1 hirow1 i2
          (he ▸ hirow2)
        rw [hchc i1 hi1, hchc i2 hi2]
      have hflat : D.rows.flatten.Nodup :=
        (hI.rows_nodes.nodup_iff).2 hI.node_nodup
      intro j hj1 hj2
      exact flatten_nodup_disjoint D.rows hflat (rowOf D i1) hrr1
        (rowOf D i2) hrr2 hrne j (hsub1 j hj1) (hsub2 j hj2)
  · -- live
    intro j hj
    obtain ⟨i, hi, hji, hjrow, hjne, hrr, hirow⟩ := hmem j hj
    refine ⟨row_mem_nodes D sh σ hI _ hrr j hjrow, ?_⟩
    apply hRL (rowOf D i) hrr i hirow ?_ ?_ j hjrow
    · rw [hchc i hi]; exact hi
    · rw [hchc i hi]; exact hc
  · -- not in column c
    intro j hj he
    obtain ⟨i, hi, hji, hjrow, hjne, hrr, hirow⟩ := hmem j hj
    apply hjne
    apply chead_inj_on_row D sh σ hI (rowOf D i) hrr j hjrow i hirow
    rw [he, hchc i hi]

/-- The cover call on a live column is the removal fold over its removal
list, applied after unlinking the header. -/
theorem cover_eq_fold (D : Desc) (sh : Shape) (σ : S) (c : Nat)
    (fuel : Nat) (hI : Inv D sh σ) (hc : c ∈ sh.hdrs)
    (hf : 2 * D.nodes.length + 2 ≤ fuel) :
    cover fuel σ c = (remList D sh c).foldl covStep (remove_lr σ c) := by
  obtain ⟨hIc, hRL⟩ := hI
  have hcH : c ∈ D.headers := hIc.hdrs_sub c hc
  obtain ⟨hI0, hup0, hdn0, hch0, hs0, hiv0, hrl, hlr, hcr⟩ :=
    remove_lr_spec D sh σ c hIc hc
  obtain ⟨hJnd, hJlive, hJc⟩ := remList_facts D sh σ c hIc hRL hc hcH
  have hcollen : (sh.col c).length ≤ D.nodes.length := by
    have hnd : (sh.col c).Nodup := (List.nodup_cons.1 (hIc.col_ring c hcH).2).2
    exact (List.subperm_of_subset hnd (hIc.col_sub c hcH)).length_le
  have hJlive0 : liveList D { hdrs := sh.hdrs.erase c, col := sh.col }
      (remove_lr σ c) (remList D sh c) := by
    intro j hj
    obtain ⟨h1, h2⟩ := hJlive j hj
    refine ⟨h1, ?_⟩
    rw [hch0]
    exact h2
  have hJc0 : ∀ j ∈ remList D sh c, (remove_lr σ c).chead j ≠ c := by
    intro j hj
    rw [hch0]
    exact hJc j hj
  show coverColLoop fuel (remove_lr σ c) c c
    = (remList D sh c).foldl covStep (remove_lr σ c)
  have hfp : fpath (remove_lr σ c).down c (sh.col c ++ [c]) := by
    rw [hdn0]
    exact links_fpath _ _ _ _ (hIc.col_ring c hcH).1
  exact coverColLoop_fold D c hcH (sh.col c) fuel
    { hdrs := sh.hdrs.erase c, col := sh.col } (remove_lr σ c) c hI0
    (by omega) hfp (fun i hi => hi) hJnd hJlive0 hJc0

/-- Cover followed by uncover at the same live column is the identity on a
well-formed state. -/
theorem cover_uncover_cancel (D : Desc) (sh : Shape) (σ : S) (c : Nat)
    (fuel : Nat) (hI : Inv D sh σ) (hc : c ∈ sh.hdrs)
    (hf : 2 * D.nodes.length + 2 ≤ fuel) :
    uncover fuel (cover fuel σ c) c = σ := by
  obtain ⟨hIc, hRL⟩ := hI
  have hcH : c ∈ D.headers := hIc.hdrs_sub c hc
  obtain ⟨hI0, hup0, hdn0, hch0, hs0, hiv0, hrl, hlr, hcr⟩ :=
    remove_lr_spec D sh σ c hIc hc
  obtain ⟨hJnd, hJlive, hJc⟩ := remList_facts D sh σ c hIc hRL hc hcH
  have hcollen : (sh.col c).length ≤ D.nodes.length := by
    have hnd : (sh.col c).Nodup := (List.nodup_cons.1 (hIc.col_ring c hcH).2).2
    exact (List.subperm_of_subset hnd (hIc.col_sub c hcH)).length_le
  have hJlive0 : liveList D { hdrs := sh.hdrs.erase c, col := sh.col }
      (remove_lr σ c) (remList D sh c) := by
    intro j hj
    obtain ⟨h1, h2⟩ := hJlive j hj
    refine ⟨h1, ?_⟩
    rw [hch0]
    exact h2
  have hJc0 : ∀ j ∈ remList D sh c, (remove_lr σ c).chead j ≠ c := by
    intro j hj
    rw [hch0]
    exact hJc j hj
  have hcov := cover_eq_fold D sh σ c fuel ⟨hIc, hRL⟩ hc hf
  have hunc : uncoverColLoop fuel
      ((remList D sh c).foldl covStep (remove_lr σ c)) c c = remove_lr σ c := by
    have hfp : fpath (remove_lr σ c).up c ((sh.col c).reverse ++ [c]) := by
      rw [hup0]
      exact gpath_of_links σ.down σ.up (sh.col c) c c (hIc.col_ring c hcH).1
    have h := uncoverColLoop_unwind D c hcH (sh.col c).reverse fuel
      { hdrs := sh.hdrs.erase c, col := sh.col } (remove_lr σ c) c hI0
      (by simp; omega) hfp (List.mem_cons_self _ _)
      (fun i hi => List.mem_reverse.1 hi)
      (by rw [List.reverse_reverse]; exact hJnd)
      (by rw [List.reverse_reverse]; exact hJlive0)
      (by rw [List.reverse_reverse]; exact hJc0)
    rw [List.reverse_reverse] at h
    exact h
  show insert_lr (uncoverColLoop fuel (cover fuel σ c) c c) c = σ
  rw [hcov, hunc]
  exact remove_insert_lr σ c hrl hlr hcr

/-- Claim C1: on a well-formed matrix state, cover(c) immediately followed
by uncover(c) restores the state link-for-link: every left/right/up/down
link and every column count s is exactly what it was before the cover. -/
theorem cover_uncover_restores (D : Desc) (sh : Shape) (σ : S) (c : Nat)
    (fuel : Nat) (hI : Inv D sh σ) (hc : c ∈ sh.hdrs)
    (hf : 2 * D.nodes.length + 2 ≤ fuel) :
    uncover fuel (cover fuel σ c) c = σ :=
  cover_uncover_cancel D sh σ c fuel hI hc hf

/-- Transfer of the protocol invariants across a cover, abstracted over the
effect of the removal fold on the shape. -/
theorem rowLive_cover_aux (D : Desc) (sh : Shape) (σ : S) (c : Nat)
    (hIc : InvCore D sh σ) (hRL : RowLive D sh σ) (hc : c ∈ sh.hdrs)
    (sh' : Shape) (σ' : S)
    (hch : σ'.chead = σ.chead)
    (hhd : sh'.hdrs = sh.hdrs.erase c)
    (hrem : ∀ j ∈ remList D sh c, j ∉ sh'.col (σ.chead j))
    (hkeep : ∀ x d, x ∉ remList D sh c → (x ∈ sh'.col d ↔ x ∈ sh.col d)) :
    RowLive D sh' σ' ∧ (RowHdr D sh σ → RowHdr D sh' σ') := by
  have hcH : c ∈ D.headers := hIc.hdrs_sub c hc
  have hhdnd : sh.hdrs.Nodup := (List.nodup_cons.1 hIc.hdr_ring.2).2
  have hflat : D.rows.flatten.Nodup := (hIc.rows_nodes.nodup_iff).2 hIc.node_nodup
  have key : ∀ r ∈ D.rows, ∀ n ∈ r, n ∈ sh'.col (σ.chead n) →
      σ.chead n ∈ sh'.hdrs → ∀ m ∈ r, m ∉ sh.col c := by
    intro r hr n hn hnl hnh m hm hmc
    have hmn : m ∈ D.nodes := hIc.col_sub c hcH m hmc
    have hchm : σ.chead m = c := hIc.col_chead c hcH m hmc
    by_cases hnm : n = m
    · subst hnm
      rw [hchm, hhd] at hnh
      exact hhdnd.not_mem_erase hnh
    · obtain ⟨hrrm, hmrow, _, _⟩ := row_split D sh σ hIc m hmn
      have hreq : r = rowOf D m := by
        by_contra hne
        exact flatten_nodup_disjoint D.rows hflat r hr (rowOf D m) hrrm hne
          m hm hmrow
      have hnparts : n ∈ partsOf D m :=
        mem_rowRest (rowOf D m) m n hmrow (hreq ▸ hn) hnm
      exact hrem n (List.mem_flatMap.2 ⟨m, hmc, hnparts⟩) hnl
  have kout : ∀ r ∈ D.rows, (∀ m ∈ r, m ∉ sh.col c) →
      ∀ j ∈ r, j ∉ remList D sh c := by
    intro r hr hmiss j hj hjrem
    obtain ⟨m, hmc, hjp⟩ := List.mem_flatMap.1 hjrem
    have hmn : m ∈ D.nodes := hIc.col_sub c hcH m hmc
    obtain ⟨hrrm, hmrow, hpsub, _⟩ := row_split D sh σ hIc m hmn
    have hjrow : j ∈ rowOf D m := hpsub j hjp
    have hreq : r = rowOf D m := by
      by_contra hne
      exact flatten_nodup_disjoint D.rows hflat r hr (rowOf D m) hrrm hne
        j hj hjrow
    exact hmiss m (hreq ▸ hmrow) hmc
  constructor
  · intro r hr n hn hnl hnh j hj
    rw [hch] at hnl hnh ⊢
    have hmiss := key r hr n hn hnl hnh
    have hnout : n ∉ remList D sh c := kout r hr hmiss n hn
    have hjout : j ∉ remList D sh c := kout r hr hmiss j hj
    have hnsh : n ∈ sh.col (σ.chead n) := (hkeep n _ hnout).1 hnl
    have hnhs : σ.chead n ∈ sh.hdrs := by
      rw [hhd] at hnh
      exact List.mem_of_mem_erase hnh
    have hjsh : j ∈ sh.col (σ.chead j) := hRL r hr n hn hnsh hnhs j hj
    exact (hkeep j _ hjout).2 hjsh
  · intro hRH r hr n hn hnl hnh j hj
    rw [hch] at hnl hnh ⊢
    have hmiss := key r hr n hn hnl hnh
    have hnout : n ∉ remList D sh c := kout r hr hmiss n hn
    have hnsh : n ∈ sh.col (σ.chead n) := (hkeep n _ hnout).1 hnl
    have hnhs : σ.chead n ∈ sh.hdrs := by
      rw [hhd] at hnh
      exact List.mem_of_mem_erase hnh
    have hjh : σ.chead j ∈ sh.hdrs := hRH r hr n hn hnsh hnhs j hj
    have hjsh : j ∈ sh.col (σ.chead j) := hRL r hr n hn hnsh hnhs j hj
    have hjc : σ.chead j ≠ c := fun he => hmiss j hj (he ▸ hjsh)
    rw [hhd]
    exact (List.mem_erase_of_ne hjc).2 hjh

/-- The full effect of cover(c) on a well-formed state: the invariants are
preserved at the covered shape, the header list loses exactly c, column c's
own vertical list and ring are untouched, every column shrinks, chead and id
are untouched, and the horizontal links of everything outside the header
ring are untouched. -/
theorem cover_spec (D : Desc) (sh : Shape) (σ : S) (c : Nat) (fuel : Nat)
    (hI : Inv D sh σ) (hc : c ∈ sh.hdrs)
    (hf : 2 * D.nodes.length + 2 ≤ fuel) :
    ∃ sh' : Shape,
      Inv D sh' (cover fuel σ c) ∧
      (RowHdr D sh σ → RowHdr D sh' (cover fuel σ c)) ∧
      sh'.hdrs = sh.hdrs.erase c ∧
      sh'.col c = sh.col c ∧
      (∀ d x, x ∈ sh'.col d → x ∈ sh.col d) ∧
      (cover fuel σ c).chead = σ.chead ∧
      (cover fuel σ c).idv = σ.idv ∧
      (∀ x, x ∉ D.root :: sh.hdrs →
        (cover fuel σ c).right x = σ.right x ∧
        (cover fuel σ c).left x = σ.left x) ∧
      (∀ x ∈ c :: sh.col c,
        (cover fuel σ c).down x = σ.down x ∧
        (cover fuel σ c).up x = σ.up x) ∧
      (cover fuel σ c).s c = σ.s c ∧
      (∀ d x, x ∈ sh.col d → x ∉ remList D sh c → x ∈ sh'.col d) := by
  obtain ⟨hIc, hRL⟩ := hI
  have hcH : c ∈ D.headers := hIc.hdrs_sub c hc
  obtain ⟨hI0, hup0, hdn0, hch0, hs0, hiv0, hrl, hlr, hcr⟩ :=
    remove_lr_spec D sh σ c hIc hc
  obtain ⟨hJnd, hJlive, hJc⟩ := remList_facts D sh σ c hIc hRL hc hcH
  have hJlive0 : liveList D { hdrs := sh.hdrs.erase c, col := sh.col }
      (remove_lr σ c) (remList D sh c) := by
    intro j hj
    obtain ⟨h1, h2⟩ := hJlive j hj
    refine ⟨h1, ?_⟩
    rw [hch0]
    exact h2
  have hchR : ∀ j ∈ remList D sh c, (remove_lr σ c).chead j = σ.chead j :=
    fun j _ => by rw [hch0]
  obtain ⟨hIF, hrF, hlF, hchF, hivF, hstab⟩ :=
    covFold_spec D σ.chead (remList D sh c)
      { hdrs := sh.hdrs.erase c, col := sh.col } (remove_lr σ c)
      hI0 hchR hJnd hJlive0
  have hcov : cover fuel σ c
      = (remList D sh c).foldl covStep (remove_lr σ c) :=
    cover_eq_fold D sh σ c fuel ⟨hIc, hRL⟩ hc hf
  have hJcR : ∀ j ∈ remList D sh c, (remove_lr σ c).chead j ≠ c := by
    intro j hj
    rw [hch0]
    exact hJc j hj
  have hstabc := hstab c hcH hJcR
  have hchFull : ((remList D sh c).foldl covStep (remove_lr σ c)).chead
      = σ.chead := by rw [hchF, hch0]
  have hrem : ∀ j ∈ remList D sh c,
      j ∉ ((remList D sh c).foldl
        (fun t j => eraseNode t (σ.chead j) j)
        { hdrs := sh.hdrs.erase c, col := sh.col }).col (σ.chead j) := by
    apply foldl_eraseNode_not_mem
    intro j hj
    have hjn : j ∈ D.nodes := (hJlive j hj).1
    have hjh : σ.chead j ∈ D.headers := hIc.chead_mem j hjn
    exact (List.nodup_cons.1 (hIc.col_ring _ hjh).2).2
  have hkeep : ∀ x d, x ∉ remList D sh c →
      (x ∈ ((remList D sh c).foldl
        (fun t j => eraseNode t (σ.chead j) j)
        { hdrs := sh.hdrs.erase c, col := sh.col }).col d ↔ x ∈ sh.col d) := by
    intro x d hx
    exact foldl_eraseNode_mem_iff σ.chead (remList D sh c) _ x d hx
  obtain ⟨hRL', hRH'⟩ := rowLive_cover_aux D sh σ c hIc hRL hc
    ((remList D sh c).foldl (fun t j => eraseNode t (σ.chead j) j)
      { hdrs := sh.hdrs.erase c, col := sh.col })
    ((remList D sh c).foldl covStep (remove_lr σ c))
    hchFull
    (foldl_eraseNode_hdrs σ.chead (remList D sh c) _)
    hrem hkeep
  obtain ⟨hlcm, hrcm⟩ := hdr_neighbors D sh σ c hIc hc
  refine ⟨(remList D sh c).foldl (fun t j => eraseNode t (σ.chead j) j)
    { hdrs := sh.hdrs.erase c, col := sh.col }, ?_, ?_, ?_, ?_, ?_, ?_, ?_,
    ?_, ?_, ?_, ?_⟩
  · rw [hcov]
    exact ⟨hIF, hRL'⟩
  · rw [hcov]
    exact hRH'
  · exact foldl_eraseNode_hdrs σ.chead (remList D sh c) _
  · exact hstabc.2.2
  · intro d x hx
    exact (foldl_eraseNode_sublist σ.chead (remList D sh c)
      { hdrs := sh.hdrs.erase c, col := sh.col } d).subset hx
  · rw [hcov]
    exact hchFull
  · rw [hcov, hivF, hiv0]
  · intro x hx
    have hx1 : x ≠ σ.left c := fun h => hx (h ▸ hlcm)
    have hx2 : x ≠ σ.right c := fun h => hx (h ▸ hrcm)
    rw [hcov, hrF, hlF, remove_lr_right, remove_lr_left]
    exact ⟨upd_other _ _ _ _ hx1, upd_other _ _ _ _ hx2⟩
  · intro x hx
    have h := hstabc.1 x hx
    rw [hcov]
    rw [hdn0] at h
    rw [hup0] at h
    exact h
  · rw [hcov, hstabc.2.1, hs0]
  · intro d x hx hxr
    exact (hkeep x d hxr).2 hx

/-- A row node is neither the root nor a live header. -/
theorem node_not_root_hdrs (D : Desc) (sh : Shape) (σ : S)
    (hIc : InvCore D sh σ) (x : Nat) (hx : x ∈ D.nodes) :
    x ∉ D.root :: sh.hdrs := by
  intro h
  rcases List.mem_cons.1 h with h | h
  · exact hIc.root_not_node (h ▸ hx)
  · exact hIc.hdr_node_disj x (hIc.hdrs_sub x h) hx

/-- A member together with its cyclic rest is a permutation of the list. -/
theorem rowRest_perm :
    ∀ (l : List Nat) (m : Nat), m ∈ l → (m :: rowRest l m).Perm l := by
  intro l
  induction l with
  | nil => intro m hm; cases hm
  | cons x l' ih =>
    intro m hm
    by_cases hx : x = m
    · subst hx
      have hrw : rowRest (x :: l') x = l' := by
        unfold rowRest
        rw [List.dropWhile_cons, List.takeWhile_cons]
        simp
      rw [hrw]
    · have hm' : m ∈ l' := by
        rcases List.mem_cons.1 hm with h | h
        · exact absurd h.symm hx
        · exact h
      have hrw : rowRest (x :: l') m
          = ((l'.dropWhile (fun y => y != m)).tail)
            ++ x :: l'.takeWhile (fun y => y != m) := by
        unfold rowRest
        rw [List.dropWhile_cons, List.takeWhile_cons]
        have : (x != m) = true := by simpa using hx
        rw [this]
        simp
      rw [hrw]
      have hmid : ((l'.dropWhile (fun y => y != m)).tail
          ++ x :: l'.takeWhile (fun y => y != m)).Perm
          (x :: ((l'.dropWhile (fun y => y != m)).tail
            ++ l'.takeWhile (fun y => y != m))) := List.perm_middle
      have hstep1 := hmid.cons m
      have hswap : (m :: x :: ((l'.dropWhile (fun y => y != m)).tail
          ++ l'.takeWhile (fun y => y != m))).Perm
          (x :: m :: ((l'.dropWhile (fun y => y != m)).tail
            ++ l'.takeWhile (fun y => y != m))) := List.Perm.swap _ _ _
      have hih : (m :: ((l'.dropWhile (fun y => y != m)).tail
          ++ l'.takeWhile (fun y => y != m))).Perm l' := by
        have := ih m hm'
        unfold rowRest at this
        exact this
      exact (hstep1.trans hswap).trans (hih.cons x)

/-- The loop of dlx_force_row is the fold of cover over the columns of the
visited nodes, read off the static right links. -/
theorem forceRowLoop_fold (D : Desc) :
    ∀ (P : List Nat) (fuel cf : Nat) (sh : Shape) (σ : S) (r i : Nat),
      Inv D sh σ →
      P.length < fuel → 2 * D.nodes.length + 2 ≤ cf →
      fpath σ.right i (P ++ [r]) →
      r ∈ D.nodes →
      (∀ y ∈ i :: P, y ∈ D.nodes) →
      (∀ y ∈ P, y ≠ r) →
      (∀ y ∈ i :: P, σ.chead y ∈ sh.hdrs) →
      ((i :: P).map σ.chead).Nodup →
      forceRowLoop fuel cf σ r i
        = (i :: P).foldl (fun t y => cover cf t (σ.chead y)) σ := by
  intro P
  induction P with
  | nil =>
    intro fuel cf sh σ r i hI hflen hfc hp hrn hnodes hne hhd hnd
    cases fuel with
    | zero => simp at hflen
    | succ f =>
      obtain ⟨h1, _⟩ := hp
      obtain ⟨sh1, hI1, hRH1, hhd1, hcolc1, hsub1, hch1, hiv1, hframe1,
        hdu1, hs1, _⟩ := cover_spec D sh σ (σ.chead i) cf hI
          (hhd i (List.mem_cons_self _ _)) hfc
      have hiN : i ∈ D.nodes := hnodes i (List.mem_cons_self _ _)
      have hri : (cover cf σ (σ.chead i)).right i = r := by
        rw [(hframe1 i (node_not_root_hdrs D sh σ hI.1 i hiN)).1, h1]
      show (if (cover cf σ (σ.chead i)).right i = r then cover cf σ (σ.chead i)
        else forceRowLoop f cf (cover cf σ (σ.chead i)) r
          ((cover cf σ (σ.chead i)).right i))
        = ([i]).foldl (fun t y => cover cf t (σ.chead y)) σ
      rw [hri, if_pos rfl, List.foldl_cons, List.foldl_nil]
  | cons y P' ih =>
    intro fuel cf sh σ r i hI hflen hfc hp hrn hnodes hne hhd hnd
    cases fuel with
    | zero => rw [List.length_cons] at hflen; omega
    | succ f =>
      obtain ⟨h1, h2⟩ := hp
      obtain ⟨sh1, hI1, hRH1, hhd1, hcolc1, hsub1, hch1, hiv1, hframe1,
        hdu1, hs1, _⟩ := cover_spec D sh σ (σ.chead i) cf hI
          (hhd i (List.mem_cons_self _ _)) hfc
      have hnotin : ∀ z, z ∈ D.nodes → z ∉ D.root :: sh.hdrs :=
        fun z hz => node_not_root_hdrs D sh σ hI.1 z hz
      have hiN : i ∈ D.nodes := hnodes i (List.mem_cons_self _ _)
      have hri : (cover cf σ (σ.chead i)).right i = y := by
        rw [(hframe1 i (hnotin i hiN)).1, h1]
      have hyr : y ≠ r := hne y (List.mem_cons_self _ _)
      show (if (cover cf σ (σ.chead i)).right i = r then cover cf σ (σ.chead i)
        else forceRowLoop f cf (cover cf σ (σ.chead i)) r
          ((cover cf σ (σ.chead i)).right i))
        = (i :: y :: P').foldl (fun t z => cover cf t (σ.chead z)) σ
      rw [hri, if_neg hyr]
      have hfp1 : fpath (cover cf σ (σ.chead i)).right y (P' ++ [r]) := by
        apply fpath_congr σ.right _ _ _ ?_ h2
        intro z hz
        have hzN : z ∈ D.nodes := by
          rcases List.mem_cons.1 hz with h | h
          · exact h ▸ hnodes y (List.mem_cons_of_mem _ (List.mem_cons_self _ _))
          · rcases List.mem_append.1 h with h | h
            · exact hnodes z (List.mem_cons_of_mem _ (List.mem_cons_of_mem _ h))
            · rw [List.mem_singleton] at h
              exact h ▸ hrn
        exact (hframe1 z (hnotin z hzN)).1
      have hhdm : ∀ z ∈ y :: P',
          (cover cf σ (σ.chead i)).chead z ∈ sh1.hdrs := by
        intro z hz
        rw [hch1, hhd1]
        have hzh : σ.chead z ∈ sh.hdrs := hhd z (List.mem_cons_of_mem _ hz)
        have hne' : σ.chead z ≠ σ.chead i := by
          have hnd' := hnd
          rw [List.map_cons, List.nodup_cons] at hnd'
          intro he
          exact hnd'.1 (he ▸ List.mem_map_of_mem σ.chead hz)
        exact (List.mem_erase_of_ne hne').2 hzh
      have hndm : ((y :: P').map (cover cf σ (σ.chead i)).chead).Nodup := by
        rw [hch1]
        have hnd' := hnd
        rw [List.map_cons, List.nodup_cons] at hnd'
        exact hnd'.2
      have hIH := ih f cf sh1 (cover cf σ (σ.chead i)) r y hI1
        (by rw [List.length_cons] at hflen; omega) hfc hfp1 hrn
        (fun z hz => hnodes z (List.mem_cons_of_mem _ hz))
        (fun z hz => hne z (List.mem_cons_of_mem _ hz)) hhdm hndm
      rw [List.foldl_cons, hIH, hch1]

/-- Claim C5: the force/unselect protocol of row commitment.  The removal
test is the single-sided liveness check down(up(r)) = r; on a live row it
reports not-removed, dlx_unselect_row fails with -1 leaving the state
untouched, and dlx_force_row succeeds with 0, covering the column of every
node of the row left-to-right starting with the row node's own column.
After the row node is unlinked by a removal step, the test reports removed,
dlx_force_row fails with -1 leaving the state untouched, and
dlx_unselect_row proceeds (returns 0). -/
theorem force_unselect_row_spec (D : Desc) (sh : Shape) (σ : S) (r : Nat)
    (fuel : Nat) (hI : Inv D sh σ) (hrn : r ∈ D.nodes)
    (hlive : r ∈ sh.col (σ.chead r))
    (hhd : ∀ y ∈ r :: partsOf D r, σ.chead y ∈ sh.hdrs)
    (hf : 2 * D.nodes.length + 2 ≤ fuel) :
    is_removed_ud σ r = false ∧
    is_removed_ud (covStep σ r) r = true ∧
    dlx_unselect_row fuel σ r = (-1, σ) ∧
    dlx_force_row fuel (covStep σ r) r = (-1, covStep σ r) ∧
    (dlx_unselect_row fuel (covStep σ r) r).1 = 0 ∧
    dlx_force_row fuel σ r
      = (0, (r :: partsOf D r).foldl (fun t y => cover fuel t (σ.chead y)) σ) := by
  have hIc := hI.1
  have hchr : σ.chead r ∈ D.headers := hIc.chead_mem r hrn
  obtain ⟨_, _, hdu, hud, _⟩ := covStep_spec D sh σ r hIc hrn hlive
  have hdr : σ.down r ≠ r :=
    ring_next_ne σ.down σ.up (σ.chead r) (sh.col (σ.chead r)) r
      (hIc.col_ring (σ.chead r) hchr) hlive
  have h1 : is_removed_ud σ r = false := by
    simp [is_removed_ud, hdu]
  have h2 : is_removed_ud (covStep σ r) r = true := by
    have e1 : (upd σ.down (σ.up r) (σ.down r)) r = σ.down r := by
      show (if r = σ.up r then σ.down r else σ.down r) = σ.down r
      rw [ite_self]
    have hup_eq : (covStep σ r).up = upd σ.up (σ.down r) (σ.up r) := by
      show upd σ.up ((upd σ.down (σ.up r) (σ.down r)) r) (σ.up r)
        = upd σ.up (σ.down r) (σ.up r)
      rw [e1]
    have hupr : (covStep σ r).up r = σ.up r := by
      rw [hup_eq]
      exact upd_other _ _ _ _ (fun h => hdr h.symm)
    have hdnu : (covStep σ r).down (σ.up r) = σ.down r := by
      show upd σ.down (σ.up r) (σ.down r) (σ.up r) = σ.down r
      exact upd_same _ _ _
    simp only [is_removed_ud, hupr, hdnu, ne_eq, decide_eq_true_eq]
    exact hdr
  have h3 : dlx_unselect_row fuel σ r = (-1, σ) := by
    unfold dlx_unselect_row
    rw [h1]
    simp
  have h4 : dlx_force_row fuel (covStep σ r) r = (-1, covStep σ r) := by
    unfold dlx_force_row
    rw [h2]
    simp
  have h5 : (dlx_unselect_row fuel (covStep σ r) r).1 = 0 := by
    unfold dlx_unselect_row
    rw [h2]
    simp
  refine ⟨h1, h2, h3, h4, h5, ?_⟩
  unfold dlx_force_row
  rw [h1]
  simp only [Bool.false_eq_true, if_false]
  obtain ⟨hrr, hirow, hsub, hringr⟩ := row_split D sh σ hIc r hrn
  have hpnodes : ∀ y ∈ partsOf D r, y ∈ D.nodes :=
    fun y hy => row_mem_nodes D sh σ hIc _ hrr y (hsub y hy)
  have hpnd : (r :: partsOf D r).Nodup := hringr.2
  have hplen : (partsOf D r).length ≤ D.nodes.length :=
    (List.subperm_of_subset (List.nodup_cons.1 hpnd).2 hpnodes).length_le
  have hperm : (r :: partsOf D r).Perm (rowOf D r) :=
    rowRest_perm (rowOf D r) r hirow
  have hndch : ((r :: partsOf D r).map σ.chead).Nodup :=
    ((hperm.map σ.chead).nodup_iff).2 (hIc.rows_chead_nodup _ hrr)
  have hfold := forceRowLoop_fold D (partsOf D r) fuel fuel sh σ r r hI
    (by omega) hf (links_fpath _ _ _ _ hringr.1) hrn
    (fun y hy => by
      rcases List.mem_cons.1 hy with h | h
      · exact h ▸ hrn
      · exact hpnodes y h)
    (fun y hy he => (List.nodup_cons.1 hpnd).1 (he ▸ hy))
    hhd hndch
  rw [hfold]

/-- The column-selection scan only ever returns its running candidate or a
header it visits along the right links. -/
theorem minHLoop_mem :
    ∀ (H : List Nat) (fuel : Nat) (σ : S) (h i mn : Nat) (cand : Option Nat),
      H.length < fuel → fpath σ.right i (H ++ [h]) →
      ∀ c, minHLoop fuel σ h i mn cand = some c →
        cand = some c ∨ c ∈ H := by
  intro H
  induction H with
  | nil =>
    intro fuel σ h i mn cand hflen hp c hres
    cases fuel with
    | zero => simp at hflen
    | succ f =>
      obtain ⟨h1, _⟩ := hp
      unfold minHLoop at hres
      rw [h1, if_pos rfl] at hres
      exact Or.inl hres
  | cons y H' ih =>
    intro fuel σ h i mn cand hflen hp c hres
    cases fuel with
    | zero => simp at hflen
    | succ f =>
      obtain ⟨h1, h2⟩ := hp
      rw [List.length_cons] at hflen
      unfold minHLoop at hres
      rw [h1] at hres
      by_cases hyh : y = h
      · rw [if_pos hyh] at hres
        exact Or.inl hres
      · rw [if_neg hyh] at hres
        by_cases hlt : σ.s y < mn
        · rw [if_pos hlt] at hres
          rcases ih f σ h y (σ.s y) (some y) (by omega) h2 c hres with hc | hc
          · rw [Option.some.injEq] at hc
            exact Or.inr (hc ▸ List.mem_cons_self _ _)
          · exact Or.inr (List.mem_cons_of_mem _ hc)
        · rw [if_neg hlt] at hres
          rcases ih f σ h y mn cand (by omega) h2 c hres with hc | hc
          · exact Or.inl hc
          · exact Or.inr (List.mem_cons_of_mem _ hc)

/-- The loop covering the other columns of a chosen row is the fold of cover
over the columns of the remaining row nodes. -/
theorem coverOthersLoop_fold (D : Desc) :
    ∀ (P : List Nat) (fuel cf : Nat) (sh : Shape) (σ : S) (i j : Nat),
      Inv D sh σ →
      P.length < fuel → 2 * D.nodes.length + 2 ≤ cf →
      fpath σ.right j (P ++ [i]) →
      i ∈ D.nodes →
      (∀ y ∈ P, y ∈ D.nodes) →
      (∀ y ∈ P, y ≠ i) →
      (∀ y ∈ P, σ.chead y ∈ sh.hdrs) →
      (P.map σ.chead).Nodup →
      coverOthersLoop fuel cf σ i j
        = P.foldl (fun t y => cover cf t (σ.chead y)) σ := by
  intro P
  induction P with
  | nil =>
    intro fuel cf sh σ i j hI hflen hfc hp hin hnodes hne hhd hnd
    cases fuel with
    | zero => simp at hflen
    | succ f =>
      obtain ⟨h1, _⟩ := hp
      show (if σ.right j = i then σ
        else coverOthersLoop f cf (cover cf σ (σ.chead (σ.right j))) i
          (σ.right j))
        = ([] : List Nat).foldl (fun t y => cover cf t (σ.chead y)) σ
      rw [h1, if_pos rfl, List.foldl_nil]
  | cons y P' ih =>
    intro fuel cf sh σ i j hI hflen hfc hp hin hnodes hne hhd hnd
    cases fuel with
    | zero => simp at hflen
    | succ f =>
      obtain ⟨h1, h2⟩ := hp
      have hyi : y ≠ i := hne y (List.mem_cons_self _ _)
      have hyN : y ∈ D.nodes := hnodes y (List.mem_cons_self _ _)
      obtain ⟨sh1, hI1, hRH1, hhd1, hcolc1, hsub1, hch1, hiv1, hframe1,
        hdu1, hs1, _⟩ := cover_spec D sh σ (σ.chead y) cf hI
          (hhd y (List.mem_cons_self _ _)) hfc
      have hnotin : ∀ z, z ∈ D.nodes → z ∉ D.root :: sh.hdrs :=
        fun z hz => node_not_root_hdrs D sh σ hI.1 z hz
      show (if σ.right j = i then σ
        else coverOthersLoop f cf (cover cf σ (σ.chead (σ.right j))) i
          (σ.right j))
        = (y :: P').foldl (fun t z => cover cf t (σ.chead z)) σ
      rw [h1, if_neg hyi]
      have hfp1 : fpath (cover cf σ (σ.chead y)).right y (P' ++ [i]) := by
        apply fpath_congr σ.right _ _ _ ?_ h2
        intro z hz
        have hzN : z ∈ D.nodes := by
          rcases List.mem_cons.1 hz with h | h
          · exact h ▸ hyN
          · rcases List.mem_append.1 h with h | h
            · exact hnodes z (List.mem_cons_of_mem _ h)
            · rw [List.mem_singleton] at h
              exact h ▸ hin
        exact (hframe1 z (hnotin z hzN)).1
      have hhdm : ∀ z ∈ P',
          (cover cf σ (σ.chead y)).chead z ∈ sh1.hdrs := by
        intro z hz
        rw [hch1, hhd1]
        have hzh : σ.chead z ∈ sh.hdrs := hhd z (List.mem_cons_of_mem _ hz)
        have hne' : σ.chead z ≠ σ.chead y := by
          have hnd' := hnd
          rw [List.map_cons, List.nodup_cons] at hnd'
          intro he
          exact hnd'.1 (he ▸ List.mem_map_of_mem σ.chead hz)
        exact (List.mem_erase_of_ne hne').2 hzh
      have hndm : (P'.map (cover cf σ (σ.chead y)).chead).Nodup := by
        rw [hch1]
        have hnd' := hnd
        rw [List.map_cons, List.nodup_cons] at hnd'
        exact hnd'.2
      have hIH := ih f cf sh1 (cover cf σ (σ.chead y)) i y hI1
        (by rw [List.length_cons] at hflen; omega) hfc hfp1 hin
        (fun z hz => hnodes z (List.mem_cons_of_mem _ hz))
        (fun z hz => hne z (List.mem_cons_of_mem _ hz)) hhdm hndm
      rw [List.foldl_cons, hIH, hch1]

/-- A chain of covers over pairwise-distinct live columns preserves the
invariants, removes exactly those columns from the header list, and leaves
chead and the horizontal links of everything outside the header ring
untouched. -/
theorem coverChain_spec (D : Desc) :
    ∀ (L : List Nat) (sh : Shape) (σ : S) (cf : Nat),
      Inv D sh σ → (∀ d ∈ L, d ∈ sh.hdrs) → L.Nodup →
      2 * D.nodes.length + 2 ≤ cf →
      ∃ sh' : Shape,
        Inv D sh' (L.foldl (fun t d => cover cf t d) σ) ∧
        (RowHdr D sh σ → RowHdr D sh' (L.foldl (fun t d => cover cf t d) σ)) ∧
        (∀ d, d ∈ sh'.hdrs ↔ (d ∈ sh.hdrs ∧ d ∉ L)) ∧
        (L.foldl (fun t d => cover cf t d) σ).chead = σ.chead ∧
        (∀ x, x ∉ D.root :: sh.hdrs →
          (L.foldl (fun t d => cover cf t d) σ).right x = σ.right x ∧
          (L.foldl (fun t d => cover cf t d) σ).left x = σ.left x) := by
  intro L
  induction L with
  | nil =>
    intro sh σ cf hI _ _ _
    exact ⟨sh, hI, fun h => h, fun d => by simp, rfl,
      fun x _ => ⟨rfl, rfl⟩⟩
  | cons d0 L' ih =>
    intro sh σ cf hI hmem hnd hcf
    have hhdnd : sh.hdrs.Nodup := (List.nodup_cons.1 hI.1.hdr_ring.2).2
    obtain ⟨sh1, hI1, hRH1, hhd1, hcolc1, hsub1, hch1, hiv1, hframe1,
      hdu1, hs1, _⟩ := cover_spec D sh σ d0 cf hI
        (hmem d0 (List.mem_cons_self _ _)) hcf
    have hndc := List.nodup_cons.1 hnd
    have hmem1 : ∀ d ∈ L', d ∈ sh1.hdrs := by
      intro d hd
      rw [hhd1]
      exact (List.mem_erase_of_ne (fun h : d = d0 => hndc.1 (h ▸ hd))).2
        (hmem d (List.mem_cons_of_mem _ hd))
    obtain ⟨sh2, hI2, hRH2, hiff2, hch2, hframe2⟩ :=
      ih sh1 (cover cf σ d0) cf hI1 hmem1 hndc.2 hcf
    have hsub1h : ∀ x, x ∈ sh1.hdrs → x ∈ sh.hdrs := by
      intro x hx
      rw [hhd1] at hx
      exact List.mem_of_mem_erase hx
    have hnotin1 : ∀ x, x ∉ D.root :: sh.hdrs → x ∉ D.root :: sh1.hdrs := by
      intro x hx hmem'
      rcases List.mem_cons.1 hmem' with h | h
      · exact hx (h ▸ List.mem_cons_self _ _)
      · exact hx (List.mem_cons_of_mem _ (hsub1h x h))
    refine ⟨sh2, ?_, ?_, ?_, ?_, ?_⟩
    · rw [List.foldl_cons]
      exact hI2
    · intro hRH
      rw [List.foldl_cons]
      exact hRH2 (hRH1 hRH)
    · intro d
      rw [hiff2 d, hhd1, hhdnd.mem_erase_iff]
      constructor
      · rintro ⟨⟨hd0, hdh⟩, hdL⟩
        refine ⟨hdh, ?_⟩
        intro hmem'
        rcases List.mem_cons.1 hmem' with h | h
        · exact hd0 h
        · exact hdL h
      · rintro ⟨hdh, hdL⟩
        exact ⟨⟨fun h => hdL (h ▸ List.mem_cons_self _ _), hdh⟩,
          fun h => hdL (List.mem_cons_of_mem _ h)⟩
    · rw [List.foldl_cons, hch2, hch1]
    · intro x hx
      rw [List.foldl_cons]
      obtain ⟨hr2, hl2⟩ := hframe2 x (hnotin1 x hx)
      obtain ⟨hr1, hl1⟩ := hframe1 x hx
      exact ⟨hr2.trans hr1, hl2.trans hl1⟩

/-- The uncover loop of the search walks the chosen row's other nodes
right-to-left and exactly undoes the cover chain built left-to-right. -/
theorem uncoverOthersWalk (D : Desc) :
    ∀ (P : List Nat) (fuel cf : Nat) (sh : Shape) (σ : S) (i j : Nat),
      Inv D sh σ →
      P.length < fuel → 2 * D.nodes.length + 2 ≤ cf →
      fpath σ.left j (P.reverse ++ [i]) →
      i ∈ D.nodes → j ∈ D.nodes →
      (∀ y ∈ P, y ∈ D.nodes) →
      (∀ y ∈ P, y ≠ i) →
      (∀ y ∈ P, σ.chead y ∈ sh.hdrs) →
      (P.map σ.chead).Nodup →
      uncoverOthersLoop fuel cf
        (P.foldl (fun t y => cover cf t (σ.chead y)) σ) i j = σ := by
  intro P
  induction P using List.reverseRecOn with
  | nil =>
    intro fuel cf sh σ i j hI hflen hfc hp hin hjn hnodes hne hhd hnd
    cases fuel with
    | zero => simp at hflen
    | succ f =>
      obtain ⟨h1, _⟩ := hp
      show (if σ.left j = i then σ
        else uncoverOthersLoop f cf (uncover cf σ (σ.chead (σ.left j))) i
          (σ.left j)) = σ
      rw [h1, if_pos rfl]
  | append_singleton P' y ih =>
    intro fuel cf sh σ i j hI hflen hfc hp hin hjn hnodes hne hhd hnd
    cases fuel with
    | zero => simp at hflen
    | succ f =>
      rw [List.reverse_append, List.reverse_singleton, List.singleton_append,
        List.cons_append] at hp
      obtain ⟨h1, h2⟩ := hp
      have hyP : y ∈ P' ++ [y] :=
        List.mem_append_right _ (List.mem_singleton.2 rfl)
      have hyi : y ≠ i := hne y hyP
      have hyN : y ∈ D.nodes := hnodes y hyP
      have hjNR : j ∉ D.root :: sh.hdrs := node_not_root_hdrs D sh σ hI.1 j hjn
      have hndmap := hnd
      rw [List.map_append, List.map_singleton] at hndmap
      have hndsplit := List.nodup_append.1 hndmap
      have hmemP' : ∀ d ∈ P'.map σ.chead, d ∈ sh.hdrs := by
        intro d hd
        obtain ⟨z, hz, hzd⟩ := List.mem_map.1 hd
        exact hzd ▸ hhd z (List.mem_append_left _ hz)
      have hfoldeq : (P'.map σ.chead).foldl (fun t d => cover cf t d) σ
          = P'.foldl (fun t z => cover cf t (σ.chead z)) σ :=
        List.foldl_map σ.chead (fun t d => cover cf t d) P' σ
      obtain ⟨sh', hI', hRH', hiff', hch', hframe'⟩ :=
        coverChain_spec D (P'.map σ.chead) sh σ cf hI hmemP' hndsplit.1 hfc
      rw [hfoldeq] at hI' hch' hframe'
      have hynotL : σ.chead y ∉ P'.map σ.chead := by
        intro hmem'
        exact hndsplit.2.2 hmem' (List.mem_singleton.2 rfl)
      have hyhdr' : σ.chead y ∈ sh'.hdrs :=
        (hiff' (σ.chead y)).2 ⟨hhd y hyP, hynotL⟩
      have hfold_split : (P' ++ [y]).foldl
          (fun t z => cover cf t (σ.chead z)) σ
          = cover cf (P'.foldl (fun t z => cover cf t (σ.chead z)) σ)
            (σ.chead y) := by
        rw [List.foldl_append, List.foldl_cons, List.foldl_nil]
      obtain ⟨sh2, hI2, hRH2, hhd2, hcolc2, hsub2, hch2, hiv2, hframe2,
        hdu2, hs2, _⟩ := cover_spec D sh'
          (P'.foldl (fun t z => cover cf t (σ.chead z)) σ) (σ.chead y) cf
          hI' hyhdr' hfc
      have hjNR' : j ∉ D.root :: sh'.hdrs := by
        intro hmem'
        rcases List.mem_cons.1 hmem' with h | h
        · exact hjNR (h ▸ List.mem_cons_self _ _)
        · exact hjNR (List.mem_cons_of_mem _ ((hiff' j).1 h).1)
      have hleftj : ((P' ++ [y]).foldl
          (fun t z => cover cf t (σ.chead z)) σ).left j = y := by
        rw [hfold_split, (hframe2 j hjNR').2, (hframe' j hjNR).2, h1]
      have hcheady : ((P' ++ [y]).foldl
          (fun t z => cover cf t (σ.chead z)) σ).chead y = σ.chead y := by
        rw [hfold_split, hch2, hch']
      have hcancel : uncover cf ((P' ++ [y]).foldl
          (fun t z => cover cf t (σ.chead z)) σ) (σ.chead y)
          = P'.foldl (fun t z => cover cf t (σ.chead z)) σ := by
        rw [hfold_split]
        exact cover_uncover_cancel D sh'
          (P'.foldl (fun t z => cover cf t (σ.chead z)) σ) (σ.chead y) cf
          hI' hyhdr' hfc
      show (if ((P' ++ [y]).foldl (fun t z => cover cf t (σ.chead z)) σ).left j
          = i then (P' ++ [y]).foldl (fun t z => cover cf t (σ.chead z)) σ
        else uncoverOthersLoop f cf
          (uncover cf ((P' ++ [y]).foldl (fun t z => cover cf t (σ.chead z)) σ)
            (((P' ++ [y]).foldl (fun t z => cover cf t (σ.chead z)) σ).chead
              (((P' ++ [y]).foldl (fun t z => cover cf t (σ.chead z)) σ).left
                j))) i
          (((P' ++ [y]).foldl (fun t z => cover cf t (σ.chead z)) σ).left j))
        = σ
      rw [hleftj, if_neg hyi, hcheady, hcancel]
      have hlenP' : P'.length < f := by
        rw [List.length_append, List.length_singleton] at hflen
        omega
      exact ih f cf sh σ i y hI hlenP' hfc h2 hin hyN
        (fun z hz => hnodes z (List.mem_append_left _ hz))
        (fun z hz => hne z (List.mem_append_left _ hz))
        (fun z hz => hhd z (List.mem_append_left _ hz)) hndsplit.1

/-- Common facts used at each row of the search's row loop: the row's other
nodes, their columns, and the cover/uncover roundtrip over them. -/
theorem rowLoopStep (D : Desc) (sh : Shape) (σ : S) (c y : Nat) (lf : Nat)
    (hI : Inv D sh σ) (hc : c ∈ D.headers) (hyc : y ∈ sh.col c)
    (hrows : ∀ i1 ∈ sh.col c, ∀ j ∈ partsOf D i1, σ.chead j ∈ sh.hdrs)
    (hlf : D.headers.length + 2 * D.nodes.length + 3 ≤ lf) :
    coverOthersLoop lf lf σ y y
      = (partsOf D y).foldl (fun t z => cover lf t (σ.chead z)) σ ∧
    uncoverOthersLoop lf lf
      ((partsOf D y).foldl (fun t z => cover lf t (σ.chead z)) σ) y y = σ ∧
    (∃ shA : Shape,
      Inv D shA ((partsOf D y).foldl (fun t z => cover lf t (σ.chead z)) σ) ∧
      (RowHdr D sh σ → RowHdr D shA
        ((partsOf D y).foldl (fun t z => cover lf t (σ.chead z)) σ))) := by
  have hIc := hI.1
  have hyN : y ∈ D.nodes := hIc.col_sub c hc y hyc
  obtain ⟨hrr, hyrow, hpsub, hringy⟩ := row_split D sh σ hIc y hyN
  have hpnodes : ∀ z ∈ partsOf D y, z ∈ D.nodes :=
    fun z hz => row_mem_nodes D sh σ hIc _ hrr z (hpsub z hz)
  have hpnd : (y :: partsOf D y).Nodup := hringy.2
  have hplen : (partsOf D y).length ≤ D.nodes.length :=
    (List.subperm_of_subset (List.nodup_cons.1 hpnd).2 hpnodes).length_le
  have hperm : (y :: partsOf D y).Perm (rowOf D y) :=
    rowRest_perm (rowOf D y) y hyrow
  have hndch : ((y :: partsOf D y).map σ.chead).Nodup :=
    ((hperm.map σ.chead).nodup_iff).2 (hIc.rows_chead_nodup _ hrr)
  have hndp : ((partsOf D y).map σ.chead).Nodup := by
    rw [List.map_cons, List.nodup_cons] at hndch
    exact hndch.2
  have hpne : ∀ z ∈ partsOf D y, z ≠ y :=
    fun z hz he => (List.nodup_cons.1 hpnd).1 (he ▸ hz)
  have hphd : ∀ z ∈ partsOf D y, σ.chead z ∈ sh.hdrs := hrows y hyc
  have h1 := coverOthersLoop_fold D (partsOf D y) lf lf sh σ y y hI
    (by omega) (by omega) (links_fpath _ _ _ _ hringy.1) hyN hpnodes hpne
    hphd hndp
  have h2 := uncoverOthersWalk D (partsOf D y) lf lf sh σ y y hI
    (by omega) (by omega)
    (gpath_of_links σ.right σ.left (partsOf D y) y y hringy.1) hyN hyN
    hpnodes hpne hphd hndp
  have hmemL : ∀ d ∈ (partsOf D y).map σ.chead, d ∈ sh.hdrs := by
    intro d hd
    obtain ⟨z, hz, hzd⟩ := List.mem_map.1 hd
    exact hzd ▸ hphd z hz
  obtain ⟨shA, hIA, hRHA, _, _, _⟩ :=
    coverChain_spec D ((partsOf D y).map σ.chead) sh σ lf hI hmemL hndp
      (by omega)
  have hfoldeq : ((partsOf D y).map σ.chead).foldl (fun t d => cover lf t d) σ
      = (partsOf D y).foldl (fun t z => cover lf t (σ.chead z)) σ :=
    List.foldl_map σ.chead (fun t d => cover lf t d) (partsOf D y) σ
  rw [hfoldeq] at hIA hRHA
  exact ⟨h1, h2, shA, hIA, hRHA⟩

/-- The live part of the header list has no more entries than the full
header set. -/
theorem hdrs_len_le (D : Desc) (sh : Shape) (σ : S) (hIc : InvCore D sh σ) :
    sh.hdrs.length ≤ D.headers.length :=
  (List.subperm_of_subset (List.nodup_cons.1 hIc.hdr_ring.2).2
    hIc.hdrs_sub).length_le

/-- The chosen column of a search step is a live header. -/
theorem minCol_live (D : Desc) (sh : Shape) (σ : S) (lf : Nat) (c : Nat)
    (hIc : InvCore D sh σ) (hlf : sh.hdrs.length < lf)
    (hmin : min_hnode_s lf σ D.root = some c) : c ∈ sh.hdrs := by
  have hf : fpath σ.right D.root (sh.hdrs ++ [D.root]) :=
    links_fpath _ _ _ _ hIc.hdr_ring.1
  rcases minHLoop_mem sh.hdrs lf σ D.root D.root (2 ^ 32 - 1) none hlf hf
    c hmin with h | h
  · simp at h
  · exact h

/-- Restoration for dlx_exact_cover and its row loop: any results they
return carry the entry state unchanged. -/
theorem ecRestore (D : Desc) :
    ∀ (fuel : Nat),
      (∀ (lf : Nat) (sh : Shape) (σ : S) (sol : Nat → Option Nat) (k : Nat),
        Inv D sh σ → RowHdr D sh σ →
        D.headers.length + 2 * D.nodes.length + 3 ≤ lf →
        ∀ res, dlx_exact_cover fuel lf σ D.root sol k = some res →
          res.2.1 = σ) ∧
      (∀ (lf : Nat) (sh : Shape) (σ : S) (sol : Nat → Option Nat)
          (k c i : Nat) (Q : List Nat),
        Inv D sh σ → RowHdr D sh σ →
        D.headers.length + 2 * D.nodes.length + 3 ≤ lf →
        c ∈ D.headers →
        (∀ i1 ∈ sh.col c, ∀ j ∈ partsOf D i1, σ.chead j ∈ sh.hdrs) →
        fpath σ.down i (Q ++ [c]) →
        (∀ y ∈ Q, y ∈ sh.col c) →
        ∀ res, dlxECLoop fuel lf σ D.root sol k c i = some res →
          res.2.1 = σ) := by
  intro fuel
  induction fuel with
  | zero =>
    constructor
    · intro lf sh σ sol k _ _ _ res hres
      simp [dlx_exact_cover] at hres
    · intro lf sh σ sol k c i Q _ _ _ _ _ _ _ res hres
      simp [dlxECLoop] at hres
  | succ fuel ih =>
    constructor
    · intro lf sh σ sol k hI hRH hlf res hres
      by_cases hroot : σ.right D.root = D.root
      · unfold dlx_exact_cover at hres
        rw [if_pos hroot] at hres
        rw [Option.some.injEq] at hres
        rw [← hres]
      · unfold dlx_exact_cover at hres
        rw [if_neg hroot] at hres
        cases hmin : min_hnode_s lf σ D.root with
        | none => rw [hmin] at hres; simp at hres
        | some c =>
          simp only [hmin] at hres
          have hcH : c ∈ sh.hdrs := minCol_live D sh σ lf c hI.1
            (by have := hdrs_len_le D sh σ hI.1; omega) hmin
          have hcHd : c ∈ D.headers := hI.1.hdrs_sub c hcH
          obtain ⟨sh1, hI1, hRH1, hhd1, hcolc1, hsub1, hch1, hiv1, hframe1,
            hdu1, hs1, _⟩ := cover_spec D sh σ c lf hI hcH (by omega)
          have hrows1 : ∀ i1 ∈ sh1.col c, ∀ j ∈ partsOf D i1,
              (cover lf σ c).chead j ∈ sh1.hdrs := by
            intro i1 hi1 j hj
            rw [hcolc1] at hi1
            have hi1N : i1 ∈ D.nodes := hI.1.col_sub c hcHd i1 hi1
            obtain ⟨hrr, hirow, hpsub, _⟩ := row_split D sh σ hI.1 i1 hi1N
            have hchi1 : σ.chead i1 = c := hI.1.col_chead c hcHd i1 hi1
            have hjh : σ.chead j ∈ sh.hdrs := by
              apply hRH (rowOf D i1) hrr i1 hirow ?_ ?_ j (hpsub j hj)
              · rw [hchi1]; exact hi1
              · rw [hchi1]; exact hcH
            have hjrem : j ∈ remList D sh c :=
              List.mem_flatMap.2 ⟨i1, hi1, hj⟩
            obtain ⟨_, _, hJc⟩ := remList_facts D sh σ c hI.1 hI.2 hcH hcHd
            have hjc : σ.chead j ≠ c := hJc j hjrem
            rw [hch1, hhd1]
            exact (List.mem_erase_of_ne hjc).2 hjh
          have hfp1 : fpath (cover lf σ c).down c (sh1.col c ++ [c]) :=
            links_fpath _ _ _ _ (hI1.1.col_ring c hcHd).1
          cases hloop : dlxECLoop fuel lf (cover lf σ c) D.root sol k c c with
          | none => rw [hloop] at hres; simp at hres
          | some t =>
            obtain ⟨n, σ2, sol2⟩ := t
            simp only [hloop] at hres
            have hσ2 := ih.2 lf sh1 (cover lf σ c) sol k c c (sh1.col c)
              hI1 (hRH1 hRH) hlf hcHd hrows1 hfp1 (fun y hy => hy)
              (n, σ2, sol2) hloop
            simp only at hσ2
            rw [Option.some.injEq] at hres
            rw [← hres]
            show uncover lf σ2 c = σ
            rw [hσ2]
            exact cover_uncover_cancel D sh σ c lf hI hcH (by omega)
    · intro lf sh σ sol k c i Q hI hRH hlf hc hrows hfp hQ res hres
      cases Q with
      | nil =>
        obtain ⟨h1, _⟩ := hfp
        unfold dlxECLoop at hres
        rw [h1, if_pos rfl] at hres
        rw [Option.some.injEq] at hres
        rw [← hres]
      | cons y Q' =>
        obtain ⟨h1, h2⟩ := hfp
        have hyc : y ∈ sh.col c := hQ y (List.mem_cons_self _ _)
        have hyN : y ∈ D.nodes := hI.1.col_sub c hc y hyc
        have hync : y ≠ c :=
          fun h => hI.1.hdr_node_disj c hc (h ▸ hyN)
        obtain ⟨hfoldO, hunwO, shA, hIA, hRHA⟩ :=
          rowLoopStep D sh σ c y lf hI hc hyc hrows hlf
        unfold dlxECLoop at hres
        rw [h1, if_neg hync, hfoldO] at hres
        cases hrec : dlx_exact_cover fuel lf
            ((partsOf D y).foldl (fun t z => cover lf t (σ.chead z)) σ)
            D.root (updO sol k y) (k + 1) with
        | none => simp [hrec] at hres
        | some t2 =>
          obtain ⟨n, σb, sol2⟩ := t2
          simp only [hrec] at hres
          have hσb := ih.1 lf shA
            ((partsOf D y).foldl (fun t z => cover lf t (σ.chead z)) σ)
            (updO sol k y) (k + 1) hIA (hRHA hRH) hlf (n, σb, sol2) hrec
          simp only at hσb
          simp only [hσb, hunwO] at hres
          by_cases hn : n > 0
          · rw [if_pos hn] at hres
            rw [Option.some.injEq] at hres
            rw [← hres]
          · rw [if_neg hn] at hres
            exact ih.2 lf sh σ sol2 k c y Q' hI hRH hlf hc hrows h2
              (fun z hz => hQ z (List.mem_cons_of_mem _ hz)) res hres

/-- Restoration for dlx_exact_cover_hints and its row loop: any results they
return carry the entry state unchanged. -/
theorem echRestore (D : Desc) :
    ∀ (fuel : Nat),
      (∀ (lf : Nat) (sh : Shape) (σ : S) (sol : Nat → Option DHint)
          (base k : Nat),
        Inv D sh σ → RowHdr D sh σ →
        D.headers.length + 2 * D.nodes.length + 3 ≤ lf →
        ∀ res, dlx_exact_cover_hints fuel lf σ D.root sol base k = some res →
          res.2.1 = σ) ∧
      (∀ (lf : Nat) (sh : Shape) (σ : S) (sol : Nat → Option DHint)
          (base k c i : Nat) (Q : List Nat),
        Inv D sh σ → RowHdr D sh σ →
        D.headers.length + 2 * D.nodes.length + 3 ≤ lf →
        c ∈ D.headers →
        (∀ i1 ∈ sh.col c, ∀ j ∈ partsOf D i1, σ.chead j ∈ sh.hdrs) →
        fpath σ.down i (Q ++ [c]) →
        (∀ y ∈ Q, y ∈ sh.col c) →
        ∀ res, dlxECHLoop fuel lf σ D.root sol base k c i = some res →
          res.2.1 = σ) := by
  intro fuel
  induction fuel with
  | zero =>
    constructor
    · intro lf sh σ sol base k _ _ _ res hres
      simp [dlx_exact_cover_hints] at hres
    · intro lf sh σ sol base k c i Q _ _ _ _ _ _ _ res hres
      simp [dlxECHLoop] at hres
  | succ fuel ih =>
    constructor
    · intro lf sh σ sol base k hI hRH hlf res hres
      by_cases hroot : σ.right D.root = D.root
      · unfold dlx_exact_cover_hints at hres
        rw [if_pos hroot] at hres
        rw [Option.some.injEq] at hres
        rw [← hres]
      · unfold dlx_exact_cover_hints at hres
        rw [if_neg hroot] at hres
        cases hmin : min_hnode_s lf σ D.root with
        | none => rw [hmin] at hres; simp at hres
        | some c =>
          simp only [hmin] at hres
          have hcH : c ∈ sh.hdrs := minCol_live D sh σ lf c hI.1
            (by have := hdrs_len_le D sh σ hI.1; omega) hmin
          have hcHd : c ∈ D.headers := hI.1.hdrs_sub c hcH
          obtain ⟨sh1, hI1, hRH1, hhd1, hcolc1, hsub1, hch1, hiv1, hframe1,
            hdu1, hs1, _⟩ := cover_spec D sh σ c lf hI hcH (by omega)
          have hrows1 : ∀ i1 ∈ sh1.col c, ∀ j ∈ partsOf D i1,
              (cover lf σ c).chead j ∈ sh1.hdrs := by
            intro i1 hi1 j hj
            rw [hcolc1] at hi1
            have hi1N : i1 ∈ D.nodes := hI.1.col_sub c hcHd i1 hi1
            obtain ⟨hrr, hirow, hpsub, _⟩ := row_split D sh σ hI.1 i1 hi1N
            have hchi1 : σ.chead i1 = c := hI.1.col_chead c hcHd i1 hi1
            have hjh : σ.chead j ∈ sh.hdrs := by
              apply hRH (rowOf D i1) hrr i1 hirow ?_ ?_ j (hpsub j hj)
              · rw [hchi1]; exact hi1
              · rw [hchi1]; exact hcH
            have hjrem : j ∈ remList D sh c :=
              List.mem_flatMap.2 ⟨i1, hi1, hj⟩
            obtain ⟨_, _, hJc⟩ := remList_facts D sh σ c hI.1 hI.2 hcH hcHd
            have hjc : σ.chead j ≠ c := hJc j hjrem
            rw [hch1, hhd1]
            exact (List.mem_erase_of_ne hjc).2 hjh
          have hfp1 : fpath (cover lf σ c).down c (sh1.col c ++ [c]) :=
            links_fpath _ _ _ _ (hI1.1.col_ring c hcHd).1
          cases hloop : dlxECHLoop fuel lf (cover lf σ c) D.root
              (updO sol (base + k)
                ⟨(cover lf σ c).idv c, (cover lf σ c).s c, 0⟩)
              base k c c with
          | none => simp [hloop] at hres
          | some t =>
            obtain ⟨n, σ2, sol2⟩ := t
            simp only [hloop] at hres
            have hσ2 := ih.2 lf sh1 (cover lf σ c)
              (updO sol (base + k)
                ⟨(cover lf σ c).idv c, (cover lf σ c).s c, 0⟩)
              base k c c (sh1.col c)
              hI1 (hRH1 hRH) hlf hcHd hrows1 hfp1 (fun y hy => hy)
              (n, σ2, sol2) hloop
            simp only at hσ2
            rw [Option.some.injEq] at hres
            rw [← hres]
            show uncover lf σ2 c = σ
            rw [hσ2]
            exact cover_uncover_cancel D sh σ c lf hI hcH (by omega)
    · intro lf sh σ sol base k c i Q hI hRH hlf hc hrows hfp hQ res hres
      cases Q with
      | nil =>
        obtain ⟨h1, _⟩ := hfp
        unfold dlxECHLoop at hres
        rw [h1, if_pos rfl] at hres
        rw [Option.some.injEq] at hres
        rw [← hres]
      | cons y Q' =>
        obtain ⟨h1, h2⟩ := hfp
        have hyc : y ∈ sh.col c := hQ y (List.mem_cons_self _ _)
        have hyN : y ∈ D.nodes := hI.1.col_sub c hc y hyc
        have hync : y ≠ c :=
          fun h => hI.1.hdr_node_disj c hc (h ▸ hyN)
        obtain ⟨hfoldO, hunwO, shA, hIA, hRHA⟩ :=
          rowLoopStep D sh σ c y lf hI hc hyc hrows hlf
        unfold dlxECHLoop at hres
        rw [h1, if_neg hync, hfoldO] at hres
        cases hrec : dlx_exact_cover_hints fuel lf
            ((partsOf D y).foldl (fun t z => cover lf t (σ.chead z)) σ)
            D.root
            (fun x => if x = base + k
              then (sol (base + k)).map (fun d => { d with row := y })
              else sol x)
            base (k + 1) with
        | none => simp [hrec] at hres
        | some t2 =>
          obtain ⟨n, σb, sol2⟩ := t2
          simp only [hrec] at hres
          have hσb := ih.1 lf shA
            ((partsOf D y).foldl (fun t z => cover lf t (σ.chead z)) σ)
            (fun x => if x = base + k
              then (sol (base + k)).map (fun d => { d with row := y })
              else sol x)
            base (k + 1) hIA (hRHA hRH) hlf (n, σb, sol2) hrec
          simp only at hσb
          simp only [hσb, hunwO] at hres
          by_cases hn : n > 0
          · rw [if_pos hn] at hres
            rw [Option.some.injEq] at hres
            rw [← hres]
          · rw [if_neg hn] at hres
            exact ih.2 lf sh σ sol2 base k c y Q' hI hRH hlf hc hrows h2
              (fun z hz => hQ z (List.mem_cons_of_mem _ hz)) res hres

/-- Restoration for dlx_has_covers and its row loop: any results they
return carry the entry state unchanged. -/
theorem hcRestore (D : Desc) :
    ∀ (fuel : Nat),
      (∀ (lf : Nat) (sh : Shape) (σ : S) (k : Nat),
        Inv D sh σ → RowHdr D sh σ →
        D.headers.length + 2 * D.nodes.length + 3 ≤ lf →
        ∀ res, dlx_has_covers fuel lf σ D.root k = some res →
          res.2 = σ) ∧
      (∀ (lf : Nat) (sh : Shape) (σ : S) (k c i : Nat) (Q : List Nat),
        Inv D sh σ → RowHdr D sh σ →
        D.headers.length + 2 * D.nodes.length + 3 ≤ lf →
        c ∈ D.headers →
        (∀ i1 ∈ sh.col c, ∀ j ∈ partsOf D i1, σ.chead j ∈ sh.hdrs) →
        fpath σ.down i (Q ++ [c]) →
        (∀ y ∈ Q, y ∈ sh.col c) →
        ∀ res, dlxHCLoop fuel lf σ D.root k c i = some res →
          res.2 = σ) := by
  intro fuel
  induction fuel with
  | zero =>
    constructor
    · intro lf sh σ k _ _ _ res hres
      simp [dlx_has_covers] at hres
    · intro lf sh σ k c i Q _ _ _ _ _ _ _ res hres
      simp [dlxHCLoop] at hres
  | succ fuel ih =>
    constructor
    · intro lf sh σ k hI hRH hlf res hres
      by_cases hroot : σ.right D.root = D.root
      · unfold dlx_has_covers at hres
        rw [if_pos hroot] at hres
        rw [Option.some.injEq] at hres
        rw [← hres]
      · unfold dlx_has_covers at hres
        rw [if_neg hroot] at hres
        cases hmin : min_hnode_s lf σ D.root with
        | none => rw [hmin] at hres; simp at hres
        | some c =>
          simp only [hmin] at hres
          have hcH : c ∈ sh.hdrs := minCol_live D sh σ lf c hI.1
            (by have := hdrs_len_le D sh σ hI.1; omega) hmin
          have hcHd : c ∈ D.headers := hI.1.hdrs_sub c hcH
          obtain ⟨sh1, hI1, hRH1, hhd1, hcolc1, hsub1, hch1, hiv1, hframe1,
            hdu1, hs1, _⟩ := cover_spec D sh σ c lf hI hcH (by omega)
          have hrows1 : ∀ i1 ∈ sh1.col c, ∀ j ∈ partsOf D i1,
              (cover lf σ c).chead j ∈ sh1.hdrs := by
            intro i1 hi1 j hj
            rw [hcolc1] at hi1
            have hi1N : i1 ∈ D.nodes := hI.1.col_sub c hcHd i1 hi1
            obtain ⟨hrr, hirow, hpsub, _⟩ := row_split D sh σ hI.1 i1 hi1N
            have hchi1 : σ.chead i1 = c := hI.1.col_chead c hcHd i1 hi1
            have hjh : σ.chead j ∈ sh.hdrs := by
              apply hRH (rowOf D i1) hrr i1 hirow ?_ ?_ j (hpsub j hj)
              · rw [hchi1]; exact hi1
              · rw [hchi1]; exact hcH
            have hjrem : j ∈ remList D sh c :=
              List.mem_flatMap.2 ⟨i1, hi1, hj⟩
            obtain ⟨_, _, hJc⟩ := remList_facts D sh σ c hI.1 hI.2 hcH hcHd
            have hjc : σ.chead j ≠ c := hJc j hjrem
            rw [hch1, hhd1]
            exact (List.mem_erase_of_ne hjc).2 hjh
          have hfp1 : fpath (cover lf σ c).down c (sh1.col c ++ [c]) :=
            links_fpath _ _ _ _ (hI1.1.col_ring c hcHd).1
          cases hloop : dlxHCLoop fuel lf (cover lf σ c) D.root k c c with
          | none => simp [hloop] at hres
          | some t =>
            obtain ⟨k1, σ2⟩ := t
            simp only [hloop] at hres
            have hσ2 := ih.2 lf sh1 (cover lf σ c) k c c (sh1.col c)
              hI1 (hRH1 hRH) hlf hcHd hrows1 hfp1 (fun y hy => hy)
              (k1, σ2) hloop
            simp only at hσ2
            rw [Option.some.injEq] at hres
            rw [← hres]
            show uncover lf σ2 c = σ
            rw [hσ2]
            exact cover_uncover_cancel D sh σ c lf hI hcH (by omega)
    · intro lf sh σ k c i Q hI hRH hlf hc hrows hfp hQ res hres
      cases Q with
      | nil =>
        obtain ⟨h1, _⟩ := hfp
        unfold dlxHCLoop at hres
        rw [h1, if_pos rfl] at hres
        rw [Option.some.injEq] at hres
        rw [← hres]
      | cons y Q' =>
        obtain ⟨h1, h2⟩ := hfp
        have hyc : y ∈ sh.col c := hQ y (List.mem_cons_self _ _)
        have hyN : y ∈ D.nodes := hI.1.col_sub c hc y hyc
        have hync : y ≠ c :=
          fun h => hI.1.hdr_node_disj c hc (h ▸ hyN)
        obtain ⟨hfoldO, hunwO, shA, hIA, hRHA⟩ :=
          rowLoopStep D sh σ c y lf hI hc hyc hrows hlf
        unfold dlxHCLoop at hres
        rw [h1, if_neg hync, hfoldO] at hres
        cases hrec : dlx_has_covers fuel lf
            ((partsOf D y).foldl (fun t z => cover lf t (σ.chead z)) σ)
            D.root k with
        | none => simp [hrec] at hres
        | some t2 =>
          obtain ⟨k1, σb⟩ := t2
          simp only [hrec] at hres
          have hσb := ih.1 lf shA
            ((partsOf D y).foldl (fun t z => cover lf t (σ.chead z)) σ)
            k hIA (hRHA hRH) hlf (k1, σb) hrec
          simp only at hσb
          simp only [hσb, hunwO] at hres
          by_cases hk1 : k1 = 0
          · rw [if_pos hk1] at hres
            rw [Option.some.injEq] at hres
            rw [← hres]
          · rw [if_neg hk1] at hres
            exact ih.2 lf sh σ k1 c y Q' hI hRH hlf hc hrows h2
              (fun z hz => hQ z (List.mem_cons_of_mem _ hz)) res hres

theorem foldl_updO_get {α : Type} (v : Nat → α) :
    ∀ (n : Nat) (base : Nat → Option α) (j : Nat), j < n →
      ((List.range n).foldl (fun h i => updO h i (v i)) base) j = some (v j) := by
  intro n
  induction n with
  | zero => intro base j hj; omega
  | succ m ih =>
    intro base j hj
    rw [List.range_succ, List.foldl_append]
    simp only [List.foldl_cons, List.foldl_nil]
    by_cases hjm : j = m
    · subst hjm; simp [updO]
    · have hj' : j < m := by omega
      simp only [updO]
      rw [if_neg hjm]
      exact ih base j hj'

/-- Claim C8: the C decode hint2rcn applied to the row index
81·(r−1)+9·(c−1)+(digit−1) is supposed to return exactly (r, c, digit); at
r = 1, c = 2, digit = 1 (row index 9) it instead returns digit = 10, because
the digit component is computed as row % 81 + 1 instead of row % 9 + 1. -/
theorem hint2rcn_digit_component_wrong :
    hint2rcn (row_id 1 2 1) = (1, 2, 10) ∧ row_id 1 2 1 = 81 * 0 + 9 * 1 + 0 := by
  constructor <;> decide

/-- Claim C9: for a hint on a cell constraint (constraint id in [0,81)),
hint2cells fills exactly one affected cell position but returns 0, not 1:
the C function returns its loop counter i, which the cell branch never
increments.  Evaluated at constraint id 0 (cell (1,1)): the affected cell 0
is written, and the returned count is 0. -/
theorem hint2cells_cell_constraint_returns_zero :
    hint2cells 0 = (0, [0]) := by
  decide

/-- Claim C4: dlx_has_covers on the one-column one-row matrix (which has
exactly N = 1 exact cover).  With budgets k = 1 and k = 2 it returns 0 and 1
as the claim states, but with budget k = 0 the size_t expression k - 1 in
the base case wraps around and the call returns 2^64 - 1 instead of the
claimed 0. -/
theorem has_covers_budget_zero_underflows :
    (dlx_has_covers 8 8 tinyS rootId 1).map Prod.fst = some 0 ∧
    (dlx_has_covers 8 8 tinyS rootId 2).map Prod.fst = some 1 ∧
    (dlx_has_covers 8 8 tinyS rootId 0).map Prod.fst = some (szMod - 1) := by
  refine ⟨?_, ?_, ?_⟩ <;> decide

/-- Claim C6: when process_givens detects a dlx_force_row failure (two givens
claiming a shared constraint column, reported as a count above 81), all three
solvers return 0 immediately, whatever search functions would have been used:
the searches are never consulted, so no search branch is explored. -/
theorem conflicting_givens_skip_search
    (search : S → Nat → Option (Nat × S × (Nat → Option Nat)))
    (searchN : S → Nat → Option (Nat × S))
    (searchH : S → Nat → Option (Nat × S × (Nat → Option DHint)))
    (σ0 : S) (puzzle : List Int) (n : Nat)
    (h : 81 < (process_givens 400 σ0 puzzle).1) :
    sudoku_solve_core search σ0 puzzle = some (0, fun _ => none) ∧
    sudoku_nsolve_core searchN search σ0 puzzle n = some (0, fun _ => none) ∧
    sudoku_solve_hints_core searchH σ0 puzzle = some (0, fun _ => none) := by
  refine ⟨?_, ?_, ?_⟩ <;>
    simp only [sudoku_solve_core, sudoku_nsolve_core, sudoku_solve_hints_core,
      if_pos h]

/-- Witness for C6 at a concrete conflicting input: a state in which the
first given's row node is already removed, and searches that would get stuck
if consulted; the solvers still return 0. -/
theorem conflicting_givens_skip_search_witness :
    81 < (process_givens 400 blankS onePuzzle).1 ∧
    (sudoku_solve_core (fun _ _ => none) blankS onePuzzle = some (0, fun _ => none) ∧
     sudoku_nsolve_core (fun _ _ => none) (fun _ _ => none) blankS onePuzzle 2 =
       some (0, fun _ => none) ∧
     sudoku_solve_hints_core (fun _ _ => none) blankS onePuzzle =
       some (0, fun _ => none)) :=
  ⟨by decide,
   conflicting_givens_skip_search (fun _ _ => none) (fun _ _ => none)
     (fun _ _ => none) blankS onePuzzle 2 (by decide)⟩

/-- Claim C7: in sudoku_solve_hints, the hints the first loop writes for the
givens (with nchoices = 1) are destroyed before the function returns: the
final loop rebuilds hints[0..80] from dlx_hints[0..80], but dlx_hints[m] for
m below the given count was never written (uninitialized stack memory,
embedded as none).  Under the hypotheses of a successful solve with at least
one given, the returned hint 0 is the uninitialized read, even though the
given-hint loop had produced a choice_count-1 hint there. -/
theorem solve_hints_overwrites_given_hints
    (searchH : S → Nat → Option (Nat × S × (Nat → Option DHint)))
    (σ0 : S) (puzzle : List Int) (k : Nat) (σ2 : S) (dh : Nat → Option DHint)
    (h1 : 1 ≤ (process_givens 400 σ0 puzzle).1)
    (h81 : (process_givens 400 σ0 puzzle).1 ≤ 81)
    (hs : searchH (process_givens 400 σ0 puzzle).2.1
            (process_givens 400 σ0 puzzle).1 = some (k, σ2, dh))
    (hdh : dh 0 = none)
    (htot : 81 ≤ (process_givens 400 σ0 puzzle).1 + k)
    (hlen : 1 ≤ (process_givens 400 σ0 puzzle).2.2.length) :
    (sudoku_solve_hints_core searchH σ0 puzzle).map (fun r => (r.1, r.2 0)) =
      some (1, none) ∧
    (given_hints (process_givens 400 σ0 puzzle).2.1
        (process_givens 400 σ0 puzzle).2.2 0).map SHint.nchoices = some 1 := by
  have hng : ¬ (81 < (process_givens 400 σ0 puzzle).1) := by omega
  constructor
  · simp only [sudoku_solve_hints_core, if_neg hng, hs, if_neg (by omega :
      ¬ ((process_givens 400 σ0 puzzle).1 + k < 81))]
    simp [hdh]
  · have h0 := foldl_updO_get
      (fun i => (⟨(process_givens 400 σ0 puzzle).2.1.idv
          ((process_givens 400 σ0 puzzle).2.1.chead
            ((process_givens 400 σ0 puzzle).2.2.getD i 0)),
        row2row_id (process_givens 400 σ0 puzzle).2.1
          ((process_givens 400 σ0 puzzle).2.2.getD i 0), 1⟩ : SHint))
      (process_givens 400 σ0 puzzle).2.2.length (fun _ => none) 0 (by omega)
    simp only [given_hints, h0]
    rfl

/-- Witness for C7: a one-given puzzle processed over the self-linked state
(where forcing succeeds trivially) and a search that reports 80 further rows
without touching the hint array: the solver reports success but returns an
uninitialized hint in slot 0. -/
theorem solve_hints_overwrites_given_hints_witness :
    (sudoku_solve_hints_core (fun _ _ => some (80, blankS, fun _ => none))
        selfS onePuzzle).map (fun r => (r.1, r.2 0)) = some (1, none) ∧
    (given_hints (process_givens 400 selfS onePuzzle).2.1
        (process_givens 400 selfS onePuzzle).2.2 0).map SHint.nchoices =
      some 1 :=
  solve_hints_overwrites_given_hints
    (fun _ _ => some (80, blankS, fun _ => none)) selfS onePuzzle 80 blankS
    (fun _ => none) (by decide) (by decide) rfl rfl (by decide) (by decide)

/-- The concrete one-column one-row matrix satisfies the full
well-formedness invariant. -/
theorem tinyInv : Inv tinyD tinySh tinyS := by
  refine ⟨?_, by unfold RowLive; decide⟩
  constructor <;> decide

/-- Cover immediately followed by uncover restores the concrete one-column
one-row matrix tinyS exactly, instantiating the C1 theorem at column 1 with
fuel 4. -/
theorem cover_uncover_restores_witness :
    uncover 4 (cover 4 tinyS 1) 1 = tinyS :=
  cover_uncover_restores tinyD tinySh tinyS 1 4 tinyInv (by decide) (by decide)

/-- The force/unselect protocol instantiated on the concrete one-column
one-row matrix at its single row node 2: the liveness test, both error
cases, and the successful force as a cover of the row's single column. -/
theorem force_unselect_row_spec_witness :
    is_removed_ud tinyS 2 = false ∧
    is_removed_ud (covStep tinyS 2) 2 = true ∧
    dlx_unselect_row 4 tinyS 2 = (-1, tinyS) ∧
    dlx_force_row 4 (covStep tinyS 2) 2 = (-1, covStep tinyS 2) ∧
    (dlx_unselect_row 4 (covStep tinyS 2) 2).1 = 0 ∧
    dlx_force_row 4 tinyS 2
      = (0, (2 :: partsOf tinyD 2).foldl
          (fun t y => cover 4 t (tinyS.chead y)) tinyS) :=
  force_unselect_row_spec tinyD tinySh tinyS 2 4 tinyInv (by decide)
    (by decide) (by decide) (by decide)

/-- Claim C10: after any top-level call to dlx_exact_cover,
dlx_exact_cover_hints, or dlx_has_covers that returns (on success as well as
failure), the matrix state carried in the result is exactly the state at the
moment of the call: every link and every column count s is unchanged. -/
theorem searches_restore_state (D : Desc) (sh : Shape) (σ : S)
    (fuel lf : Nat) (hI : Inv D sh σ) (hRH : RowHdr D sh σ)
    (hlf : D.headers.length + 2 * D.nodes.length + 3 ≤ lf) :
    (∀ (sol : Nat → Option Nat) (k : Nat) (res : Nat × S × (Nat → Option Nat)),
      dlx_exact_cover fuel lf σ D.root sol k = some res → res.2.1 = σ) ∧
    (∀ (sol : Nat → Option DHint) (base k : Nat)
        (res : Nat × S × (Nat → Option DHint)),
      dlx_exact_cover_hints fuel lf σ D.root sol base k = some res →
        res.2.1 = σ) ∧
    (∀ (k : Nat) (res : Nat × S),
      dlx_has_covers fuel lf σ D.root k = some res → res.2 = σ) :=
  ⟨fun sol k res h => (ecRestore D fuel).1 lf sh σ sol k hI hRH hlf res h,
   fun sol base k res h =>
     (echRestore D fuel).1 lf sh σ sol base k hI hRH hlf res h,
   fun k res h => (hcRestore D fuel).1 lf sh σ k hI hRH hlf res h⟩

/-- The three searches on the concrete one-column one-row matrix all return
and hand back exactly the entry state tinyS. -/
theorem searches_restore_state_witness :
    (dlx_exact_cover 3 6 tinyS tinyD.root (fun x => none) 0).map
      (fun r => r.2.1) = some tinyS ∧
    (dlx_exact_cover_hints 3 6 tinyS tinyD.root (fun x => none) 0 0).map
      (fun r => r.2.1) = some tinyS ∧
    (dlx_has_covers 3 6 tinyS tinyD.root 2).map (fun r => r.2) = some tinyS := by
  obtain ⟨hEC, hECH, hHC⟩ := searches_restore_state tinyD tinySh tinyS 3 6
    tinyInv (by unfold RowHdr; decide) (by decide)
  refine ⟨?_, ?_, ?_⟩
  · have hsome : (dlx_exact_cover 3 6 tinyS tinyD.root
        (fun x => none) 0).isSome = true := by decide
    obtain ⟨res, heq⟩ := Option.isSome_iff_exists.1 hsome
    rw [heq]
    show some res.2.1 = some tinyS
    rw [hEC (fun x => none) 0 res heq]
  · have hsome : (dlx_exact_cover_hints 3 6 tinyS tinyD.root
        (fun x => none) 0 0).isSome = true := by decide
    obtain ⟨res, heq⟩ := Option.isSome_iff_exists.1 hsome
    rw [heq]
    show some res.2.1 = some tinyS
    rw [hECH (fun x => none) 0 0 res heq]
  · have hsome : (dlx_has_covers 3 6 tinyS tinyD.root 2).isSome = true := by
      decide
    obtain ⟨res, heq⟩ := Option.isSome_iff_exists.1 hsome
    rw [heq]
    show some res.2 = some tinyS
    rw [hHC 2 res heq]

/-!  Construction correctness: dlx_make_headers and dlx_make_row build a
well-formed matrix whose counts match its column lists.  -/

theorem upd_comm (f : Nat → Nat) (a b c d : Nat) (h : a ≠ c) :
    upd (upd f a b) c d = upd (upd f c d) a b := by
  funext x
  by_cases hxc : x = c
  · subst hxc
    rw [upd_same, upd_other _ _ _ _ (fun he => h he.symm), upd_same]
  · rw [upd_other _ _ _ _ hxc]
    by_cases hxa : x = a
    · subst hxa
      rw [upd_same, upd_same]
    · rw [upd_other _ _ _ _ hxa, upd_other _ _ _ _ hxa,
        upd_other _ _ _ _ hxc]

/-- Chained links along a contiguous segment of ids. -/
theorem links_seg (f g : Nat → Nat) (base : Nat) :
    ∀ (m j r : Nat),
      (∀ i, j ≤ i → i < j + m → f (base + i) = base + i + 1) →
      (∀ i, j ≤ i → i < j + m → g (base + i + 1) = base + i) →
      f (base + (j + m)) = r → g r = base + (j + m) →
      links f g (base + j)
        ((List.range m).map (fun t => base + j + 1 + t) ++ [r]) := by
  intro m
  induction m with
  | zero =>
    intro j r _ _ hfr hgr
    refine ⟨?_, ?_, trivial⟩
    · rw [Nat.add_zero] at hfr
      exact hfr
    · rw [Nat.add_zero] at hgr
      exact hgr
  | succ m ih =>
    intro j r hfs hgs hfr hgr
    rw [List.range_succ_eq_map]
    have hmap : ((List.range m).map (· + 1)).map
        (fun t => base + j + 1 + t)
        = (List.range m).map (fun t => base + (j + 1) + 1 + t) := by
      rw [List.map_map]
      apply List.map_congr_left
      intro t _
      show base + j + 1 + (t + 1) = base + (j + 1) + 1 + t
      omega
    rw [List.map_cons, hmap, List.cons_append]
    refine ⟨?_, ?_, ?_⟩
    · have := hfs j (Nat.le_refl j) (by omega)
      rw [this]
    · exact hgs j (Nat.le_refl j) (by omega)
    · have hshift : base + j + 1 = base + (j + 1) := by omega
      rw [hshift]
      apply ih (j + 1) r
      · intro i hi1 hi2
        exact hfs i (by omega) (by omega)
      · intro i hi1 hi2
        exact hgs i (by omega) (by omega)
      · have : j + 1 + m = j + (m + 1) := by omega
        rw [this]
        exact hfr
      · have : j + 1 + m = j + (m + 1) := by omega
        rw [this]
        exact hgr

/-- Appending a fresh element at the end of a ring. -/
theorem ring_append (f g : Nat → Nat) (a x : Nat) (l : List Nat)
    (hr : ringAt f g a l) (hx : x ∉ a :: l) :
    ringAt (upd (upd f (endOf a l) x) x a) (upd (upd g a x) x (endOf a l)) a
      (l ++ [x]) := by
  obtain ⟨hl, hnd⟩ := hr
  have hxa : x ≠ a := fun h => hx (h ▸ List.mem_cons_self _ _)
  have hax : a ≠ x := fun h => hxa h.symm
  have hxl : x ∉ l := fun h => hx (List.mem_cons_of_mem _ h)
  have hnd' : (a :: (l ++ [x])).Nodup := by
    rw [← List.cons_append, List.nodup_append]
    refine ⟨hnd, List.nodup_singleton x, ?_⟩
    intro y hy hy2
    rw [List.mem_singleton] at hy2
    exact hx (hy2 ▸ hy)
  cases l with
  | nil =>
    obtain ⟨hfa, hga, _⟩ := hl
    refine ⟨⟨?_, ?_, ?_, ?_, trivial⟩, hnd'⟩
    · show upd (upd f (endOf a []) x) x a a = x
      rw [endOf_nil, upd_other _ _ _ _ hax, upd_same]
    · show upd (upd g a x) x (endOf a []) x = a
      rw [endOf_nil, upd_same]
    · show upd (upd f (endOf a []) x) x a x = a
      rw [upd_same]
    · show upd (upd g a x) x (endOf a []) a = x
      rw [endOf_nil, upd_other _ _ _ _ hax, upd_same]
  | cons z zs =>
    have hea : endOf a (z :: zs) ∈ a :: z :: zs := endOf_mem (z :: zs) a
    have hex : endOf a (z :: zs) ≠ x := fun h => hx (h ▸ hea)
    obtain ⟨hll, hend⟩ := (links_append f g (z :: zs) [a] a).1 hl
    obtain ⟨hfe, hga, _⟩ := hend
    refine ⟨?_, hnd'⟩
    have hassoc : ((z :: zs) ++ [x]) ++ [a] = (z :: zs) ++ [x, a] := by simp
    rw [hassoc, links_append]
    constructor
    · apply links_congr f g _ _ (z :: zs) a ?_ ?_ hll
      · intro y hy
        have hyD : y ∈ (a :: z :: zs).dropLast := by
          rw [List.dropLast_cons_of_ne_nil (List.cons_ne_nil z zs)]
          exact hy
        have hye : y ≠ endOf a (z :: zs) := fun he =>
          endOf_not_mem_dropLast (z :: zs) a hnd (he ▸ hyD)
        have hyx : y ≠ x := by
          intro he
          apply hx
          rw [← he]
          rcases List.mem_cons.1 hy with h | h
          · rw [h]; exact List.mem_cons_self _ _
          · exact List.mem_cons_of_mem _
              ((List.dropLast_sublist (z :: zs)).subset h)
        rw [upd_other _ _ _ _ hyx, upd_other _ _ _ _ hye]
      · intro y hy
        have hya : y ≠ a := fun h => (List.nodup_cons.1 hnd).1 (h ▸ hy)
        have hyx : y ≠ x := fun h => hxl (h ▸ hy)
        rw [upd_other _ _ _ _ hyx, upd_other _ _ _ _ hya]
    · refine ⟨?_, ?_, ?_, ?_, trivial⟩
      · rw [upd_other _ _ _ _ hex, upd_same]
      · rw [upd_same]
      · rw [upd_same]
      · rw [upd_other _ _ _ _ hax, upd_same]

theorem mkHeader_at (σ : S) (h l r : Nat) :
    (mkHeader σ h l r).left h = l ∧ (mkHeader σ h l r).right h = r ∧
    (mkHeader σ h l r).up h = h ∧ (mkHeader σ h l r).down h = h ∧
    (mkHeader σ h l r).chead h = h ∧ (mkHeader σ h l r).s h = 0 := by
  refine ⟨?_, ?_, ?_, ?_, ?_, ?_⟩ <;> exact upd_same _ _ _

theorem mkHeader_frame (σ : S) (h l r x : Nat) (hx : x ≠ h) :
    (mkHeader σ h l r).left x = σ.left x ∧
    (mkHeader σ h l r).right x = σ.right x ∧
    (mkHeader σ h l r).up x = σ.up x ∧
    (mkHeader σ h l r).down x = σ.down x ∧
    (mkHeader σ h l r).chead x = σ.chead x ∧
    (mkHeader σ h l r).s x = σ.s x := by
  refine ⟨?_, ?_, ?_, ?_, ?_, ?_⟩ <;> exact upd_other _ _ _ _ hx

/-- The middle loop of dlx_make_headers, characterized field by field. -/
theorem mkHeaderFold_fields (hbase : Nat) :
    ∀ (m : Nat) (σ : S),
      (∀ k, k < m →
        ((List.range m).foldl
          (fun τ k => mkHeader τ (hbase + k + 1) (hbase + k) (hbase + k + 2))
          σ).left (hbase + k + 1) = hbase + k ∧
        ((List.range m).foldl
          (fun τ k => mkHeader τ (hbase + k + 1) (hbase + k) (hbase + k + 2))
          σ).right (hbase + k + 1) = hbase + k + 2 ∧
        ((List.range m).foldl
          (fun τ k => mkHeader τ (hbase + k + 1) (hbase + k) (hbase + k + 2))
          σ).up (hbase + k + 1) = hbase + k + 1 ∧
        ((List.range m).foldl
          (fun τ k => mkHeader τ (hbase + k + 1) (hbase + k) (hbase + k + 2))
          σ).down (hbase + k + 1) = hbase + k + 1 ∧
        ((List.range m).foldl
          (fun τ k => mkHeader τ (hbase + k + 1) (hbase + k) (hbase + k + 2))
          σ).chead (hbase + k + 1) = hbase + k + 1 ∧
        ((List.range m).foldl
          (fun τ k => mkHeader τ (hbase + k + 1) (hbase + k) (hbase + k + 2))
          σ).s (hbase + k + 1) = 0) ∧
      (∀ x, (∀ k, k < m → x ≠ hbase + k + 1) →
        ((List.range m).foldl
          (fun τ k => mkHeader τ (hbase + k + 1) (hbase + k) (hbase + k + 2))
          σ).left x = σ.left x ∧
        ((List.range m).foldl
          (fun τ k => mkHeader τ (hbase + k + 1) (hbase + k) (hbase + k + 2))
          σ).right x = σ.right x ∧
        ((List.range m).foldl
          (fun τ k => mkHeader τ (hbase + k + 1) (hbase + k) (hbase + k + 2))
          σ).up x = σ.up x ∧
        ((List.range m).foldl
          (fun τ k => mkHeader τ (hbase + k + 1) (hbase + k) (hbase + k + 2))
          σ).down x = σ.down x ∧
        ((List.range m).foldl
          (fun τ k => mkHeader τ (hbase + k + 1) (hbase + k) (hbase + k + 2))
          σ).chead x = σ.chead x ∧
        ((List.range m).foldl
          (fun τ k => mkHeader τ (hbase + k + 1) (hbase + k) (hbase + k + 2))
          σ).s x = σ.s x) := by
  intro m
  induction m with
  | zero =>
    intro σ
    exact ⟨fun k hk => absurd hk (Nat.not_lt_zero k),
      fun x _ => ⟨rfl, rfl, rfl, rfl, rfl, rfl⟩⟩
  | succ m ih =>
    intro σ
    rw [List.range_succ, List.foldl_append, List.foldl_cons, List.foldl_nil]
    constructor
    · intro k hk
      by_cases hkm : k = m
      · subst hkm
        have h2 := ((ih σ).2 (hbase + k + 1)
          (fun k' hk' he => by omega)).1
        exact mkHeader_at _ _ _ _
      · have hne : hbase + k + 1 ≠ hbase + m + 1 := by omega
        have hfr := mkHeader_frame ((List.range m).foldl
          (fun τ k => mkHeader τ (hbase + k + 1) (hbase + k) (hbase + k + 2)) σ)
          (hbase + m + 1) (hbase + m) (hbase + m + 2) (hbase + k + 1) hne
        have hat := (ih σ).1 k (by omega)
        exact ⟨hfr.1.trans hat.1, hfr.2.1.trans hat.2.1,
          hfr.2.2.1.trans hat.2.2.1, hfr.2.2.2.1.trans hat.2.2.2.1,
          hfr.2.2.2.2.1.trans hat.2.2.2.2.1, hfr.2.2.2.2.2.trans hat.2.2.2.2.2⟩
    · intro x hx
      have hne : x ≠ hbase + m + 1 := hx m (Nat.lt_succ_self m)
      have hfr := mkHeader_frame ((List.range m).foldl
        (fun τ k => mkHeader τ (hbase + k + 1) (hbase + k) (hbase + k + 2)) σ)
        (hbase + m + 1) (hbase + m) (hbase + m + 2) x hne
      have hat := (ih σ).2 x (fun k hk => hx k (by omega))
      exact ⟨hfr.1.trans hat.1, hfr.2.1.trans hat.2.1,
        hfr.2.2.1.trans hat.2.2.1, hfr.2.2.2.1.trans hat.2.2.2.1,
        hfr.2.2.2.2.1.trans hat.2.2.2.2.1, hfr.2.2.2.2.2.trans hat.2.2.2.2.2⟩

/-- The last three stages of dlx_make_headers (first header, middle loop,
last header) over an arbitrary base state: every header gets its ring links
and self vertical links, and everything else is untouched. -/
theorem mkHeadersCore_fields (τ : S) (root hbase nh : Nat) (hnh : 2 ≤ nh) :
    (∀ i, i < nh →
      (mkHeader ((List.range (nh - 2)).foldl
        (fun t k => mkHeader t (hbase + k + 1) (hbase + k) (hbase + k + 2))
        (mkHeader τ hbase root (hbase + 1))) (hbase + nh - 1)
        (hbase + nh - 2) root).right (hbase + i)
        = (if i = nh - 1 then root else hbase + i + 1) ∧
      (mkHeader ((List.range (nh - 2)).foldl
        (fun t k => mkHeader t (hbase + k + 1) (hbase + k) (hbase + k + 2))
        (mkHeader τ hbase root (hbase + 1))) (hbase + nh - 1)
        (hbase + nh - 2) root).left (hbase + i)
        = (if i = 0 then root else hbase + i - 1) ∧
      (mkHeader ((List.range (nh - 2)).foldl
        (fun t k => mkHeader t (hbase + k + 1) (hbase + k) (hbase + k + 2))
        (mkHeader τ hbase root (hbase + 1))) (hbase + nh - 1)
        (hbase + nh - 2) root).up (hbase + i) = hbase + i ∧
      (mkHeader ((List.range (nh - 2)).foldl
        (fun t k => mkHeader t (hbase + k + 1) (hbase + k) (hbase + k + 2))
        (mkHeader τ hbase root (hbase + 1))) (hbase + nh - 1)
        (hbase + nh - 2) root).down (hbase + i) = hbase + i ∧
      (mkHeader ((List.range (nh - 2)).foldl
        (fun t k => mkHeader t (hbase + k + 1) (hbase + k) (hbase + k + 2))
        (mkHeader τ hbase root (hbase + 1))) (hbase + nh - 1)
        (hbase + nh - 2) root).chead (hbase + i) = hbase + i ∧
      (mkHeader ((List.range (nh - 2)).foldl
        (fun t k => mkHeader t (hbase + k + 1) (hbase + k) (hbase + k + 2))
        (mkHeader τ hbase root (hbase + 1))) (hbase + nh - 1)
        (hbase + nh - 2) root).s (hbase + i) = 0) ∧
    (∀ x, (∀ i, i < nh → x ≠ hbase + i) →
      (mkHeader ((List.range (nh - 2)).foldl
        (fun t k => mkHeader t (hbase + k + 1) (hbase + k) (hbase + k + 2))
        (mkHeader τ hbase root (hbase + 1))) (hbase + nh - 1)
        (hbase + nh - 2) root).left x = τ.left x ∧
      (mkHeader ((List.range (nh - 2)).foldl
        (fun t k => mkHeader t (hbase + k + 1) (hbase + k) (hbase + k + 2))
        (mkHeader τ hbase root (hbase + 1))) (hbase + nh - 1)
        (hbase + nh - 2) root).right x = τ.right x ∧
      (mkHeader ((List.range (nh - 2)).foldl
        (fun t k => mkHeader t (hbase + k + 1) (hbase + k) (hbase + k + 2))
        (mkHeader τ hbase root (hbase + 1))) (hbase + nh - 1)
        (hbase + nh - 2) root).up x = τ.up x ∧
      (mkHeader ((List.range (nh - 2)).foldl
        (fun t k => mkHeader t (hbase + k + 1) (hbase + k) (hbase + k + 2))
        (mkHeader τ hbase root (hbase + 1))) (hbase + nh - 1)
        (hbase + nh - 2) root).down x = τ.down x ∧
      (mkHeader ((List.range (nh - 2)).foldl
        (fun t k => mkHeader t (hbase + k + 1) (hbase + k) (hbase + k + 2))
        (mkHeader τ hbase root (hbase + 1))) (hbase + nh - 1)
        (hbase + nh - 2) root).chead x = τ.chead x ∧
      (mkHeader ((List.range (nh - 2)).foldl
        (fun t k => mkHeader t (hbase + k + 1) (hbase + k) (hbase + k + 2))
        (mkHeader τ hbase root (hbase + 1))) (hbase + nh - 1)
        (hbase + nh - 2) root).s x = τ.s x) := by
  have hσ1 := mkHeader_at τ hbase root (hbase + 1)
  have hfold := mkHeaderFold_fields hbase (nh - 2)
    (mkHeader τ hbase root (hbase + 1))
  constructor
  · intro i hi
    by_cases hilast : i = nh - 1
    · have hid : hbase + i = hbase + nh - 1 := by omega
      rw [hid, if_pos hilast, if_neg (by omega : ¬ i = 0)]
      obtain ⟨h1, h2, h3, h4, h5, h6⟩ := mkHeader_at ((List.range (nh - 2)).foldl
        (fun t k => mkHeader t (hbase + k + 1) (hbase + k) (hbase + k + 2))
        (mkHeader τ hbase root (hbase + 1))) (hbase + nh - 1)
        (hbase + nh - 2) root
      refine ⟨h2, ?_, h3, h4, h5, h6⟩
      rw [h1]
      omega
    · have hne : hbase + i ≠ hbase + nh - 1 := by omega
      obtain ⟨f1, f2, f3, f4, f5, f6⟩ := mkHeader_frame ((List.range (nh - 2)).foldl
        (fun t k => mkHeader t (hbase + k + 1) (hbase + k) (hbase + k + 2))
        (mkHeader τ hbase root (hbase + 1))) (hbase + nh - 1)
        (hbase + nh - 2) root (hbase + i) hne
      by_cases hi0 : i = 0
      · subst hi0
        have hfr := hfold.2 (hbase + 0) (fun k hk => by omega)
        rw [if_neg hilast, if_pos rfl]
        rw [Nat.add_zero] at hfr ⊢
        exact ⟨f2.trans (hfr.2.1.trans hσ1.2.1),
          f1.trans (hfr.1.trans hσ1.1),
          f3.trans (hfr.2.2.1.trans hσ1.2.2.1),
          f4.trans (hfr.2.2.2.1.trans hσ1.2.2.2.1),
          f5.trans (hfr.2.2.2.2.1.trans hσ1.2.2.2.2.1),
          f6.trans (hfr.2.2.2.2.2.trans hσ1.2.2.2.2.2)⟩
      · have hid : hbase + i = hbase + (i - 1) + 1 := by omega
        have hat := hfold.1 (i - 1) (by omega)
        rw [if_neg hilast, if_neg hi0, hid]
        refine ⟨?_, ?_, ?_, ?_, ?_, ?_⟩
        · rw [hid] at f2
          rw [f2, hat.2.1]
        · rw [hid] at f1
          rw [f1, hat.1]
          omega
        · rw [hid] at f3
          rw [f3, hat.2.2.1]
        · rw [hid] at f4
          rw [f4, hat.2.2.2.1]
        · rw [hid] at f5
          rw [f5, hat.2.2.2.2.1]
        · rw [hid] at f6
          rw [f6, hat.2.2.2.2.2]
  · intro x hx
    have hne : x ≠ hbase + nh - 1 := by
      have := hx (nh - 1) (by omega)
      omega
    obtain ⟨f1, f2, f3, f4, f5, f6⟩ := mkHeader_frame ((List.range (nh - 2)).foldl
      (fun t k => mkHeader t (hbase + k + 1) (hbase + k) (hbase + k + 2))
      (mkHeader τ hbase root (hbase + 1))) (hbase + nh - 1)
      (hbase + nh - 2) root x hne
    have hfr := hfold.2 x (fun k hk => by
      have := hx (k + 1) (by omega)
      omega)
    have hxb : x ≠ hbase := by
      have := hx 0 (by omega)
      omega
    obtain ⟨g1, g2, g3, g4, g5, g6⟩ :=
      mkHeader_frame τ hbase root (hbase + 1) x hxb
    exact ⟨f1.trans (hfr.1.trans g1), f2.trans (hfr.2.1.trans g2),
      f3.trans (hfr.2.2.1.trans g3), f4.trans (hfr.2.2.2.1.trans g4),
      f5.trans (hfr.2.2.2.2.1.trans g5), f6.trans (hfr.2.2.2.2.2.trans g6)⟩

/-- Field characterization of dlx_make_headers: the root and the nh headers
are chained into the circular header list, every header's vertical list is
the self loop with count 0, and every other id keeps all its fields. -/
theorem dlx_make_headers_spec (σ : S) (root hbase nh : Nat) (hnh : 2 ≤ nh)
    (hroot : ∀ i, i < nh → hbase + i ≠ root) :
    (dlx_make_headers σ root hbase nh).right root = hbase ∧
    (dlx_make_headers σ root hbase nh).left root = hbase + nh - 1 ∧
    (∀ i, i < nh →
      (dlx_make_headers σ root hbase nh).right (hbase + i)
        = (if i = nh - 1 then root else hbase + i + 1) ∧
      (dlx_make_headers σ root hbase nh).left (hbase + i)
        = (if i = 0 then root else hbase + i - 1) ∧
      (dlx_make_headers σ root hbase nh).up (hbase + i) = hbase + i ∧
      (dlx_make_headers σ root hbase nh).down (hbase + i) = hbase + i ∧
      (dlx_make_headers σ root hbase nh).chead (hbase + i) = hbase + i ∧
      (dlx_make_headers σ root hbase nh).s (hbase + i) = 0) := by
  obtain ⟨hat, hfr⟩ := mkHeadersCore_fields { σ with
      left := upd σ.left root (hbase + nh - 1)
      right := upd σ.right root hbase
      up := upd σ.up root nullId
      down := upd σ.down root nullId
      chead := upd σ.chead root nullId
      s := upd σ.s root 0 } root hbase nh hnh
  have hrfr := hfr root (fun i hi he => hroot i hi he.symm)
  refine ⟨?_, ?_, hat⟩
  · exact hrfr.2.1.trans (upd_same _ _ _)
  · exact hrfr.1.trans (upd_same _ _ _)

/-- The exact effect of addNode on every field: the node is appended at the
bottom of the column's ring, its column pointer is set, the count is bumped,
and nothing else changes. -/
theorem addNode_spec (σ : S) (c n : Nat) (l : List Nat)
    (hring : ringAt σ.down σ.up c l) (hn : n ∉ c :: l) :
    (addNode σ n c).left = σ.left ∧
    (addNode σ n c).right = σ.right ∧
    (addNode σ n c).idv = σ.idv ∧
    (addNode σ n c).chead = upd σ.chead n c ∧
    (addNode σ n c).s = upd σ.s c (szInc (σ.s c)) ∧
    (addNode σ n c).down = upd (upd σ.down (endOf c l) n) n c ∧
    (addNode σ n c).up = upd (upd σ.up c n) n (endOf c l) ∧
    ringAt (addNode σ n c).down (addNode σ n c).up c (l ++ [n]) := by
  have hnc : n ≠ c := fun h => hn (h ▸ List.mem_cons_self _ _)
  have hupc : σ.up c = endOf c l := by
    obtain ⟨_, hend⟩ := (links_append σ.down σ.up l [c] c).1 hring.1
    exact hend.2.1
  have hne : n ≠ endOf c l := by
    intro h
    exact hn (h ▸ endOf_mem l c)
  have hchead : (addNode σ n c).chead = upd σ.chead n c := rfl
  have hsf : (addNode σ n c).s = upd σ.s c (szInc (σ.s c)) := by
    show upd σ.s (upd σ.chead n c n) (szInc (σ.s (upd σ.chead n c n)))
      = upd σ.s c (szInc (σ.s c))
    rw [upd_same]
  have hdn : (addNode σ n c).down = upd (upd σ.down (endOf c l) n) n c := by
    show upd (upd σ.down n c)
        (upd (upd σ.up n (σ.up c)) (upd σ.down n c n) n n) n
      = upd (upd σ.down (endOf c l) n) n c
    rw [upd_same, upd_other _ _ _ _ hnc, upd_same, hupc]
    exact upd_comm σ.down n c (endOf c l) n hne
  have hup : (addNode σ n c).up = upd (upd σ.up c n) n (endOf c l) := by
    show upd (upd σ.up n (σ.up c)) (upd σ.down n c n) n
      = upd (upd σ.up c n) n (endOf c l)
    rw [upd_same, hupc]
    exact upd_comm σ.up n (endOf c l) c n hnc
  refine ⟨rfl, rfl, rfl, hchead, hsf, hdn, hup, ?_⟩
  rw [hdn, hup]
  exact ring_append σ.down σ.up c n l hring hn

/-- One append step of dlx_make_row: writing the new node's horizontal links
and appending it to its column preserves the construction invariant, with
the column list extended. -/
theorem mkRow_step (D : Desc) (hbase b n : Nat) (done : List Nat) (sh : Shape)
    (σ : S) (c vl vr : Nat)
    (hstat : (D.root :: (D.headers ++ D.nodes)).Nodup)
    (hfresh : ∀ j, j < n → b + j ∉ D.root :: (D.headers ++ D.nodes))
    (hsz : D.nodes.length + n + 1 < szMod)
    (hrform : ∀ r ∈ D.rows, r ≠ [])
    (hrnodes : ∀ r ∈ D.rows, ∀ x ∈ r, x ∈ D.nodes)
    (hM : MRInv D hbase b n done sh σ)
    (hc : hbase + c ∈ D.headers)
    (hcd : c ∉ done)
    (hdlen : done.length < n)
    (hvl : vl = if done.length = 0 then b + n - 1 else b + done.length - 1)
    (hvr : vr = if done.length + 1 = n then b else b + done.length + 1) :
    MRInv D hbase b n (done ++ [c])
      ⟨sh.hdrs, fun d => if d = hbase + c
        then sh.col (hbase + c) ++ [b + done.length] else sh.col d⟩
      (addNode { σ with
          left := upd σ.left (b + done.length) vl,
          right := upd σ.right (b + done.length) vr }
        (b + done.length) (hbase + c)) := by
  obtain ⟨hhdrs, hhring, hcring, hcch, hscount, hcmem, hcparts, hrring,
    hrch, hchm, halive, hnlr⟩ := hM
  have hroot_hdr : D.root ∉ D.headers :=
    fun h => (List.nodup_cons.1 hstat).1 (List.mem_append_left _ h)
  have hnodup_hn := (List.nodup_cons.1 hstat).2
  have hhd_node : ∀ h ∈ D.headers, h ∉ D.nodes :=
    fun h hh hn => (List.nodup_append.1 hnodup_hn).2.2 hh hn
  have hbi := hfresh done.length hdlen
  have hbi_root : b + done.length ≠ D.root :=
    fun h => hbi (h ▸ List.mem_cons_self _ _)
  have hbi_hdr : b + done.length ∉ D.headers :=
    fun h => hbi (List.mem_cons_of_mem _ (List.mem_append_left _ h))
  have hbi_node : b + done.length ∉ D.nodes :=
    fun h => hbi (List.mem_cons_of_mem _ (List.mem_append_right _ h))
  have hbj_hdr : ∀ j, j < n → b + j ∉ D.headers :=
    fun j hj h => hfresh j hj
      (List.mem_cons_of_mem _ (List.mem_append_left _ h))
  have hbi_col : ∀ d ∈ D.headers, b + done.length ∉ sh.col d := by
    intro d hd hmem
    rcases hcmem d hd _ hmem with h | ⟨j, hj, he⟩
    · exact hbi_node h
    · omega
  have hnotin : b + done.length ∉ (hbase + c) :: sh.col (hbase + c) := by
    intro h
    rcases List.mem_cons.1 h with h | h
    · exact hbi_hdr (h ▸ hc)
    · exact hbi_col _ hc h
  have hring1 : ringAt ({ σ with
      left := upd σ.left (b + done.length) vl,
      right := upd σ.right (b + done.length) vr } : S).down
      ({ σ with
      left := upd σ.left (b + done.length) vl,
      right := upd σ.right (b + done.length) vr } : S).up
      (hbase + c) (sh.col (hbase + c)) := hcring _ hc
  obtain ⟨aL, aR, aI, aCh, aS, aDn, aUp, aRing⟩ :=
    addNode_spec { σ with
        left := upd σ.left (b + done.length) vl,
        right := upd σ.right (b + done.length) vr }
      (hbase + c) (b + done.length) (sh.col (hbase + c)) hring1 hnotin
  have hL2 : (addNode { σ with
      left := upd σ.left (b + done.length) vl,
      right := upd σ.right (b + done.length) vr }
      (b + done.length) (hbase + c)).left
      = upd σ.left (b + done.length) vl := aL
  have hR2 : (addNode { σ with
      left := upd σ.left (b + done.length) vl,
      right := upd σ.right (b + done.length) vr }
      (b + done.length) (hbase + c)).right
      = upd σ.right (b + done.length) vr := aR
  have hCh2 : (addNode { σ with
      left := upd σ.left (b + done.length) vl,
      right := upd σ.right (b + done.length) vr }
      (b + done.length) (hbase + c)).chead
      = upd σ.chead (b + done.length) (hbase + c) := aCh
  have hS2 : (addNode { σ with
      left := upd σ.left (b + done.length) vl,
      right := upd σ.right (b + done.length) vr }
      (b + done.length) (hbase + c)).s
      = upd σ.s (hbase + c) (szInc (σ.s (hbase + c))) := aS
  have hDn2 : (addNode { σ with
      left := upd σ.left (b + done.length) vl,
      right := upd σ.right (b + done.length) vr }
      (b + done.length) (hbase + c)).down
      = upd (upd σ.down (endOf (hbase + c) (sh.col (hbase + c)))
          (b + done.length)) (b + done.length) (hbase + c) := aDn
  have hUp2 : (addNode { σ with
      left := upd σ.left (b + done.length) vl,
      right := upd σ.right (b + done.length) vr }
      (b + done.length) (hbase + c)).up
      = upd (upd σ.up (hbase + c) (b + done.length)) (b + done.length)
          (endOf (hbase + c) (sh.col (hbase + c))) := aUp
  have hLF : ∀ x, x ≠ b + done.length →
      (addNode { σ with
        left := upd σ.left (b + done.length) vl,
        right := upd σ.right (b + done.length) vr }
        (b + done.length) (hbase + c)).left x = σ.left x := by
    intro x hx
    rw [hL2, upd_other _ _ _ _ hx]
  have hRF : ∀ x, x ≠ b + done.length →
      (addNode { σ with
        left := upd σ.left (b + done.length) vl,
        right := upd σ.right (b + done.length) vr }
        (b + done.length) (hbase + c)).right x = σ.right x := by
    intro x hx
    rw [hR2, upd_other _ _ _ _ hx]
  have hChF : ∀ x, x ≠ b + done.length →
      (addNode { σ with
        left := upd σ.left (b + done.length) vl,
        right := upd σ.right (b + done.length) vr }
        (b + done.length) (hbase + c)).chead x = σ.chead x := by
    intro x hx
    rw [hCh2, upd_other _ _ _ _ hx]
  have hSF : ∀ x, x ≠ hbase + c →
      (addNode { σ with
        left := upd σ.left (b + done.length) vl,
        right := upd σ.right (b + done.length) vr }
        (b + done.length) (hbase + c)).s x = σ.s x := by
    intro x hx
    rw [hS2, upd_other _ _ _ _ hx]
  have hDnF : ∀ x, x ≠ endOf (hbase + c) (sh.col (hbase + c)) →
      x ≠ b + done.length →
      (addNode { σ with
        left := upd σ.left (b + done.length) vl,
        right := upd σ.right (b + done.length) vr }
        (b + done.length) (hbase + c)).down x = σ.down x := by
    intro x h1 h2
    rw [hDn2, upd_other _ _ _ _ h2, upd_other _ _ _ _ h1]
  have hUpF : ∀ x, x ≠ hbase + c → x ≠ b + done.length →
      (addNode { σ with
        left := upd σ.left (b + done.length) vl,
        right := upd σ.right (b + done.length) vr }
        (b + done.length) (hbase + c)).up x = σ.up x := by
    intro x h1 h2
    rw [hUp2, upd_other _ _ _ _ h2, upd_other _ _ _ _ h1]
  have hEmem : endOf (hbase + c) (sh.col (hbase + c))
      ∈ (hbase + c) :: sh.col (hbase + c) := endOf_mem _ _
  have hcols_disj : ∀ d ∈ D.headers, d ≠ hbase + c →
      ∀ x ∈ d :: sh.col d, x ∉ (hbase + c) :: sh.col (hbase + c) := by
    intro d hd hdC x hx hx2
    have hmem_excl : ∀ e ∈ D.headers, ∀ y ∈ sh.col e, y ∉ D.headers := by
      intro e he y hy hyh
      rcases hcmem e he y hy with h | ⟨j, hj, hje⟩
      · exact hhd_node y hyh h
      · exact hbj_hdr j (by omega) (hje ▸ hyh)
    rcases List.mem_cons.1 hx with hx | hx
    · rcases List.mem_cons.1 hx2 with hx2 | hx2
      · exact hdC (hx.symm.trans hx2)
      · exact hmem_excl _ hc x hx2 (hx ▸ hd)
    · rcases List.mem_cons.1 hx2 with hx2 | hx2
      · exact hmem_excl _ hd x hx (hx2 ▸ hc)
      · have h1 : σ.chead x = d := hcch d hd x hx
        have h2 : σ.chead x = hbase + c := hcch _ hc x hx2
        exact hdC (h1.symm.trans h2)
  refine ⟨hhdrs, ?_, ?_, ?_, ?_, ?_, ?_, ?_, ?_, ?_, ?_, ?_⟩
  · -- hdr_ring
    apply ring_congr σ.right σ.left _ _ D.root sh.hdrs ?_ hhring
    intro x hx
    have hxne : x ≠ b + done.length := by
      intro he
      rcases List.mem_cons.1 hx with h | h
      · exact hbi_root (he ▸ h)
      · exact hbi_hdr (he ▸ (hhdrs ▸ h))
    exact ⟨hRF x hxne, hLF x hxne⟩
  · -- col_ring
    intro d hd
    by_cases hdC : d = hbase + c
    · subst hdC
      show ringAt _ _ (hbase + c) (if hbase + c = hbase + c
        then sh.col (hbase + c) ++ [b + done.length] else sh.col (hbase + c))
      rw [if_pos rfl]
      exact aRing
    · show ringAt _ _ d (if d = hbase + c then sh.col (hbase + c)
        ++ [b + done.length] else sh.col d)
      rw [if_neg hdC]
      apply ring_congr σ.down σ.up _ _ d (sh.col d) ?_ (hcring d hd)
      intro x hx
      have hnc2 := hcols_disj d hd hdC x hx
      have hxe : x ≠ endOf (hbase + c) (sh.col (hbase + c)) :=
        fun he => hnc2 (he ▸ hEmem)
      have hxc : x ≠ hbase + c := fun he => hnc2 (he ▸ List.mem_cons_self _ _)
      have hxb : x ≠ b + done.length := by
        intro he
        rcases List.mem_cons.1 hx with h | h
        · exact hbi_hdr (he ▸ h ▸ hd)
        · exact hbi_col d hd (he ▸ h)
      exact ⟨hDnF x hxe hxb, hUpF x hxc hxb⟩
  · -- col_chead
    intro d hd x hx
    by_cases hdC : d = hbase + c
    · subst hdC
      have hx' : x ∈ sh.col (hbase + c) ++ [b + done.length] := by
        have h0 : x ∈ (if hbase + c = hbase + c
            then sh.col (hbase + c) ++ [b + done.length]
            else sh.col (hbase + c)) := hx
        rwa [if_pos rfl] at h0
      rcases List.mem_append.1 hx' with h | h
      · have hxb : x ≠ b + done.length :=
          fun he => hbi_col (hbase + c) hd (he ▸ h)
        rw [hChF x hxb]
        exact hcch (hbase + c) hd x h
      · rw [List.mem_singleton] at h
        subst h
        rw [hCh2, upd_same]
    · have hx' : x ∈ sh.col d := by
        have h0 : x ∈ (if d = hbase + c
            then sh.col (hbase + c) ++ [b + done.length]
            else sh.col d) := hx
        rwa [if_neg hdC] at h0
      have hxb : x ≠ b + done.length := fun he => hbi_col d hd (he ▸ hx')
      rw [hChF x hxb]
      exact hcch d hd x hx'
  · -- s_count
    intro d hd
    by_cases hdC : d = hbase + c
    · subst hdC
      have hcolnd : (sh.col (hbase + c)).Nodup :=
        (List.nodup_cons.1 (hcring (hbase + c) hd).2).2
      have hsub : ∀ x ∈ sh.col (hbase + c), x ∈ D.nodes ++ newRowIds b n := by
        intro x hx
        rcases hcmem (hbase + c) hd x hx with h | ⟨j, hj, he⟩
        · exact List.mem_append_left _ h
        · refine List.mem_append_right _ ?_
          exact he ▸ List.mem_map.2 ⟨j, List.mem_range.2 (by omega), rfl⟩
      have hlen : (sh.col (hbase + c)).length ≤ D.nodes.length + n := by
        have := (List.subperm_of_subset hcolnd hsub).length_le
        simp only [newRowIds, List.length_append, List.length_map,
          List.length_range] at this
        exact this
      show (addNode { σ with
          left := upd σ.left (b + done.length) vl,
          right := upd σ.right (b + done.length) vr }
          (b + done.length) (hbase + c)).s (hbase + c)
        = (if hbase + c = hbase + c
            then sh.col (hbase + c) ++ [b + done.length]
            else sh.col (hbase + c)).length
      rw [if_pos rfl, hS2, upd_same, hscount (hbase + c) hd,
        List.length_append, List.length_singleton]
      show szInc ((sh.col (hbase + c)).length)
        = (sh.col (hbase + c)).length + 1
      unfold szInc
      rw [if_neg (by omega)]
    · show (addNode { σ with
          left := upd σ.left (b + done.length) vl,
          right := upd σ.right (b + done.length) vr }
          (b + done.length) (hbase + c)).s d
        = (if d = hbase + c
            then sh.col (hbase + c) ++ [b + done.length]
            else sh.col d).length
      rw [if_neg hdC, hSF d hdC]
      exact hscount d hd
  · -- col_mem
    intro d hd x hx
    by_cases hdC : d = hbase + c
    · subst hdC
      have hx' : x ∈ sh.col (hbase + c) ++ [b + done.length] := by
        have h0 : x ∈ (if hbase + c = hbase + c
            then sh.col (hbase + c) ++ [b + done.length]
            else sh.col (hbase + c)) := hx
        rwa [if_pos rfl] at h0
      rcases List.mem_append.1 hx' with h | h
      · rcases hcmem (hbase + c) hd x h with h2 | ⟨j, hj, he⟩
        · exact Or.inl h2
        · exact Or.inr ⟨j, (by simp; omega), he⟩
      · rw [List.mem_singleton] at h
        exact Or.inr ⟨done.length, (by simp), h⟩
    · have hx' : x ∈ sh.col d := by
        have h0 : x ∈ (if d = hbase + c
            then sh.col (hbase + c) ++ [b + done.length]
            else sh.col d) := hx
        rwa [if_neg hdC] at h0
      rcases hcmem d hd x hx' with h2 | ⟨j, hj, he⟩
      · exact Or.inl h2
      · exact Or.inr ⟨j, (by rw [List.length_append]; omega), he⟩
  · -- col_parts
    intro j h
    by_cases hj : j < done.length
    · have hget : (done ++ [c]).get ⟨j, h⟩ = done.get ⟨j, hj⟩ := by
        rw [List.get_eq_getElem, List.get_eq_getElem,
          List.getElem_append_left hj]
      rw [hget]
      have hold := hcparts j hj
      have hne : hbase + done.get ⟨j, hj⟩ ≠ hbase + c := by
        intro he
        apply hcd
        have hgc : done.get ⟨j, hj⟩ = c := by omega
        rw [← hgc]
        exact List.get_mem done j hj
      show b + j ∈ (if hbase + done.get ⟨j, hj⟩ = hbase + c
        then sh.col (hbase + c) ++ [b + done.length]
        else sh.col (hbase + done.get ⟨j, hj⟩))
      rw [if_neg hne]
      exact hold
    · have hje : j = done.length := by
        rw [List.length_append, List.length_singleton] at h
        omega
      subst hje
      have hget : (done ++ [c]).get ⟨done.length, h⟩ = c := by
        rw [List.get_eq_getElem]
        exact List.getElem_concat_length done c done.length rfl _
      rw [hget]
      show b + done.length ∈ (if hbase + c = hbase + c
        then sh.col (hbase + c) ++ [b + done.length] else sh.col (hbase + c))
      rw [if_pos rfl]
      exact List.mem_append_right _ (List.mem_singleton.2 rfl)
  · -- rows_ring
    intro r hr
    cases r with
    | nil => exact absurd rfl (hrform [] hr)
    | cons a t =>
      apply ring_congr σ.right σ.left _ _ a t ?_ (by simpa using hrring _ hr)
      intro x hx
      have hxn : x ∈ D.nodes := hrnodes _ hr x hx
      have hxb : x ≠ b + done.length := fun he => hbi_node (he ▸ hxn)
      exact ⟨hRF x hxb, hLF x hxb⟩
  · -- rows_chead
    intro r hr
    have hmap : r.map (addNode { σ with
        left := upd σ.left (b + done.length) vl,
        right := upd σ.right (b + done.length) vr }
        (b + done.length) (hbase + c)).chead = r.map σ.chead := by
      apply List.map_congr_left
      intro x hx
      have hxn : x ∈ D.nodes := hrnodes _ hr x hx
      exact hChF x (fun he => hbi_node (he ▸ hxn))
    rw [hmap]
    exact hrch r hr
  · -- chead_mem
    intro x hx
    rw [hChF x (fun he => hbi_node (he ▸ hx))]
    exact hchm x hx
  · -- all_live
    intro r hr x hx
    have hxn : x ∈ D.nodes := hrnodes _ hr x hx
    have hxb : x ≠ b + done.length := fun he => hbi_node (he ▸ hxn)
    rw [hChF x hxb]
    have hold := halive r hr x hx
    by_cases hcx : σ.chead x = hbase + c
    · show x ∈ (if σ.chead x = hbase + c
        then sh.col (hbase + c) ++ [b + done.length] else sh.col (σ.chead x))
      rw [if_pos hcx]
      exact List.mem_append_left _ (hcx ▸ hold)
    · show x ∈ (if σ.chead x = hbase + c
        then sh.col (hbase + c) ++ [b + done.length] else sh.col (σ.chead x))
      rw [if_neg hcx]
      exact hold
  · -- new_lr
    intro j hj
    rw [List.length_append, List.length_singleton] at hj
    by_cases hjd : j < done.length
    · have hne : b + j ≠ b + done.length := by omega
      rw [hLF _ hne, hRF _ hne]
      exact hnlr j hjd
    · have hje : j = done.length := by omega
      subst hje
      rw [hL2, hR2, upd_same, upd_same, hvl, hvr]
      exact ⟨rfl, rfl⟩

/-- A well-formed between-rows construction state is a valid starting point
for appending a row. -/
theorem mrinv_of_invcore (D : Desc) (sh : Shape) (σ : S) (hbase b n : Nat)
    (hIc : InvCore D sh σ) (hlive : AllLive D sh σ)
    (hhd : sh.hdrs = D.headers) :
    MRInv D hbase b n [] sh σ := by
  refine ⟨hhd, hIc.hdr_ring, ?_, hIc.col_chead, hIc.s_count, ?_, ?_,
    hIc.rows_ring, hIc.rows_chead_nodup, hIc.chead_mem, hlive, ?_⟩
  · intro c hc
    exact hIc.col_ring c hc
  · intro c hc x hx
    exact Or.inl (hIc.col_sub c hc x hx)
  · intro j h
    simp at h
  · intro j h
    simp at h

/-- The tail loop of dlx_make_row preserves the construction invariant,
consuming the remaining columns one node at a time. -/
theorem mkRowRest_inv (D : Desc) (hbase b n : Nat)
    (hstat : (D.root :: (D.headers ++ D.nodes)).Nodup)
    (hfresh : ∀ j, j < n → b + j ∉ D.root :: (D.headers ++ D.nodes))
    (hsz : D.nodes.length + n + 1 < szMod)
    (hrform : ∀ r ∈ D.rows, r ≠ [])
    (hrnodes : ∀ r ∈ D.rows, ∀ x ∈ r, x ∈ D.nodes) :
    ∀ (rest done : List Nat) (sh : Shape) (σ : S),
      done.length + rest.length = n →
      done ≠ [] →
      (∀ c ∈ rest, hbase + c ∈ D.headers) →
      (done ++ rest).Nodup →
      MRInv D hbase b n done sh σ →
      ∃ sh' : Shape, MRInv D hbase b n (done ++ rest) sh'
        (mkRowRest b hbase n σ done.length rest) := by
  intro rest
  induction rest with
  | nil =>
    intro done sh σ _ _ _ _ hM
    refine ⟨sh, ?_⟩
    rw [List.append_nil]
    exact hM
  | cons c rest' ih =>
    intro done sh σ hlen hd0 hcols hnd hM
    have hdpos : 0 < done.length := List.length_pos.2 hd0
    have hcd : c ∉ done := by
      intro h
      exact (List.nodup_append.1 hnd).2.2 h (List.mem_cons_self _ _)
    have hdlen : done.length < n := by
      rw [List.length_cons] at hlen
      omega
    cases rest' with
    | nil =>
      have hstep := mkRow_step D hbase b n done sh σ c
        (b + done.length - 1) b hstat hfresh hsz hrform hrnodes hM
        (hcols c (List.mem_cons_self _ _)) hcd hdlen
        (by rw [if_neg (by omega)]) (by rw [if_pos (by
          rw [List.length_cons, List.length_nil] at hlen; omega)])
      exact ⟨_, hstep⟩
    | cons c2 rest'' =>
      have hstep := mkRow_step D hbase b n done sh σ c
        (b + done.length - 1) (b + done.length + 1) hstat hfresh hsz
        hrform hrnodes hM (hcols c (List.mem_cons_self _ _)) hcd hdlen
        (by rw [if_neg (by omega)]) (by rw [if_neg (by
          rw [List.length_cons, List.length_cons] at hlen; omega)])
      have hndr : ((done ++ [c]) ++ (c2 :: rest'')).Nodup := by
        rw [List.append_assoc, List.singleton_append]
        exact hnd
      obtain ⟨sh', hM'⟩ := ih (done ++ [c]) _ _
        (by rw [List.length_append, List.length_singleton]
            rw [List.length_cons] at hlen
            omega)
        (by simp) (fun z hz => hcols z (List.mem_cons_of_mem _ hz))
        hndr hstep
      refine ⟨sh', ?_⟩
      rw [List.length_append, List.length_singleton] at hM'
      rw [List.append_assoc, List.singleton_append] at hM'
      exact hM'

theorem newRowIds_length (b m : Nat) : (newRowIds b m).length = m := by
  simp [newRowIds]

theorem newRowIds_nodup (b m : Nat) : (newRowIds b m).Nodup :=
  (List.nodup_range m).map (fun x y h => by omega)

theorem newRowIds_mem (b m x : Nat) :
    x ∈ newRowIds b m ↔ ∃ j, j < m ∧ x = b + j := by
  unfold newRowIds
  rw [List.mem_map]
  constructor
  · rintro ⟨j, hj, he⟩
    exact ⟨j, List.mem_range.1 hj, he.symm⟩
  · rintro ⟨j, hj, he⟩
    exact ⟨j, List.mem_range.2 hj, he.symm⟩

theorem newRowIds_cons (b m : Nat) :
    newRowIds b (m + 1) = b :: (List.range m).map (fun t => b + 1 + t) := by
  unfold newRowIds
  rw [List.range_succ_eq_map, List.map_cons, List.map_map]
  refine List.cons_eq_cons.2 ⟨rfl, ?_⟩
  apply List.map_congr_left
  intro t _
  show b + (t + 1) = b + 1 + t
  omega

theorem newRowIds_getElem (b m j : Nat) (h1 : j < (newRowIds b m).length) :
    (newRowIds b m).get ⟨j, h1⟩ = b + j := by
  rw [List.get_eq_getElem]
  unfold newRowIds
  rw [List.getElem_map, List.getElem_range]

/-- Completing a row append turns the construction invariant into the full
core invariant for the description extended by that row, still with every
node live and all headers in the list. -/
theorem invcore_of_mrinv (D : Desc) (hbase b : Nat) (cs : List Nat)
    (sh : Shape) (σ : S)
    (hM : MRInv D hbase b cs.length cs sh σ)
    (hstat : (D.root :: (D.headers ++ D.nodes)).Nodup)
    (hfresh : ∀ j, j < cs.length → b + j ∉ D.root :: (D.headers ++ D.nodes))
    (hlen2 : 2 ≤ cs.length)
    (hndcs : cs.Nodup)
    (hcols : ∀ c ∈ cs, hbase + c ∈ D.headers)
    (hrform : ∀ r ∈ D.rows, r ≠ [])
    (hrnodes : D.rows.flatten.Perm D.nodes)
    (hsz : D.nodes.length + cs.length + 1 < szMod) :
    InvCore ⟨D.root, D.headers, D.nodes ++ newRowIds b cs.length,
        D.rows ++ [newRowIds b cs.length]⟩ sh σ ∧
    AllLive ⟨D.root, D.headers, D.nodes ++ newRowIds b cs.length,
        D.rows ++ [newRowIds b cs.length]⟩ sh σ ∧
    sh.hdrs = D.headers := by
  obtain ⟨hhdrs, hhring, hcring, hcch, hscount, hcmem, hcparts, hrring,
    hrch, hchm, halive, hnlr⟩ := hM
  have hroot_hn : D.root ∉ D.headers ++ D.nodes := (List.nodup_cons.1 hstat).1
  have hnodup_hn := (List.nodup_cons.1 hstat).2
  have hnew_mem : ∀ x ∈ newRowIds b cs.length, ∃ j, j < cs.length ∧ x = b + j :=
    fun x hx => (newRowIds_mem b cs.length x).1 hx
  have hnew_fresh : ∀ x ∈ newRowIds b cs.length,
      x ∉ D.root :: (D.headers ++ D.nodes) := by
    intro x hx
    obtain ⟨j, hj, he⟩ := hnew_mem x hx
    exact he ▸ hfresh j hj
  have hchead_new : ∀ (j : Nat) (h : j < cs.length),
      σ.chead (b + j) = hbase + cs.get ⟨j, h⟩ := by
    intro j h
    exact hcch (hbase + cs.get ⟨j, h⟩) (hcols _ (List.get_mem cs j h)) (b + j)
      (hcparts j h)
  have hcol_len : ∀ c ∈ D.headers,
      (sh.col c).length ≤ D.nodes.length + cs.length := by
    intro c hc
    have hcolnd : (sh.col c).Nodup := (List.nodup_cons.1 (hcring c hc).2).2
    have hsub : ∀ x ∈ sh.col c, x ∈ D.nodes ++ newRowIds b cs.length := by
      intro x hx
      rcases hcmem c hc x hx with h | ⟨j, hj, he⟩
      · exact List.mem_append_left _ h
      · exact List.mem_append_right _
          (he ▸ (newRowIds_mem b cs.length _).2 ⟨j, hj, rfl⟩)
    have := (List.subperm_of_subset hcolnd hsub).length_le
    rw [List.length_append, newRowIds_length] at this
    exact this
  have hnewring : ringAt σ.right σ.left ((newRowIds b cs.length).headD 0)
      (newRowIds b cs.length).tail := by
    have hn1 : cs.length = (cs.length - 2) + 1 + 1 := by omega
    rw [hn1, newRowIds_cons, List.headD_cons, List.tail_cons]
    constructor
    · have hseg := links_seg σ.right σ.left b ((cs.length - 2) + 1) 0 b
        (fun i hi1 hi2 => by
          have := (hnlr i (by omega)).2
          rw [if_neg (by omega)] at this
          exact this)
        (fun i hi1 hi2 => by
          have h0 := (hnlr (i + 1) (by omega)).1
          rw [if_neg (by omega)] at h0
          have h2 : σ.left (b + i + 1) = b + (i + 1) - 1 := h0
          rw [h2]
          omega)
        (by
          have := (hnlr ((cs.length - 2) + 1) (by omega)).2
          rw [if_pos (by omega)] at this
          have hid : b + (0 + ((cs.length - 2) + 1))
              = b + ((cs.length - 2) + 1) := by omega
          rw [hid]
          exact this)
        (by
          have h0 := (hnlr 0 (by omega)).1
          rw [if_pos rfl] at h0
          have h2 : σ.left b = b + cs.length - 1 := h0
          rw [h2]
          omega)
      exact hseg
    · have hnd := newRowIds_nodup b cs.length
      rw [hn1, newRowIds_cons] at hnd
      exact hnd
  refine ⟨?_, ?_, hhdrs⟩
  · refine ⟨hhring, ?_, hcring, hcch, ?_, hscount, ?_, ?_, ?_, ?_, ?_, ?_,
      ?_, ?_, ?_, ?_, ?_⟩
    · intro h hh
      rw [hhdrs] at hh
      exact hh
    · intro c hc x hx
      rcases hcmem c hc x hx with h | ⟨j, hj, he⟩
      · exact List.mem_append_left _ h
      · exact List.mem_append_right _
          (he ▸ (newRowIds_mem b cs.length _).2 ⟨j, hj, rfl⟩)
    · intro c hc
      have := hcol_len c hc
      omega
    · intro r hr
      rcases List.mem_append.1 hr with h | h
      · exact hrform r h
      · rw [List.mem_singleton] at h
        subst h
        intro he
        have := newRowIds_length b cs.length
        rw [he] at this
        simp at this
        omega
    · intro r hr
      rcases List.mem_append.1 hr with h | h
      · exact hrring r h
      · rw [List.mem_singleton] at h
        subst h
        exact hnewring
    · intro r hr
      rcases List.mem_append.1 hr with h | h
      · exact hrch r h
      · rw [List.mem_singleton] at h
        subst h
        have hmapeq : (newRowIds b cs.length).map σ.chead
            = cs.map (hbase + ·) := by
          apply List.ext_getElem
          · rw [List.length_map, List.length_map, newRowIds_length]
          · intro j h1 h2
            rw [List.length_map, newRowIds_length] at h1
            have h1' : j < (newRowIds b cs.length).length := by
              rw [newRowIds_length]
              exact h1
            rw [List.getElem_map, List.getElem_map]
            have hg := newRowIds_getElem b cs.length j h1'
            rw [List.get_eq_getElem] at hg
            rw [hg]
            have hc2 := hchead_new j h1
            rw [List.get_eq_getElem] at hc2
            exact hc2
        rw [hmapeq]
        exact hndcs.map (fun x y h => by omega)
    · show (D.rows ++ [newRowIds b cs.length]).flatten.Perm
        (D.nodes ++ newRowIds b cs.length)
      rw [List.flatten_append, List.flatten_cons, List.flatten_nil,
        List.append_nil]
      exact hrnodes.append_right _
    · intro x hx
      rcases List.mem_append.1 hx with h | h
      · exact hchm x h
      · obtain ⟨j, hj, he⟩ := hnew_mem x h
        subst he
        rw [hchead_new j hj]
        exact hcols _ (List.get_mem cs j hj)
    · show D.root ∉ D.headers
      exact fun h => hroot_hn (List.mem_append_left _ h)
    · show D.root ∉ D.nodes ++ newRowIds b cs.length
      intro h
      rcases List.mem_append.1 h with h | h
      · exact hroot_hn (List.mem_append_right _ h)
      · exact hnew_fresh _ h (List.mem_cons_self _ _)
    · exact (List.nodup_append.1 hnodup_hn).1
    · show (D.nodes ++ newRowIds b cs.length).Nodup
      rw [List.nodup_append]
      refine ⟨(List.nodup_append.1 hnodup_hn).2.1, newRowIds_nodup b _, ?_⟩
      intro y hy hy2
      exact hnew_fresh y hy2
        (List.mem_cons_of_mem _ (List.mem_append_right _ hy))
    · intro h hh
      show h ∉ D.nodes ++ newRowIds b cs.length
      intro hmem
      rcases List.mem_append.1 hmem with hm | hm
      · exact (List.nodup_append.1 hnodup_hn).2.2 hh hm
      · exact hnew_fresh _ hm
          (List.mem_cons_of_mem _ (List.mem_append_left _ hh))
  · intro r hr x hx
    rcases List.mem_append.1 hr with h | h
    · exact halive r h x hx
    · rw [List.mem_singleton] at h
      subst h
      obtain ⟨j, hj, he⟩ := hnew_mem x hx
      subst he
      rw [hchead_new j hj]
      exact hcparts j hj

/-- The id families of a well-formed matrix are mutually disjoint, as one
nodup list. -/
theorem nodup_of_invcore (D : Desc) (sh : Shape) (σ : S)
    (hIc : InvCore D sh σ) :
    (D.root :: (D.headers ++ D.nodes)).Nodup := by
  rw [List.nodup_cons, List.nodup_append]
  exact ⟨fun h => (List.mem_append.1 h).elim hIc.root_not_hdr
      hIc.root_not_node,
    hIc.hdr_nodup, hIc.node_nodup,
    fun x hx hx2 => hIc.hdr_node_disj x hx hx2⟩

/-- dlx_make_row on a fully live well-formed matrix with fresh node ids
yields a fully live well-formed matrix with the new row appended: in
particular every count still equals its live column length. -/
theorem dlx_make_row_inv (D : Desc) (sh : Shape) (σ : S) (hbase b : Nat)
    (cs : List Nat)
    (hIc : InvCore D sh σ) (hlive : AllLive D sh σ)
    (hhd : sh.hdrs = D.headers)
    (hfresh : ∀ j, j < cs.length → b + j ∉ D.root :: (D.headers ++ D.nodes))
    (hlen2 : 2 ≤ cs.length)
    (hndcs : cs.Nodup)
    (hcols : ∀ c ∈ cs, hbase + c ∈ D.headers)
    (hsz : D.nodes.length + cs.length + 1 < szMod) :
    ∃ sh' : Shape,
      InvCore ⟨D.root, D.headers, D.nodes ++ newRowIds b cs.length,
          D.rows ++ [newRowIds b cs.length]⟩ sh'
        (dlx_make_row σ b hbase cs) ∧
      AllLive ⟨D.root, D.headers, D.nodes ++ newRowIds b cs.length,
          D.rows ++ [newRowIds b cs.length]⟩ sh'
        (dlx_make_row σ b hbase cs) ∧
      sh'.hdrs = D.headers := by
  have hstat : (D.root :: (D.headers ++ D.nodes)).Nodup :=
    nodup_of_invcore D sh σ hIc
  have hrform : ∀ r ∈ D.rows, r ≠ [] := hIc.rows_form
  have hrn : ∀ r ∈ D.rows, ∀ x ∈ r, x ∈ D.nodes :=
    fun r hr x hx => row_mem_nodes D sh σ hIc r hr x hx
  cases cs with
  | nil =>
    rw [List.length_nil] at hlen2
    omega
  | cons c0 rest =>
    have hM0 := mrinv_of_invcore D sh σ hbase b (c0 :: rest).length hIc
      hlive hhd
    have hstep := mkRow_step D hbase b (c0 :: rest).length [] sh σ c0
      (b + (c0 :: rest).length - 1) (b + 1) hstat hfresh hsz hrform hrn hM0
      (hcols c0 (List.mem_cons_self _ _)) (by simp)
      (by rw [List.length_nil, List.length_cons]; omega)
      (by rw [List.length_nil, if_pos rfl])
      (by rw [List.length_nil, if_neg (by omega)])
    obtain ⟨sh', hM'⟩ := mkRowRest_inv D hbase b (c0 :: rest).length hstat
      hfresh hsz hrform hrn rest [c0] _ _
      (by rw [List.length_singleton, List.length_cons]; omega)
      (by simp)
      (fun z hz => hcols z (List.mem_cons_of_mem _ hz))
      (by rw [List.singleton_append]; exact hndcs)
      hstep
    have hM2 : MRInv D hbase b (c0 :: rest).length (c0 :: rest) sh'
        (dlx_make_row σ b hbase (c0 :: rest)) := hM'
    obtain ⟨hInv2, hAll2, hhd2⟩ := invcore_of_mrinv D hbase b (c0 :: rest)
      sh' _ hM2 hstat hfresh hlen2 hndcs hcols hrform hIc.rows_nodes hsz
    exact ⟨sh', hInv2, hAll2, hhd2⟩

/-- dlx_make_headers builds a well-formed empty matrix: the root and the nh
headers form the header ring, every column is empty with count 0, and there
are no rows. -/
theorem dlx_make_headers_invcore (σ : S) (root hbase nh : Nat) (hnh : 2 ≤ nh)
    (hroot : ∀ i, i < nh → hbase + i ≠ root) :
    InvCore ⟨root, (List.range nh).map (hbase + ·), [], []⟩
      ⟨(List.range nh).map (hbase + ·), fun _ => []⟩
      (dlx_make_headers σ root hbase nh) ∧
    AllLive ⟨root, (List.range nh).map (hbase + ·), [], []⟩
      ⟨(List.range nh).map (hbase + ·), fun _ => []⟩
      (dlx_make_headers σ root hbase nh) := by
  obtain ⟨hrr, hrl, hfl⟩ := dlx_make_headers_spec σ root hbase nh hnh hroot
  have hrnh : root ∉ (List.range nh).map (hbase + ·) := by
    intro h
    obtain ⟨i, hi, he⟩ := List.mem_map.1 h
    exact hroot i (List.mem_range.1 hi) he
  have hmnd : ((List.range nh).map (hbase + ·)).Nodup :=
    (List.nodup_range nh).map (fun a b h => by omega)
  have hring : ringAt (dlx_make_headers σ root hbase nh).right
      (dlx_make_headers σ root hbase nh).left root
      ((List.range nh).map (hbase + ·)) := by
    constructor
    · obtain ⟨m, rfl⟩ : ∃ m, nh = m + 2 := ⟨nh - 2, by omega⟩
      rw [List.range_succ_eq_map, List.map_cons, List.map_map,
        List.cons_append]
      refine ⟨hrr, ?_, ?_⟩
      · have h0 := (hfl 0 (by omega)).2.1
        rw [if_pos rfl] at h0
        exact h0
      · have hmap : (List.range (m + 1)).map ((hbase + ·) ∘ Nat.succ)
            = (List.range (m + 1)).map (fun t => hbase + 0 + 1 + t) := by
          apply List.map_congr_left
          intro t _
          show hbase + (t + 1) = hbase + 0 + 1 + t
          omega
        rw [hmap]
        apply links_seg
        · intro i hi1 hi2
          have h1 := (hfl i (by omega)).1
          rw [if_neg (by omega)] at h1
          exact h1
        · intro i hi1 hi2
          have h1 := (hfl (i + 1) (by omega)).2.1
          rw [if_neg (by omega)] at h1
          have h2 : (dlx_make_headers σ root hbase (m + 2)).left
              (hbase + i + 1) = hbase + (i + 1) - 1 := h1
          rw [h2]
          omega
        · have h1 := (hfl (m + 1) (by omega)).1
          rw [if_pos (by omega)] at h1
          have h2 : 0 + (m + 1) = m + 1 := by omega
          rw [h2]
          exact h1
        · rw [hrl]
          omega
    · rw [List.nodup_cons]
      exact ⟨hrnh, hmnd⟩
  have hself : ∀ c ∈ (List.range nh).map (hbase + ·),
      (dlx_make_headers σ root hbase nh).down c = c ∧
      (dlx_make_headers σ root hbase nh).up c = c ∧
      (dlx_make_headers σ root hbase nh).s c = 0 := by
    intro c hc
    obtain ⟨i, hi, he⟩ := List.mem_map.1 hc
    have hfi := hfl i (List.mem_range.1 hi)
    exact he ▸ ⟨hfi.2.2.2.1, hfi.2.2.1, hfi.2.2.2.2.2⟩
  refine ⟨⟨hring, fun h hh => hh, ?_, ?_, ?_, ?_, ?_, ?_, ?_, ?_, ?_, ?_,
    hrnh, ?_, hmnd, List.nodup_nil, ?_⟩, ?_⟩
  · intro c hc
    obtain ⟨h1, h2, _⟩ := hself c hc
    exact ⟨⟨h1, h2, trivial⟩, List.nodup_singleton c⟩
  · intro c _ n hn
    exact absurd hn (List.not_mem_nil n)
  · intro c _ n hn
    exact absurd hn (List.not_mem_nil n)
  · intro c hc
    rw [List.length_nil]
    exact (hself c hc).2.2
  · intro c _
    rw [List.length_nil]
    norm_num [szMod]
  · intro r hr
    exact absurd hr (List.not_mem_nil r)
  · intro r hr
    exact absurd hr (List.not_mem_nil r)
  · intro r hr
    exact absurd hr (List.not_mem_nil r)
  · exact List.Perm.nil
  · intro n hn
    exact absurd hn (List.not_mem_nil n)
  · exact fun h => absurd h (List.not_mem_nil root)
  · intro h hh hn
    exact absurd hn (List.not_mem_nil h)
  · intro r hr
    exact absurd hr (List.not_mem_nil r)

/-- Adding rows one dlx_make_row call at a time preserves full liveness and
well-formedness, extending the description row by row. -/
theorem build_rows_inv (hbase : Nat) :
    ∀ (rws : List (Nat × List Nat)) (D : Desc) (sh : Shape) (σ : S),
      InvCore D sh σ → AllLive D sh σ → sh.hdrs = D.headers →
      (D.root :: (D.headers ++ (D.nodes
        ++ (rws.map (fun rc => newRowIds rc.1 rc.2.length)).flatten))).Nodup →
      (∀ rc ∈ rws, 2 ≤ rc.2.length ∧ rc.2.Nodup ∧
        ∀ c ∈ rc.2, hbase + c ∈ D.headers) →
      D.nodes.length
        + (rws.map (fun rc => newRowIds rc.1 rc.2.length)).flatten.length + 1
        < szMod →
      ∃ sh' : Shape,
        InvCore (extendDesc D rws) sh' (buildRows hbase σ rws) ∧
        AllLive (extendDesc D rws) sh' (buildRows hbase σ rws) ∧
        sh'.hdrs = D.headers := by
  intro rws
  induction rws with
  | nil =>
    intro D sh σ hIc hAll hhd _ _ _
    have hD : extendDesc D [] = D := by
      simp [extendDesc]
    rw [hD]
    exact ⟨sh, hIc, hAll, hhd⟩
  | cons rc rws' ih =>
    intro D sh σ hIc hAll hhd hnd hrows hsz
    obtain ⟨hl2, hndc, hcols⟩ := hrows rc (List.mem_cons_self _ _)
    have hflat : ((rc :: rws').map
          (fun rc => newRowIds rc.1 rc.2.length)).flatten
        = newRowIds rc.1 rc.2.length
          ++ (rws'.map (fun rc => newRowIds rc.1 rc.2.length)).flatten := by
      rw [List.map_cons, List.flatten_cons]
    rw [hflat] at hnd hsz
    obtain ⟨hr0, h1⟩ := List.nodup_cons.1 hnd
    obtain ⟨hH, h2, hdisjH⟩ := List.nodup_append.1 h1
    obtain ⟨hN, h3, hdisjN⟩ := List.nodup_append.1 h2
    obtain ⟨hA, hB, hdisjAB⟩ := List.nodup_append.1 h3
    have hfresh : ∀ j, j < rc.2.length →
        rc.1 + j ∉ D.root :: (D.headers ++ D.nodes) := by
      intro j hj hmem
      have hjA : rc.1 + j ∈ newRowIds rc.1 rc.2.length :=
        (newRowIds_mem rc.1 rc.2.length (rc.1 + j)).2 ⟨j, hj, rfl⟩
      rcases List.mem_cons.1 hmem with h | h
      · exact hr0 (List.mem_append_right _ (List.mem_append_right _
          (List.mem_append_left _ (h ▸ hjA))))
      · rcases List.mem_append.1 h with h | h
        · exact hdisjH h (List.mem_append_right _
            (List.mem_append_left _ hjA))
        · exact hdisjN h (List.mem_append_left _ hjA)
    have hszrow : D.nodes.length + rc.2.length + 1 < szMod := by
      rw [List.length_append, newRowIds_length] at hsz
      omega
    obtain ⟨sh1, hIc1, hAll1, hhd1⟩ := dlx_make_row_inv D sh σ hbase rc.1
      rc.2 hIc hAll hhd hfresh hl2 hndc hcols hszrow
    have hnd' : (D.root :: (D.headers
        ++ ((D.nodes ++ newRowIds rc.1 rc.2.length)
          ++ (rws'.map (fun rc => newRowIds rc.1 rc.2.length)).flatten))).Nodup := by
      rw [List.append_assoc]
      exact hnd
    have hsz' : (D.nodes ++ newRowIds rc.1 rc.2.length).length
        + (rws'.map (fun rc => newRowIds rc.1 rc.2.length)).flatten.length + 1
        < szMod := by
      rw [List.length_append, newRowIds_length]
      rw [List.length_append, newRowIds_length] at hsz
      omega
    obtain ⟨sh2, hIc2, hAll2, hhd2⟩ := ih
      ⟨D.root, D.headers, D.nodes ++ newRowIds rc.1 rc.2.length,
        D.rows ++ [newRowIds rc.1 rc.2.length]⟩ sh1
      (dlx_make_row σ rc.1 hbase rc.2) hIc1 hAll1 hhd1 hnd'
      (fun rc' h => hrows rc' (List.mem_cons_of_mem _ h)) hsz'
    have hDE : extendDesc D (rc :: rws')
        = extendDesc ⟨D.root, D.headers,
            D.nodes ++ newRowIds rc.1 rc.2.length,
            D.rows ++ [newRowIds rc.1 rc.2.length]⟩ rws' := by
      show Desc.mk D.root D.headers
          (D.nodes ++ ((rc :: rws').map
            (fun rc => newRowIds rc.1 rc.2.length)).flatten)
          (D.rows ++ (rc :: rws').map (fun rc => newRowIds rc.1 rc.2.length))
        = Desc.mk D.root D.headers
          ((D.nodes ++ newRowIds rc.1 rc.2.length)
            ++ (rws'.map (fun rc => newRowIds rc.1 rc.2.length)).flatten)
          ((D.rows ++ [newRowIds rc.1 rc.2.length])
            ++ rws'.map (fun rc => newRowIds rc.1 rc.2.length))
      rw [hflat, List.map_cons, List.append_assoc, List.append_assoc,
        List.singleton_append]
    rw [hDE]
    exact ⟨sh2, hIc2, hAll2, hhd2⟩

/-- A live row is reported not-removed, and dlx_force_row on it covers the
column of every node of the row left-to-right, starting with the row node's
own column.  The covered columns are pairwise distinct. -/
theorem forceRow_eq_fold (D : Desc) (sh : Shape) (σ : S) (r : Nat)
    (fuel : Nat) (hI : Inv D sh σ) (hrn : r ∈ D.nodes)
    (hlive : r ∈ sh.col (σ.chead r))
    (hhd : ∀ y ∈ r :: partsOf D r, σ.chead y ∈ sh.hdrs)
    (hf : 2 * D.nodes.length + 2 ≤ fuel) :
    dlx_force_row fuel σ r
      = (0, (r :: partsOf D r).foldl (fun t y => cover fuel t (σ.chead y)) σ)
      ∧ ((r :: partsOf D r).map σ.chead).Nodup := by
  have hIc := hI.1
  obtain ⟨_, _, hdu, _, _⟩ := covStep_spec D sh σ r hIc hrn hlive
  have h1 : is_removed_ud σ r = false := by
    simp [is_removed_ud, hdu]
  obtain ⟨hrr, hirow, hsub, hringr⟩ := row_split D sh σ hIc r hrn
  have hpnodes : ∀ y ∈ partsOf D r, y ∈ D.nodes :=
    fun y hy => row_mem_nodes D sh σ hIc _ hrr y (hsub y hy)
  have hpnd : (r :: partsOf D r).Nodup := hringr.2
  have hperm : (r :: partsOf D r).Perm (rowOf D r) :=
    rowRest_perm (rowOf D r) r hirow
  have hndch : ((r :: partsOf D r).map σ.chead).Nodup :=
    ((hperm.map σ.chead).nodup_iff).2 (hIc.rows_chead_nodup _ hrr)
  refine ⟨?_, hndch⟩
  unfold dlx_force_row
  rw [h1]
  simp only [Bool.false_eq_true, if_false]
  have hfold := forceRowLoop_fold D (partsOf D r) fuel fuel sh σ r r hI
    (by
      have hplen : (partsOf D r).length ≤ D.nodes.length :=
        (List.subperm_of_subset (List.nodup_cons.1 hpnd).2 hpnodes).length_le
      omega)
    hf (links_fpath _ _ _ _ hringr.1) hrn
    (fun y hy => by
      rcases List.mem_cons.1 hy with h | h
      · exact h ▸ hrn
      · exact hpnodes y h)
    (fun y hy he => (List.nodup_cons.1 hpnd).1 (he ▸ hy))
    hhd hndch
  rw [hfold]

/-- Claim C3: every column header's count field s equals the number of live
nodes in its column's vertical list.  The invariant holds after matrix
construction (dlx_make_headers plus one dlx_make_row per row) and is
preserved by cover, by a matched cover/uncover pair, by dlx_force_row, by
dlx_unselect_row at the force/unselect matched-pair boundary (where the
unselect call refuses and mutates nothing), and by each of the three search
variants at their call boundaries. -/
theorem s_equals_live_count :
    (∀ (σ : S) (root hbase nh : Nat) (rws : List (Nat × List Nat)),
      2 ≤ nh →
      (∀ i, i < nh → hbase + i ≠ root) →
      (root :: ((List.range nh).map (hbase + ·)
        ++ (rws.map (fun rc => newRowIds rc.1 rc.2.length)).flatten)).Nodup →
      (∀ rc ∈ rws, 2 ≤ rc.2.length ∧ rc.2.Nodup ∧ ∀ c ∈ rc.2, c < nh) →
      (rws.map (fun rc => newRowIds rc.1 rc.2.length)).flatten.length + 1
        < szMod →
      ∃ sh : Shape,
        InvCore (extendDesc ⟨root, (List.range nh).map (hbase + ·), [], []⟩
          rws) sh (buildRows hbase (dlx_make_headers σ root hbase nh) rws) ∧
        ∀ c ∈ (List.range nh).map (hbase + ·),
          (buildRows hbase (dlx_make_headers σ root hbase nh) rws).s c
            = (sh.col c).length) ∧
    (∀ (D : Desc) (sh : Shape) (σ : S) (c fuel : Nat),
      Inv D sh σ → c ∈ sh.hdrs → 2 * D.nodes.length + 2 ≤ fuel →
      ∃ sh' : Shape, Inv D sh' (cover fuel σ c) ∧
        ∀ d ∈ D.headers, (cover fuel σ c).s d = (sh'.col d).length) ∧
    (∀ (D : Desc) (sh : Shape) (σ : S) (c fuel : Nat),
      Inv D sh σ → c ∈ sh.hdrs → 2 * D.nodes.length + 2 ≤ fuel →
      uncover fuel (cover fuel σ c) c = σ ∧
        ∀ d ∈ D.headers,
          (uncover fuel (cover fuel σ c) c).s d = (sh.col d).length) ∧
    (∀ (D : Desc) (sh : Shape) (σ : S) (r fuel : Nat),
      Inv D sh σ → r ∈ D.nodes → r ∈ sh.col (σ.chead r) →
      (∀ y ∈ r :: partsOf D r, σ.chead y ∈ sh.hdrs) →
      2 * D.nodes.length + 2 ≤ fuel →
      ∃ sh' : Shape, Inv D sh' (dlx_force_row fuel σ r).2 ∧
        ∀ d ∈ D.headers,
          (dlx_force_row fuel σ r).2.s d = (sh'.col d).length) ∧
    (∀ (D : Desc) (sh : Shape) (σ : S) (r fuel : Nat),
      Inv D sh σ → r ∈ D.nodes → r ∈ sh.col (σ.chead r) →
      (∀ y ∈ r :: partsOf D r, σ.chead y ∈ sh.hdrs) →
      2 * D.nodes.length + 2 ≤ fuel →
      is_removed_ud (dlx_force_row fuel σ r).2 r = false →
      ∃ sh' : Shape,
        Inv D sh' (dlx_unselect_row fuel (dlx_force_row fuel σ r).2 r).2 ∧
        ∀ d ∈ D.headers,
          (dlx_unselect_row fuel (dlx_force_row fuel σ r).2 r).2.s d
            = (sh'.col d).length) ∧
    (∀ (D : Desc) (sh : Shape) (σ : S) (fuel lf : Nat)
        (sol : Nat → Option Nat) (k : Nat),
      Inv D sh σ → RowHdr D sh σ →
      D.headers.length + 2 * D.nodes.length + 3 ≤ lf →
      ∀ res, dlx_exact_cover fuel lf σ D.root sol k = some res →
        ∀ d ∈ D.headers, res.2.1.s d = (sh.col d).length) ∧
    (∀ (D : Desc) (sh : Shape) (σ : S) (fuel lf : Nat)
        (sol : Nat → Option DHint) (base k : Nat),
      Inv D sh σ → RowHdr D sh σ →
      D.headers.length + 2 * D.nodes.length + 3 ≤ lf →
      ∀ res, dlx_exact_cover_hints fuel lf σ D.root sol base k = some res →
        ∀ d ∈ D.headers, res.2.1.s d = (sh.col d).length) ∧
    (∀ (D : Desc) (sh : Shape) (σ : S) (fuel lf k : Nat),
      Inv D sh σ → RowHdr D sh σ →
      D.headers.length + 2 * D.nodes.length + 3 ≤ lf →
      ∀ res, dlx_has_covers fuel lf σ D.root k = some res →
        ∀ d ∈ D.headers, res.2.s d = (sh.col d).length) := by
  refine ⟨?_, ?_, ?_, ?_, ?_, ?_, ?_, ?_⟩
  · intro σ root hbase nh rws hnh hroot hnd hrows hsz
    obtain ⟨hIc0, hAll0⟩ :=
      dlx_make_headers_invcore σ root hbase nh hnh hroot
    obtain ⟨sh', hIc', hAll', hhd'⟩ := build_rows_inv hbase rws
      ⟨root, (List.range nh).map (hbase + ·), [], []⟩
      ⟨(List.range nh).map (hbase + ·), fun _ => []⟩
      (dlx_make_headers σ root hbase nh) hIc0 hAll0 rfl hnd
      (fun rc h => ⟨(hrows rc h).1, (hrows rc h).2.1,
        fun c hc => List.mem_map.2
          ⟨c, List.mem_range.2 ((hrows rc h).2.2 c hc), rfl⟩⟩)
      (by rw [List.length_nil]; omega)
    exact ⟨sh', hIc', fun c hc => hIc'.s_count c hc⟩
  · intro D sh σ c fuel hI hc hf
    obtain ⟨sh', hI', _⟩ := cover_spec D sh σ c fuel hI hc hf
    exact ⟨sh', hI', fun d hd => hI'.1.s_count d hd⟩
  · intro D sh σ c fuel hI hc hf
    have hcan := cover_uncover_cancel D sh σ c fuel hI hc hf
    refine ⟨hcan, ?_⟩
    intro d hd
    rw [hcan]
    exact hI.1.s_count d hd
  · intro D sh σ r fuel hI hrn hlive hhd hf
    obtain ⟨heq, hnd⟩ := forceRow_eq_fold D sh σ r fuel hI hrn hlive hhd hf
    rw [heq]
    have hmem : ∀ d ∈ (r :: partsOf D r).map σ.chead, d ∈ sh.hdrs := by
      intro d hd
      obtain ⟨z, hz, hzd⟩ := List.mem_map.1 hd
      exact hzd ▸ hhd z hz
    obtain ⟨sh', hI', _⟩ := coverChain_spec D ((r :: partsOf D r).map σ.chead)
      sh σ fuel hI hmem hnd hf
    have hfoldeq := List.foldl_map σ.chead (fun t d => cover fuel t d)
      (r :: partsOf D r) σ
    rw [hfoldeq] at hI'
    exact ⟨sh', hI', fun d hd => hI'.1.s_count d hd⟩
  · intro D sh σ r fuel hI hrn hlive hhd hf hrem
    have hun : dlx_unselect_row fuel (dlx_force_row fuel σ r).2 r
        = (-1, (dlx_force_row fuel σ r).2) := by
      unfold dlx_unselect_row
      rw [hrem]
      simp
    rw [hun]
    obtain ⟨heq, hnd⟩ := forceRow_eq_fold D sh σ r fuel hI hrn hlive hhd hf
    rw [heq]
    have hmem : ∀ d ∈ (r :: partsOf D r).map σ.chead, d ∈ sh.hdrs := by
      intro d hd
      obtain ⟨z, hz, hzd⟩ := List.mem_map.1 hd
      exact hzd ▸ hhd z hz
    obtain ⟨sh', hI', _⟩ := coverChain_spec D ((r :: partsOf D r).map σ.chead)
      sh σ fuel hI hmem hnd hf
    have hfoldeq := List.foldl_map σ.chead (fun t d => cover fuel t d)
      (r :: partsOf D r) σ
    rw [hfoldeq] at hI'
    exact ⟨sh', hI', fun d hd => hI'.1.s_count d hd⟩
  · intro D sh σ fuel lf sol k hI hRH hlf res hres d hd
    have hrs := (ecRestore D fuel).1 lf sh σ sol k hI hRH hlf res hres
    rw [hrs]
    exact hI.1.s_count d hd
  · intro D sh σ fuel lf sol base k hI hRH hlf res hres d hd
    have hrs := (echRestore D fuel).1 lf sh σ sol base k hI hRH hlf res hres
    rw [hrs]
    exact hI.1.s_count d hd
  · intro D sh σ fuel lf k hI hRH hlf res hres d hd
    have hrs := (hcRestore D fuel).1 lf sh σ k hI hRH hlf res hres
    rw [hrs]
    exact hI.1.s_count d hd

/-- The count invariant exercised on concrete matrices: construction of a
two-column one-row matrix, and cover, cover/uncover, force_row,
force/unselect, and the three searches on the one-column one-row matrix. -/
theorem s_equals_live_count_witness :
    (∃ sh : Shape,
      InvCore (extendDesc ⟨0, (List.range 2).map (1 + ·), [], []⟩
        [(3, [0, 1])]) sh
        (buildRows 1 (dlx_make_headers blankS 0 1 2) [(3, [0, 1])]) ∧
      ∀ c ∈ (List.range 2).map (1 + ·),
        (buildRows 1 (dlx_make_headers blankS 0 1 2) [(3, [0, 1])]).s c
          = (sh.col c).length) ∧
    (∃ sh' : Shape, Inv tinyD sh' (cover 4 tinyS 1) ∧
      ∀ d ∈ tinyD.headers, (cover 4 tinyS 1).s d = (sh'.col d).length) ∧
    (uncover 4 (cover 4 tinyS 1) 1 = tinyS ∧
      ∀ d ∈ tinyD.headers,
        (uncover 4 (cover 4 tinyS 1) 1).s d = (tinySh.col d).length) ∧
    (∃ sh' : Shape, Inv tinyD sh' (dlx_force_row 4 tinyS 2).2 ∧
      ∀ d ∈ tinyD.headers,
        (dlx_force_row 4 tinyS 2).2.s d = (sh'.col d).length) ∧
    (∃ sh' : Shape,
      Inv tinyD sh' (dlx_unselect_row 4 (dlx_force_row 4 tinyS 2).2 2).2 ∧
      ∀ d ∈ tinyD.headers,
        (dlx_unselect_row 4 (dlx_force_row 4 tinyS 2).2 2).2.s d
          = (sh'.col d).length) ∧
    ((dlx_exact_cover 3 6 tinyS tinyD.root (fun _ => none) 0).map
      (fun p => p.2.1.s 1) = some 1) ∧
    ((dlx_exact_cover_hints 3 6 tinyS tinyD.root (fun _ => none) 0 0).map
      (fun p => p.2.1.s 1) = some 1) ∧
    ((dlx_has_covers 3 6 tinyS tinyD.root 2).map
      (fun p => p.2.s 1) = some 1) := by
  obtain ⟨hCon, hCov, hUnc, hFor, hPair, hEC, hECH, hHC⟩ := s_equals_live_count
  refine ⟨?_, ?_, ?_, ?_, ?_, ?_, ?_, ?_⟩
  · exact hCon blankS 0 1 2 [(3, [0, 1])] (by decide) (by decide) (by decide)
      (by decide) (by decide)
  · exact hCov tinyD tinySh tinyS 1 4 tinyInv (by decide) (by decide)
  · exact hUnc tinyD tinySh tinyS 1 4 tinyInv (by decide) (by decide)
  · exact hFor tinyD tinySh tinyS 2 4 tinyInv (by decide) (by decide)
      (by decide) (by decide)
  · exact hPair tinyD tinySh tinyS 2 4 tinyInv (by decide) (by decide)
      (by decide) (by decide) (by decide)
  · have hsome : (dlx_exact_cover 3 6 tinyS tinyD.root
        (fun _ => none) 0).isSome = true := by decide
    obtain ⟨res, heq⟩ := Option.isSome_iff_exists.1 hsome
    rw [heq]
    show some (res.2.1.s 1) = some 1
    have hs := hEC tinyD tinySh tinyS 3 6 (fun _ => none) 0 tinyInv
      (by unfold RowHdr; decide) (by decide) res heq 1 (by decide)
    rw [hs]
    rfl
  · have hsome : (dlx_exact_cover_hints 3 6 tinyS tinyD.root
        (fun _ => none) 0 0).isSome = true := by decide
    obtain ⟨res, heq⟩ := Option.isSome_iff_exists.1 hsome
    rw [heq]
    show some (res.2.1.s 1) = some 1
    have hs := hECH tinyD tinySh tinyS 3 6 (fun _ => none) 0 0 tinyInv
      (by unfold RowHdr; decide) (by decide) res heq 1 (by decide)
    rw [hs]
    rfl
  · have hsome : (dlx_has_covers 3 6 tinyS tinyD.root 2).isSome = true := by
      decide
    obtain ⟨res, heq⟩ := Option.isSome_iff_exists.1 hsome
    rw [heq]
    show some (res.2.s 1) = some 1
    have hs := hHC tinyD tinySh tinyS 3 6 2 tinyInv
      (by unfold RowHdr; decide) (by decide) res heq 1 (by decide)
    rw [hs]
    rfl

/-- An empty right self-loop at the root means the header list is empty. -/
theorem hdrs_nil_of_root_loop (D : Desc) (sh : Shape) (σ : S)
    (hIc : InvCore D sh σ) (h : σ.right D.root = D.root) : sh.hdrs = [] := by
  cases hh : sh.hdrs with
  | nil => rfl
  | cons x l =>
    have hring := hIc.hdr_ring
    rw [hh] at hring
    obtain ⟨hlk, hnd⟩ := hring
    have hlk' : σ.right D.root = x ∧ σ.left x = D.root
        ∧ links σ.right σ.left x (l ++ [D.root]) := hlk
    have hx : x = D.root := by rw [← h, hlk'.1]
    rw [List.nodup_cons] at hnd
    exact absurd (hx ▸ List.mem_cons_self x l) hnd.1

/-- In a duplicate-free flattening, an element pins down its block. -/
theorem flatten_nodup_unique :
    ∀ (L : List (List Nat)), L.flatten.Nodup →
      ∀ r1 ∈ L, ∀ r2 ∈ L, ∀ x : Nat, x ∈ r1 → x ∈ r2 → r1 = r2 := by
  intro L
  induction L with
  | nil =>
    intro _ r1 h1
    exact absurd h1 (List.not_mem_nil r1)
  | cons r L' ih =>
    intro hnd r1 h1 r2 h2 x hx1 hx2
    rw [List.flatten_cons] at hnd
    obtain ⟨hndr, hndf, hdisj⟩ := List.nodup_append.1 hnd
    rcases List.mem_cons.1 h1 with h1 | h1 <;>
      rcases List.mem_cons.1 h2 with h2 | h2
    · rw [h1, h2]
    · exact absurd (List.mem_flatten.2 ⟨r2, h2, hx2⟩) (hdisj (h1 ▸ hx1))
    · exact absurd (List.mem_flatten.2 ⟨r1, h1, hx1⟩) (hdisj (h2 ▸ hx2))
    · exact ih hndf r1 h1 r2 h2 x hx1 hx2

/-- rowOf inverts row membership: a node of a known row is found in exactly
that row. -/
theorem rowOf_eq (D : Desc) (sh : Shape) (σ : S) (hIc : InvCore D sh σ)
    (r : List Nat) (hr : r ∈ D.rows) (x : Nat) (hx : x ∈ r) :
    rowOf D x = r := by
  have hxn : x ∈ D.nodes := row_mem_nodes D sh σ hIc r hr x hx
  obtain ⟨hrr, hxrow, _, _⟩ := row_split D sh σ hIc x hxn
  have hndf : D.rows.flatten.Nodup :=
    (hIc.rows_nodes.nodup_iff).2 hIc.node_nodup
  exact flatten_nodup_unique D.rows hndf (rowOf D x) hrr r hr x hxrow hx

/-- Covering a chain of live columns: besides preserving the invariant, the
chain never grows a column, keeps every node whose row touches none of the
covered columns, and leaves every column tag unchanged. -/
theorem coverChainCols (D : Desc) :
    ∀ (L : List Nat) (sh : Shape) (σ : S) (cf : Nat),
      Inv D sh σ → (∀ d ∈ L, d ∈ sh.hdrs) → L.Nodup →
      2 * D.nodes.length + 2 ≤ cf →
      ∃ sh' : Shape,
        Inv D sh' (L.foldl (fun t d => cover cf t d) σ) ∧
        (RowHdr D sh σ → RowHdr D sh' (L.foldl (fun t d => cover cf t d) σ)) ∧
        (∀ d, d ∈ sh'.hdrs ↔ (d ∈ sh.hdrs ∧ d ∉ L)) ∧
        (L.foldl (fun t d => cover cf t d) σ).chead = σ.chead ∧
        (∀ d x, x ∈ sh'.col d → x ∈ sh.col d) ∧
        (∀ x, x ∈ D.nodes → x ∈ sh.col (σ.chead x) →
          (∀ j, j ∈ rowOf D x → σ.chead j ∉ L) →
          x ∈ sh'.col (σ.chead x)) := by
  intro L
  induction L with
  | nil =>
    intro sh σ cf hI _ _ _
    exact ⟨sh, hI, fun h => h, fun d => by simp, rfl,
      fun d x hx => hx, fun x _ hx _ => hx⟩
  | cons d0 L' ih =>
    intro sh σ cf hI hmem hnd hcf
    have hhdnd : sh.hdrs.Nodup := (List.nodup_cons.1 hI.1.hdr_ring.2).2
    obtain ⟨sh1, hI1, hRH1, hhd1, hcolc1, hsub1, hch1, hiv1, hframe1,
      hdu1, hs1, hkeep1⟩ := cover_spec D sh σ d0 cf hI
        (hmem d0 (List.mem_cons_self _ _)) hcf
    have hndc := List.nodup_cons.1 hnd
    have hmem1 : ∀ d ∈ L', d ∈ sh1.hdrs := by
      intro d hd
      rw [hhd1]
      exact (List.mem_erase_of_ne (fun h : d = d0 => hndc.1 (h ▸ hd))).2
        (hmem d (List.mem_cons_of_mem _ hd))
    obtain ⟨sh2, hI2, hRH2, hiff2, hch2, hsub2, hkeep2⟩ :=
      ih sh1 (cover cf σ d0) cf hI1 hmem1 hndc.2 hcf
    refine ⟨sh2, ?_, ?_, ?_, ?_, ?_, ?_⟩
    · rw [List.foldl_cons]
      exact hI2
    · intro hRH
      rw [List.foldl_cons]
      exact hRH2 (hRH1 hRH)
    · intro d
      rw [hiff2 d, hhd1, hhdnd.mem_erase_iff]
      constructor
      · rintro ⟨⟨hd0, hdh⟩, hdL⟩
        refine ⟨hdh, ?_⟩
        intro hmem2
        rcases List.mem_cons.1 hmem2 with h | h
        · exact hd0 h
        · exact hdL h
      · rintro ⟨hdh, hdL⟩
        exact ⟨⟨fun h => hdL (h ▸ List.mem_cons_self _ _), hdh⟩,
          fun h => hdL (List.mem_cons_of_mem _ h)⟩
    · rw [List.foldl_cons, hch2, hch1]
    · intro d x hx
      exact hsub1 d x (hsub2 d x hx)
    · intro x hxn hxl hrow
      have hxrem : x ∉ remList D sh d0 := by
        intro hmem2
        obtain ⟨i, hicol, hji⟩ := List.mem_flatMap.1 hmem2
        have hd0H : d0 ∈ D.headers :=
          hI.1.hdrs_sub d0 (hmem d0 (List.mem_cons_self _ _))
        have hiN : i ∈ D.nodes := hI.1.col_sub d0 hd0H i hicol
        obtain ⟨hrr, hirow, hpsub, _⟩ := row_split D sh σ hI.1 i hiN
        have hxri : x ∈ rowOf D i := hpsub x hji
        have hri : rowOf D x = rowOf D i :=
          rowOf_eq D sh σ hI.1 (rowOf D i) hrr x hxri
        have hchi : σ.chead i = d0 := hI.1.col_chead d0 hd0H i hicol
        exact hrow i (hri ▸ hirow) (hchi ▸ List.mem_cons_self d0 L')
      have hx1 : x ∈ sh1.col (σ.chead x) := hkeep1 (σ.chead x) x hxl hxrem
      have hx2 := hkeep2 x hxn (by rw [hch1]; exact hx1)
        (by
          rw [hch1]
          intro j hj
          exact fun hc => hrow j hj (List.mem_cons_of_mem _ hc))
      rw [hch1] at hx2
      exact hx2

/-- Shape bookkeeping for one row guess of the search: covering the other
columns of the chosen row removes exactly those columns from the header
list, never grows a column, and keeps every row that touches none of them.
The covered columns are pairwise distinct live headers. -/
theorem rowLoopCols (D : Desc) (sh : Shape) (σ : S) (c y : Nat) (lf : Nat)
    (hI : Inv D sh σ) (hc : c ∈ D.headers) (hyc : y ∈ sh.col c)
    (hrows : ∀ i1 ∈ sh.col c, ∀ j ∈ partsOf D i1, σ.chead j ∈ sh.hdrs)
    (hlf : D.headers.length + 2 * D.nodes.length + 3 ≤ lf) :
    ∃ shA : Shape,
      Inv D shA ((partsOf D y).foldl (fun t z => cover lf t (σ.chead z)) σ) ∧
      (RowHdr D sh σ → RowHdr D shA
        ((partsOf D y).foldl (fun t z => cover lf t (σ.chead z)) σ)) ∧
      (∀ d, d ∈ shA.hdrs ↔
        d ∈ sh.hdrs ∧ d ∉ (partsOf D y).map σ.chead) ∧
      ((partsOf D y).foldl (fun t z => cover lf t (σ.chead z)) σ).chead
        = σ.chead ∧
      (∀ d x, x ∈ shA.col d → x ∈ sh.col d) ∧
      (∀ x, x ∈ D.nodes → x ∈ sh.col (σ.chead x) →
        (∀ j, j ∈ rowOf D x → σ.chead j ∉ (partsOf D y).map σ.chead) →
        x ∈ shA.col (σ.chead x)) ∧
      ((partsOf D y).map σ.chead).Nodup ∧
      (∀ z ∈ (partsOf D y).map σ.chead, z ∈ sh.hdrs) := by
  have hIc := hI.1
  have hyN : y ∈ D.nodes := hIc.col_sub c hc y hyc
  obtain ⟨hrr, hyrow, hpsub, hringy⟩ := row_split D sh σ hIc y hyN
  have hpnodes : ∀ z ∈ partsOf D y, z ∈ D.nodes :=
    fun z hz => row_mem_nodes D sh σ hIc _ hrr z (hpsub z hz)
  have hpnd : (y :: partsOf D y).Nodup := hringy.2
  have hperm : (y :: partsOf D y).Perm (rowOf D y) :=
    rowRest_perm (rowOf D y) y hyrow
  have hndch : ((y :: partsOf D y).map σ.chead).Nodup :=
    ((hperm.map σ.chead).nodup_iff).2 (hIc.rows_chead_nodup _ hrr)
  have hndp : ((partsOf D y).map σ.chead).Nodup := by
    rw [List.map_cons, List.nodup_cons] at hndch
    exact hndch.2
  have hphd : ∀ z ∈ partsOf D y, σ.chead z ∈ sh.hdrs := hrows y hyc
  have hmemL : ∀ d ∈ (partsOf D y).map σ.chead, d ∈ sh.hdrs := by
    intro d hd
    obtain ⟨z, hz, hzd⟩ := List.mem_map.1 hd
    exact hzd ▸ hphd z hz
  obtain ⟨shA, hIA, hRHA, hiffA, hchA, hsubA, hkeepA⟩ :=
    coverChainCols D ((partsOf D y).map σ.chead) sh σ lf hI hmemL hndp
      (by omega)
  have hfoldeq : ((partsOf D y).map σ.chead).foldl (fun t d => cover lf t d) σ
      = (partsOf D y).foldl (fun t z => cover lf t (σ.chead z)) σ :=
    List.foldl_map σ.chead (fun t d => cover lf t d) (partsOf D y) σ
  rw [hfoldeq] at hIA hRHA hchA
  exact ⟨shA, hIA, hRHA, hiffA, hchA, hsubA, hkeepA, hndp, hmemL⟩

/-- Gluing one chosen row onto a cover of the shape left after covering its
columns: the row node y of column c together with a cover of the remaining
headers covers c and the pre-guess header list exactly once each. -/
theorem isCover_extend (D : Desc) (sh shA : Shape) (σ σa : S) (c y : Nat)
    (ys : List Nat)
    (hIc : InvCore D sh σ) (hIcA : InvCore D shA σa)
    (hc : c ∈ D.headers) (hyc : y ∈ sh.col c)
    (hiffA : ∀ d, d ∈ shA.hdrs ↔
      d ∈ sh.hdrs ∧ d ∉ (partsOf D y).map σ.chead)
    (hchA : σa.chead = σ.chead)
    (hsubA : ∀ d x, x ∈ shA.col d → x ∈ sh.col d)
    (hndp : ((partsOf D y).map σ.chead).Nodup)
    (hmemL : ∀ z ∈ (partsOf D y).map σ.chead, z ∈ sh.hdrs)
    (hcov : IsCover D shA σa shA.hdrs ys) :
    IsCover D sh σ (c :: sh.hdrs) (y :: ys) := by
  obtain ⟨hlv, hpm⟩ := hcov
  have hyN : y ∈ D.nodes := hIc.col_sub c hc y hyc
  have hchy : σ.chead y = c := hIc.col_chead c hc y hyc
  constructor
  · intro y' hy'
    rcases List.mem_cons.1 hy' with h | h
    · subst h
      exact ⟨hyN, by rw [hchy]; exact hyc⟩
    · obtain ⟨h1, h2⟩ := hlv y' h
      rw [hchA] at h2
      exact ⟨h1, hsubA _ y' h2⟩
  · rw [List.map_cons, List.flatten_cons]
    rw [hchA] at hpm
    obtain ⟨hrr, hyrow, hpsub, hringy⟩ := row_split D sh σ hIc y hyN
    have hperm : (y :: partsOf D y).Perm (rowOf D y) :=
      rowRest_perm (rowOf D y) y hyrow
    have hAnd : shA.hdrs.Nodup := (List.nodup_cons.1 hIcA.hdr_ring.2).2
    have hshnd : sh.hdrs.Nodup := (List.nodup_cons.1 hIc.hdr_ring.2).2
    have hpermH : ((partsOf D y).map σ.chead ++ shA.hdrs).Perm sh.hdrs := by
      apply (List.perm_ext_iff_of_nodup ?_ hshnd).2
      · intro a
        rw [List.mem_append, hiffA a]
        constructor
        · rintro (h | ⟨h, _⟩)
          · exact hmemL a h
          · exact h
        · intro h
          by_cases hA : a ∈ (partsOf D y).map σ.chead
          · exact Or.inl hA
          · exact Or.inr ⟨h, hA⟩
      · rw [List.nodup_append]
        exact ⟨hndp, hAnd, fun a ha ha2 => ((hiffA a).1 ha2).2 ha⟩
    have hbig : ((rowOf D y).map σ.chead
          ++ (ys.map (fun z => (rowOf D z).map σ.chead)).flatten).Perm
        ((y :: partsOf D y).map σ.chead
          ++ (ys.map (fun z => (rowOf D z).map σ.chead)).flatten) :=
      ((hperm.map σ.chead).symm).append_right _
    rw [List.map_cons, List.cons_append] at hbig
    have hflat2 : ((partsOf D y).map σ.chead
          ++ (ys.map (fun z => (rowOf D z).map σ.chead)).flatten).Perm
        ((partsOf D y).map σ.chead ++ shA.hdrs) :=
      List.Perm.append_left _ hpm
    have htail := (hflat2.trans hpermH).cons (σ.chead y)
    have hfin := hbig.trans htail
    rw [hchy] at hfin
    exact hfin

/-- Removing the guessed column from the ledger: a cover of the covered
shape extended with c is a cover of the original header list. -/
theorem isCover_up (D : Desc) (sh sh1 : Shape) (σ σ1 : S) (c : Nat)
    (ys : List Nat) (hcH : c ∈ sh.hdrs)
    (hhd1 : sh1.hdrs = sh.hdrs.erase c)
    (hch1 : σ1.chead = σ.chead)
    (hsub1 : ∀ d x, x ∈ sh1.col d → x ∈ sh.col d)
    (hcov : IsCover D sh1 σ1 (c :: sh1.hdrs) ys) :
    IsCover D sh σ sh.hdrs ys := by
  obtain ⟨hlv, hpm⟩ := hcov
  constructor
  · intro y hy
    obtain ⟨h1, h2⟩ := hlv y hy
    rw [hch1] at h2
    exact ⟨h1, hsub1 _ y h2⟩
  · rw [hch1, hhd1] at hpm
    exact hpm.trans (List.perm_cons_erase hcH).symm

/-- Soundness of dlx_exact_cover and its row loop: solution entries below
the call depth are untouched, and a positive return value reports an exact
cover of the live headers, with the chosen row nodes recorded in order from
the call depth on. -/
theorem ecSound (D : Desc) :
    ∀ (fuel : Nat),
      (∀ (lf : Nat) (sh : Shape) (σ : S) (sol : Nat → Option Nat) (k : Nat),
        Inv D sh σ → RowHdr D sh σ →
        D.headers.length + 2 * D.nodes.length + 3 ≤ lf →
        ∀ res, dlx_exact_cover fuel lf σ D.root sol k = some res →
          (∀ x, x < k → res.2.2 x = sol x) ∧
          (0 < res.1 →
            ∃ ys : List Nat, IsCover D sh σ sh.hdrs ys ∧
              res.1 = k + ys.length ∧
              ∀ (j : Nat) (hj : j < ys.length),
                res.2.2 (k + j) = some (ys.get ⟨j, hj⟩))) ∧
      (∀ (lf : Nat) (sh : Shape) (σ : S) (sol : Nat → Option Nat)
          (k c i : Nat) (Q : List Nat),
        Inv D sh σ → RowHdr D sh σ →
        D.headers.length + 2 * D.nodes.length + 3 ≤ lf →
        c ∈ D.headers →
        (∀ i1 ∈ sh.col c, ∀ j ∈ partsOf D i1, σ.chead j ∈ sh.hdrs) →
        fpath σ.down i (Q ++ [c]) →
        (∀ y ∈ Q, y ∈ sh.col c) →
        ∀ res, dlxECLoop fuel lf σ D.root sol k c i = some res →
          (∀ x, x < k → res.2.2 x = sol x) ∧
          (0 < res.1 →
            ∃ y ys, y ∈ Q ∧
              IsCover D sh σ (c :: sh.hdrs) (y :: ys) ∧
              res.1 = k + 1 + ys.length ∧
              res.2.2 k = some y ∧
              ∀ (j : Nat) (hj : j < ys.length),
                res.2.2 (k + 1 + j) = some (ys.get ⟨j, hj⟩))) := by
  intro fuel
  induction fuel with
  | zero =>
    constructor
    · intro lf sh σ sol k _ _ _ res hres
      simp [dlx_exact_cover] at hres
    · intro lf sh σ sol k c i Q _ _ _ _ _ _ _ res hres
      simp [dlxECLoop] at hres
  | succ fuel ih =>
    constructor
    · intro lf sh σ sol k hI hRH hlf res hres
      by_cases hroot : σ.right D.root = D.root
      · unfold dlx_exact_cover at hres
        rw [if_pos hroot] at hres
        rw [Option.some.injEq] at hres
        rw [← hres]
        refine ⟨fun x _ => rfl, ?_⟩
        intro _
        have hnil : sh.hdrs = [] := hdrs_nil_of_root_loop D sh σ hI.1 hroot
        refine ⟨[], ⟨fun y hy => absurd hy (List.not_mem_nil y), ?_⟩,
          rfl, ?_⟩
        · rw [hnil]
          exact List.Perm.nil
        · intro j hj
          rw [List.length_nil] at hj
          exact absurd hj (by omega)
      · unfold dlx_exact_cover at hres
        rw [if_neg hroot] at hres
        cases hmin : min_hnode_s lf σ D.root with
        | none => rw [hmin] at hres; simp at hres
        | some c =>
          simp only [hmin] at hres
          have hcH : c ∈ sh.hdrs := minCol_live D sh σ lf c hI.1
            (by have := hdrs_len_le D sh σ hI.1; omega) hmin
          have hcHd : c ∈ D.headers := hI.1.hdrs_sub c hcH
          obtain ⟨sh1, hI1, hRH1, hhd1, hcolc1, hsub1, hch1, hiv1, hframe1,
            hdu1, hs1, _⟩ := cover_spec D sh σ c lf hI hcH (by omega)
          have hrows1 : ∀ i1 ∈ sh1.col c, ∀ j ∈ partsOf D i1,
              (cover lf σ c).chead j ∈ sh1.hdrs := by
            intro i1 hi1 j hj
            rw [hcolc1] at hi1
            have hi1N : i1 ∈ D.nodes := hI.1.col_sub c hcHd i1 hi1
            obtain ⟨hrr, hirow, hpsub, _⟩ := row_split D sh σ hI.1 i1 hi1N
            have hchi1 : σ.chead i1 = c := hI.1.col_chead c hcHd i1 hi1
            have hjh : σ.chead j ∈ sh.hdrs := by
              apply hRH (rowOf D i1) hrr i1 hirow ?_ ?_ j (hpsub j hj)
              · rw [hchi1]; exact hi1
              · rw [hchi1]; exact hcH
            have hjrem : j ∈ remList D sh c :=
              List.mem_flatMap.2 ⟨i1, hi1, hj⟩
            obtain ⟨_, _, hJc⟩ := remList_facts D sh σ c hI.1 hI.2 hcH hcHd
            have hjc : σ.chead j ≠ c := hJc j hjrem
            rw [hch1, hhd1]
            exact (List.mem_erase_of_ne hjc).2 hjh
          have hfp1 : fpath (cover lf σ c).down c (sh1.col c ++ [c]) :=
            links_fpath _ _ _ _ (hI1.1.col_ring c hcHd).1
          cases hloop : dlxECLoop fuel lf (cover lf σ c) D.root sol k c c with
          | none => rw [hloop] at hres; simp at hres
          | some t =>
            obtain ⟨n, σ2, sol2⟩ := t
            simp only [hloop] at hres
            have hLS := ih.2 lf sh1 (cover lf σ c) sol k c c (sh1.col c)
              hI1 (hRH1 hRH) hlf hcHd hrows1 hfp1 (fun y hy => hy)
              (n, σ2, sol2) hloop
            rw [Option.some.injEq] at hres
            rw [← hres]
            refine ⟨fun x hx => hLS.1 x hx, ?_⟩
            intro hn
            obtain ⟨y, ys, hyQ, hcov, hlen, hrec0, hrecj⟩ :=
              hLS.2 (by exact hn)
            refine ⟨y :: ys, ?_, ?_, ?_⟩
            · exact isCover_up D sh sh1 σ (cover lf σ c) c (y :: ys) hcH
                hhd1 hch1 hsub1 hcov
            · rw [List.length_cons]
              omega
            · intro j hj
              cases j with
              | zero => exact hrec0
              | succ j' =>
                have he : k + (j' + 1) = k + 1 + j' := by omega
                rw [he]
                rw [List.length_cons] at hj
                exact hrecj j' (by omega)
    · intro lf sh σ sol k c i Q hI hRH hlf hc hrows hfp hQ res hres
      cases Q with
      | nil =>
        obtain ⟨h1, _⟩ := hfp
        unfold dlxECLoop at hres
        rw [h1, if_pos rfl] at hres
        rw [Option.some.injEq] at hres
        rw [← hres]
        refine ⟨fun x _ => rfl, ?_⟩
        intro h
        exact absurd h (lt_irrefl 0)
      | cons y Q' =>
        obtain ⟨h1, h2⟩ := hfp
        have hyc : y ∈ sh.col c := hQ y (List.mem_cons_self _ _)
        have hyN : y ∈ D.nodes := hI.1.col_sub c hc y hyc
        have hync : y ≠ c :=
          fun h => hI.1.hdr_node_disj c hc (h ▸ hyN)
        obtain ⟨hfoldO, hunwO, _⟩ :=
          rowLoopStep D sh σ c y lf hI hc hyc hrows hlf
        obtain ⟨shA, hIA, hRHA, hiffA, hchA, hsubA, hkeepA, hndp, hmemL⟩ :=
          rowLoopCols D sh σ c y lf hI hc hyc hrows hlf
        unfold dlxECLoop at hres
        rw [h1, if_neg hync, hfoldO] at hres
        cases hrec : dlx_exact_cover fuel lf
            ((partsOf D y).foldl (fun t z => cover lf t (σ.chead z)) σ)
            D.root (updO sol k y) (k + 1) with
        | none => simp [hrec] at hres
        | some t2 =>
          obtain ⟨n, σb, sol2⟩ := t2
          simp only [hrec] at hres
          have hσb := (ecRestore D fuel).1 lf shA
            ((partsOf D y).foldl (fun t z => cover lf t (σ.chead z)) σ)
            (updO sol k y) (k + 1) hIA (hRHA hRH) hlf (n, σb, sol2) hrec
          simp only at hσb
          simp only [hσb, hunwO] at hres
          have hSub := (ih.1) lf shA
            ((partsOf D y).foldl (fun t z => cover lf t (σ.chead z)) σ)
            (updO sol k y) (k + 1) hIA (hRHA hRH) hlf (n, σb, sol2) hrec
          have hframe2 : ∀ x, x < k → sol2 x = sol x := by
            intro x hx
            have h3 := hSub.1 x (by omega)
            have h4 : updO sol k y x = sol x := by
              unfold updO
              rw [if_neg (by omega)]
            exact h3.trans h4
          by_cases hn : n > 0
          · rw [if_pos hn] at hres
            rw [Option.some.injEq] at hres
            rw [← hres]
            refine ⟨fun x hx => hframe2 x hx, ?_⟩
            intro _
            obtain ⟨ys, hcovA, hlenA, hrecA⟩ := hSub.2 hn
            refine ⟨y, ys, List.mem_cons_self _ _, ?_, hlenA, ?_, hrecA⟩
            · exact isCover_extend D sh shA σ
                ((partsOf D y).foldl (fun t z => cover lf t (σ.chead z)) σ)
                c y ys hI.1 hIA.1 hc hyc hiffA hchA hsubA hndp hmemL hcovA
            · have h5 := hSub.1 k (by omega)
              rw [h5]
              unfold updO
              rw [if_pos rfl]
          · rw [if_neg hn] at hres
            have htail := ih.2 lf sh σ sol2 k c y Q' hI hRH hlf hc hrows h2
              (fun z hz => hQ z (List.mem_cons_of_mem _ hz)) res hres
            refine ⟨?_, ?_⟩
            · intro x hx
              exact (htail.1 x hx).trans (hframe2 x hx)
            · intro hp
              obtain ⟨y', ys, hy'Q', hcov, hlen, hrec0, hrecj⟩ := htail.2 hp
              exact ⟨y', ys, List.mem_cons_of_mem _ hy'Q', hcov, hlen,
                hrec0, hrecj⟩

/-- Reordering the chosen rows preserves the cover property. -/
theorem isCover_perm (D : Desc) (sh : Shape) (σ : S) (hd : List Nat)
    (ys ys2 : List Nat) (hp : ys.Perm ys2) (h : IsCover D sh σ hd ys) :
    IsCover D sh σ hd ys2 := by
  obtain ⟨hlv, hpm⟩ := h
  refine ⟨fun y hy => hlv y ((hp.mem_iff).2 hy), ?_⟩
  have h2 : (ys2.flatMap (fun y => (rowOf D y).map σ.chead)).Perm
      (ys.flatMap (fun y => (rowOf D y).map σ.chead)) :=
    (hp.symm).flatMap_right _
  have h3 : ((ys2.map (fun y => (rowOf D y).map σ.chead)).flatten).Perm
      ((ys.map (fun y => (rowOf D y).map σ.chead)).flatten) := h2
  exact h3.trans hpm

/-- Once the running candidate of the column scan is set, the scan returns
a candidate. -/
theorem minHLoop_isSome :
    ∀ (fuel : Nat) (σ : S) (h i m c0 : Nat),
      ∃ c, minHLoop fuel σ h i m (some c0) = some c := by
  intro fuel
  induction fuel with
  | zero => intro σ h i m c0; exact ⟨c0, rfl⟩
  | succ fuel ih =>
    intro σ h i m c0
    show ∃ c, (if σ.right i = h then some c0
      else if σ.s (σ.right i) < m
        then minHLoop fuel σ h (σ.right i) (σ.s (σ.right i)) (some (σ.right i))
        else minHLoop fuel σ h (σ.right i) m (some c0)) = some c
    by_cases h1 : σ.right i = h
    · exact ⟨c0, by rw [if_pos h1]⟩
    · by_cases h2 : σ.s (σ.right i) < m
      · obtain ⟨c, hc⟩ := ih σ h (σ.right i) (σ.s (σ.right i)) (σ.right i)
        exact ⟨c, by rw [if_neg h1, if_pos h2]; exact hc⟩
      · obtain ⟨c, hc⟩ := ih σ h (σ.right i) m c0
        exact ⟨c, by rw [if_neg h1, if_neg h2]; exact hc⟩

/-- On a matrix with a live header and small column counts the column scan
returns a column. -/
theorem min_some (D : Desc) (sh : Shape) (σ : S) (lf : Nat)
    (hIc : InvCore D sh σ) (hne : sh.hdrs ≠ [])
    (hsmall : D.nodes.length < 2 ^ 32 - 1)
    (hlf : 1 ≤ lf) :
    ∃ c, min_hnode_s lf σ D.root = some c := by
  cases hh : sh.hdrs with
  | nil => exact absurd hh hne
  | cons x rest =>
    have hring := hIc.hdr_ring
    rw [hh] at hring
    obtain ⟨hlk, hnd⟩ := hring
    have hlk' : σ.right D.root = x ∧ σ.left x = D.root
        ∧ links σ.right σ.left x (rest ++ [D.root]) := hlk
    have hxh : x ∈ sh.hdrs := hh ▸ List.mem_cons_self x rest
    have hxH : x ∈ D.headers := hIc.hdrs_sub x hxh
    have hxroot : x ≠ D.root := by
      rw [List.nodup_cons] at hnd
      intro he
      exact hnd.1 (he ▸ List.mem_cons_self x rest)
    have hsx : σ.s x < 2 ^ 32 - 1 := by
      have hcnt := hIc.s_count x hxH
      have hnd2 : (sh.col x).Nodup := (List.nodup_cons.1 (hIc.col_ring x hxH).2).2
      have hsub : ∀ z ∈ sh.col x, z ∈ D.nodes := hIc.col_sub x hxH
      have hlen := (List.subperm_of_subset hnd2 hsub).length_le
      omega
    obtain ⟨l, rfl⟩ : ∃ l, lf = l + 1 := ⟨lf - 1, by omega⟩
    obtain ⟨c, hc⟩ := minHLoop_isSome l σ D.root x (σ.s x) x
    refine ⟨c, ?_⟩
    show minHLoop (l + 1) σ D.root D.root (2 ^ 32 - 1) none = some c
    show (if σ.right D.root = D.root then none
      else if σ.s (σ.right D.root) < 2 ^ 32 - 1
        then minHLoop l σ D.root (σ.right D.root) (σ.s (σ.right D.root))
          (some (σ.right D.root))
        else minHLoop l σ D.root (σ.right D.root) (2 ^ 32 - 1) none) = some c
    rw [hlk'.1, if_neg hxroot, if_pos hsx]
    exact hc

/-- Pushing an exact cover through the cover of the chosen column: the
cover owns exactly one row claiming c; re-representing that row by its
column-c node z, the whole cover stays live after cover(c) and covers c
plus the remaining headers. -/
theorem isCover_descend (D : Desc) (sh sh1 : Shape) (σ σ1 : S) (c : Nat)
    (ys : List Nat) (hI : Inv D sh σ)
    (hcH : c ∈ sh.hdrs)
    (hhd1 : sh1.hdrs = sh.hdrs.erase c)
    (hcolc1 : sh1.col c = sh.col c)
    (hch1 : σ1.chead = σ.chead)
    (hkeep : ∀ d x, x ∈ sh.col d → x ∉ remList D sh c → x ∈ sh1.col d)
    (hcov : IsCover D sh σ sh.hdrs ys) :
    ∃ z ys', z ∈ sh1.col c ∧ σ1.chead z = c ∧
      IsCover D sh1 σ1 (c :: sh1.hdrs) (z :: ys') := by
  have hIc := hI.1
  have hcHd : c ∈ D.headers := hIc.hdrs_sub c hcH
  have hshnd : sh.hdrs.Nodup := (List.nodup_cons.1 hIc.hdr_ring.2).2
  obtain ⟨hlv, hpm⟩ := hcov
  have hcfl : c ∈ (ys.map (fun y => (rowOf D y).map σ.chead)).flatten :=
    (hpm.mem_iff).2 hcH
  obtain ⟨blk, hblkmem, hcblk⟩ := List.mem_flatten.1 hcfl
  obtain ⟨ystar, hystar, hfeq⟩ := List.mem_map.1 hblkmem
  rw [← hfeq] at hcblk
  obtain ⟨z, hzrow, hchz⟩ := List.mem_map.1 hcblk
  obtain ⟨hyN, hylive⟩ := hlv ystar hystar
  obtain ⟨hrr, hysrow, _, _⟩ := row_split D sh σ hIc ystar hyN
  have hchys_h : σ.chead ystar ∈ sh.hdrs := by
    apply (hpm.mem_iff).1
    exact List.mem_flatten.2 ⟨(rowOf D ystar).map σ.chead,
      List.mem_map.2 ⟨ystar, hystar, rfl⟩,
      List.mem_map.2 ⟨ystar, hysrow, rfl⟩⟩
  have hallive := hI.2 (rowOf D ystar) hrr ystar hysrow hylive hchys_h
  have hzlive : z ∈ sh.col c := hchz ▸ hallive z hzrow
  have hzN : z ∈ D.nodes := row_mem_nodes D sh σ hIc _ hrr z hzrow
  have hzrowOf : rowOf D z = rowOf D ystar :=
    rowOf_eq D sh σ hIc (rowOf D ystar) hrr z hzrow
  have hysperm : ys.Perm (ystar :: ys.erase ystar) :=
    List.perm_cons_erase hystar
  have hcov2 := isCover_perm D sh σ sh.hdrs ys (ystar :: ys.erase ystar)
    hysperm ⟨hlv, hpm⟩
  obtain ⟨hlv2, hpm2⟩ := hcov2
  rw [List.map_cons, List.flatten_cons] at hpm2
  have hflnd : ((rowOf D ystar).map σ.chead
      ++ ((ys.erase ystar).map
        (fun y => (rowOf D y).map σ.chead)).flatten).Nodup :=
    (hpm2.nodup_iff).2 hshnd
  have hdisj := (List.nodup_append.1 hflnd).2.2
  have hcnotrest : c ∉ ((ys.erase ystar).map
      (fun y => (rowOf D y).map σ.chead)).flatten := by
    apply hdisj
    exact hcblk
  refine ⟨z, ys.erase ystar, ?_, ?_, ?_, ?_⟩
  · rw [hcolc1]
    exact hzlive
  · rw [hch1]
    exact hchz
  · intro w hw
    rcases List.mem_cons.1 hw with h | h
    · subst h
      refine ⟨hzN, ?_⟩
      rw [hch1, hchz, hcolc1]
      exact hzlive
    · have hwys : w ∈ ys := List.mem_of_mem_erase h
      obtain ⟨hwN, hwlive⟩ := hlv w hwys
      refine ⟨hwN, ?_⟩
      rw [hch1]
      apply hkeep (σ.chead w) w hwlive
      intro hwrem
      obtain ⟨i, hicol, hwparts⟩ := List.mem_flatMap.1 hwrem
      have hiN : i ∈ D.nodes := hIc.col_sub c hcHd i hicol
      have hchi : σ.chead i = c := hIc.col_chead c hcHd i hicol
      obtain ⟨hrri, hirowi, hpsubi, _⟩ := row_split D sh σ hIc i hiN
      have hwrow : w ∈ rowOf D i := hpsubi w hwparts
      have hweq : rowOf D w = rowOf D i :=
        rowOf_eq D sh σ hIc (rowOf D i) hrri w hwrow
      apply hcnotrest
      apply List.mem_flatten.2
      refine ⟨(rowOf D w).map σ.chead, List.mem_map.2 ⟨w, h, rfl⟩, ?_⟩
      rw [hweq, ← hchi]
      exact List.mem_map.2 ⟨i, hirowi, rfl⟩
  · rw [hch1, hhd1, List.map_cons, List.flatten_cons, hzrowOf]
    exact hpm2.trans (List.perm_cons_erase hcH)

/-- Pushing an exact cover one guess deeper: once the chosen row's columns
are covered, the remaining chosen rows are still live and cover exactly the
remaining headers. -/
theorem isCover_step_down (D : Desc) (sh shA : Shape) (σ σa : S) (c z : Nat)
    (ys : List Nat) (hIc : InvCore D sh σ)
    (hcnot : c ∉ sh.hdrs) (hc : c ∈ D.headers)
    (hzc : z ∈ sh.col c)
    (hiffA : ∀ d, d ∈ shA.hdrs ↔
      d ∈ sh.hdrs ∧ d ∉ (partsOf D z).map σ.chead)
    (hchA : σa.chead = σ.chead)
    (hkeepA : ∀ x, x ∈ D.nodes → x ∈ sh.col (σ.chead x) →
      (∀ j, j ∈ rowOf D x → σ.chead j ∉ (partsOf D z).map σ.chead) →
      x ∈ shA.col (σ.chead x))
    (hAnd : shA.hdrs.Nodup)
    (hcov : IsCover D sh σ (c :: sh.hdrs) (z :: ys)) :
    IsCover D shA σa shA.hdrs ys := by
  have hshnd : sh.hdrs.Nodup := (List.nodup_cons.1 hIc.hdr_ring.2).2
  have hchz : σ.chead z = c := hIc.col_chead c hc z hzc
  have hzN : z ∈ D.nodes := hIc.col_sub c hc z hzc
  obtain ⟨hrr, hzrow, hpsubz, hringz⟩ := row_split D sh σ hIc z hzN
  have hblkz : ((σ.chead z :: (partsOf D z).map σ.chead)).Perm
      ((rowOf D z).map σ.chead) := by
    have := (rowRest_perm (rowOf D z) z hzrow).map σ.chead
    rw [List.map_cons] at this
    exact this
  obtain ⟨hlv, hpm⟩ := hcov
  rw [List.map_cons, List.flatten_cons] at hpm
  have hhdnd : (c :: sh.hdrs).Nodup := List.nodup_cons.2 ⟨hcnot, hshnd⟩
  have hflnd : ((rowOf D z).map σ.chead
      ++ (ys.map (fun y => (rowOf D y).map σ.chead)).flatten).Nodup :=
    (hpm.nodup_iff).2 hhdnd
  obtain ⟨hndz, hndrest, hdisj⟩ := List.nodup_append.1 hflnd
  have hmemz : ∀ a, a ∈ (rowOf D z).map σ.chead ↔ (a = c
      ∨ a ∈ (partsOf D z).map σ.chead) := by
    intro a
    rw [← (hblkz.mem_iff), List.mem_cons, hchz]
  constructor
  · intro w hw
    obtain ⟨hwN, hwlive⟩ := hlv w (List.mem_cons_of_mem _ hw)
    refine ⟨hwN, ?_⟩
    rw [hchA]
    apply hkeepA w hwN hwlive
    intro j hj hjz
    apply hdisj ((hmemz (σ.chead j)).2 (Or.inr hjz))
    apply List.mem_flatten.2
    refine ⟨(rowOf D w).map σ.chead, List.mem_map.2 ⟨w, hw, rfl⟩, ?_⟩
    have hjw : rowOf D j = rowOf D w := by
      have hwrN : w ∈ D.nodes := hwN
      obtain ⟨hrrw, hwroww, _, _⟩ := row_split D sh σ hIc w hwN
      exact rowOf_eq D sh σ hIc (rowOf D w) hrrw j hj
    rw [← hjw]
    have hjj : j ∈ rowOf D j := by
      rw [hjw]
      exact hj
    exact List.mem_map.2 ⟨j, hjj, rfl⟩
  · rw [hchA]
    have hndfl : (ys.map (fun y => (rowOf D y).map σ.chead)).flatten.Nodup :=
      hndrest
    apply (List.perm_ext_iff_of_nodup hndfl hAnd).2
    intro a
    rw [hiffA a]
    constructor
    · intro ha
      have hacs : a ∈ c :: sh.hdrs :=
        (hpm.mem_iff).1 (List.mem_append_right _ ha)
      have hanz : a ∉ (rowOf D z).map σ.chead :=
        fun h => hdisj h ha
      rcases List.mem_cons.1 hacs with h | h
      · exact absurd ((hmemz a).2 (Or.inl h)) hanz
      · refine ⟨h, ?_⟩
        intro hL
        exact hanz ((hmemz a).2 (Or.inr hL))
    · rintro ⟨hah, haL⟩
      have hacs : a ∈ (rowOf D z).map σ.chead
          ++ (ys.map (fun y => (rowOf D y).map σ.chead)).flatten :=
        (hpm.mem_iff).2 (List.mem_cons_of_mem _ hah)
      rcases List.mem_append.1 hacs with h | h
      · rcases (hmemz a).1 h with h2 | h2
        · exact absurd (h2 ▸ hah) hcnot
        · exact absurd h2 haL
      · exact h

/-- Fuel monotonicity: a search result obtained with some fuel is stable
under any larger fuel. -/
theorem ecMono :
    ∀ (f1 : Nat),
      (∀ (f2 lf : Nat) (σ : S) (root : Nat) (sol : Nat → Option Nat)
          (k : Nat) (res : Nat × S × (Nat → Option Nat)),
        f1 ≤ f2 →
        dlx_exact_cover f1 lf σ root sol k = some res →
        dlx_exact_cover f2 lf σ root sol k = some res) ∧
      (∀ (f2 lf : Nat) (σ : S) (root : Nat) (sol : Nat → Option Nat)
          (k c i : Nat) (res : Nat × S × (Nat → Option Nat)),
        f1 ≤ f2 →
        dlxECLoop f1 lf σ root sol k c i = some res →
        dlxECLoop f2 lf σ root sol k c i = some res) := by
  intro f1
  induction f1 with
  | zero =>
    constructor
    · intro f2 lf σ root sol k res _ hres
      simp [dlx_exact_cover] at hres
    · intro f2 lf σ root sol k c i res _ hres
      simp [dlxECLoop] at hres
  | succ f ih =>
    constructor
    · intro f2 lf σ root sol k res hle hres
      obtain ⟨g, rfl⟩ : ∃ g, f2 = g + 1 := ⟨f2 - 1, by omega⟩
      have hfg : f ≤ g := by omega
      unfold dlx_exact_cover at hres ⊢
      by_cases hroot : σ.right root = root
      · rw [if_pos hroot] at hres ⊢
        exact hres
      · rw [if_neg hroot] at hres ⊢
        cases hmin : min_hnode_s lf σ root with
        | none => rw [hmin] at hres; simp at hres
        | some c =>
          simp only [hmin] at hres ⊢
          cases hloop : dlxECLoop f lf (cover lf σ c) root sol k c c with
          | none => rw [hloop] at hres; simp at hres
          | some t =>
            obtain ⟨n, σ2, sol2⟩ := t
            rw [hloop] at hres
            rw [ih.2 g lf (cover lf σ c) root sol k c c (n, σ2, sol2)
              hfg hloop]
            exact hres
    · intro f2 lf σ root sol k c i res hle hres
      obtain ⟨g, rfl⟩ : ∃ g, f2 = g + 1 := ⟨f2 - 1, by omega⟩
      have hfg : f ≤ g := by omega
      unfold dlxECLoop at hres ⊢
      by_cases h1 : σ.down i = c
      · rw [h1, if_pos rfl] at hres ⊢
        exact hres
      · rw [if_neg h1] at hres ⊢
        cases hrec : dlx_exact_cover f lf
            (coverOthersLoop lf lf σ (σ.down i) (σ.down i)) root
            (updO sol k (σ.down i)) (k + 1) with
        | none => simp [hrec] at hres
        | some t =>
          obtain ⟨n, σb, sol2⟩ := t
          simp only [hrec] at hres
          have hrec2 := ih.1 g lf
            (coverOthersLoop lf lf σ (σ.down i) (σ.down i))
            root (updO sol k (σ.down i)) (k + 1) (n, σb, sol2) hfg hrec
          simp only [hrec2]
          by_cases hn : n > 0
          · rw [if_pos hn] at hres ⊢
            exact hres
          · rw [if_neg hn] at hres ⊢
            exact ih.2 g lf
              (uncoverOthersLoop lf lf σb (σ.down i) (σ.down i)) root
              sol2 k c (σ.down i) res hfg hres

/-- With no live headers, one unit of fuel reaches the success base case. -/
theorem ecBase (D : Desc) (sh : Shape) (σ : S) (sol : Nat → Option Nat)
    (lf k : Nat) (hIc : InvCore D sh σ) (hnil : sh.hdrs = []) :
    dlx_exact_cover 1 lf σ D.root sol k = some (k, σ, sol) := by
  have hring := hIc.hdr_ring
  rw [hnil] at hring
  obtain ⟨hlk, _⟩ := hring
  have hlk' : σ.right D.root = D.root ∧ σ.left D.root = D.root ∧ True := hlk
  unfold dlx_exact_cover
  rw [if_pos hlk'.1]

/-- Completeness and totality of dlx_exact_cover: on a well-formed matrix
some fuel makes the search return, and if an exact cover of the live
headers exists the search reports success (or the trivial empty-matrix
depth). -/
theorem ecComplete (D : Desc) :
    ∀ (N : Nat) (lf : Nat) (sh : Shape) (σ : S) (sol : Nat → Option Nat)
      (k : Nat),
      Inv D sh σ → RowHdr D sh σ →
      D.headers.length + 2 * D.nodes.length + 3 ≤ lf →
      D.nodes.length < 2 ^ 32 - 1 →
      sh.hdrs.length ≤ N →
      ∃ (f0 : Nat) (res : Nat × S × (Nat → Option Nat)),
        dlx_exact_cover f0 lf σ D.root sol k = some res ∧
        ((∃ ys, IsCover D sh σ sh.hdrs ys) →
          0 < res.1 ∨ (sh.hdrs = [] ∧ res.1 = k)) := by
  intro N
  induction N with
  | zero =>
    intro lf sh σ sol k hI _ _ _ hlen
    have hnil : sh.hdrs = [] := by
      cases hh : sh.hdrs with
      | nil => rfl
      | cons a l => rw [hh, List.length_cons] at hlen; omega
    exact ⟨1, (k, σ, sol), ecBase D sh σ sol lf k hI.1 hnil,
      fun _ => Or.inr ⟨hnil, rfl⟩⟩
  | succ N ihN =>
    intro lf sh σ sol k hI hRH hlf hsmall hlen
    by_cases hnil : sh.hdrs = []
    · exact ⟨1, (k, σ, sol), ecBase D sh σ sol lf k hI.1 hnil,
        fun _ => Or.inr ⟨hnil, rfl⟩⟩
    · have hroot : σ.right D.root ≠ D.root :=
        fun h => hnil (hdrs_nil_of_root_loop D sh σ hI.1 h)
      have hshnd : sh.hdrs.Nodup := (List.nodup_cons.1 hI.1.hdr_ring.2).2
      obtain ⟨c, hmin⟩ := min_some D sh σ lf hI.1 hnil hsmall (by omega)
      have hcH : c ∈ sh.hdrs := minCol_live D sh σ lf c hI.1
        (by have := hdrs_len_le D sh σ hI.1; omega) hmin
      have hcHd : c ∈ D.headers := hI.1.hdrs_sub c hcH
      obtain ⟨sh1, hI1, hRH1, hhd1, hcolc1, hsub1, hch1, hiv1, hframe1,
        hdu1, hs1, hkeep1⟩ := cover_spec D sh σ c lf hI hcH (by omega)
      have hRH1' : RowHdr D sh1 (cover lf σ c) := hRH1 hRH
      have hrows1 : ∀ i1 ∈ sh1.col c, ∀ j ∈ partsOf D i1,
          (cover lf σ c).chead j ∈ sh1.hdrs := by
        intro i1 hi1 j hj
        rw [hcolc1] at hi1
        have hi1N : i1 ∈ D.nodes := hI.1.col_sub c hcHd i1 hi1
        obtain ⟨hrr, hirow, hpsub, _⟩ := row_split D sh σ hI.1 i1 hi1N
        have hchi1 : σ.chead i1 = c := hI.1.col_chead c hcHd i1 hi1
        have hjh : σ.chead j ∈ sh.hdrs := by
          apply hRH (rowOf D i1) hrr i1 hirow ?_ ?_ j (hpsub j hj)
          · rw [hchi1]; exact hi1
          · rw [hchi1]; exact hcH
        have hjrem : j ∈ remList D sh c :=
          List.mem_flatMap.2 ⟨i1, hi1, hj⟩
        obtain ⟨_, _, hJc⟩ := remList_facts D sh σ c hI.1 hI.2 hcH hcHd
        have hjc : σ.chead j ≠ c := hJc j hjrem
        rw [hch1, hhd1]
        exact (List.mem_erase_of_ne hjc).2 hjh
      have hfp1 : fpath (cover lf σ c).down c (sh1.col c ++ [c]) :=
        links_fpath _ _ _ _ (hI1.1.col_ring c hcHd).1
      have hcnot1 : c ∉ sh1.hdrs := by
        rw [hhd1]
        exact hshnd.not_mem_erase
      have hs1Len : sh1.hdrs.length = sh.hdrs.length - 1 := by
        rw [hhd1]
        exact List.length_erase_of_mem hcH
      have hpos : 0 < sh.hdrs.length := List.length_pos.2 hnil
      have hloopF : ∀ (Q : List Nat), (∀ y ∈ Q, y ∈ sh1.col c) →
          ∀ (i : Nat), fpath (cover lf σ c).down i (Q ++ [c]) →
          ∀ (sol' : Nat → Option Nat),
          ∃ (f0 : Nat) (res : Nat × S × (Nat → Option Nat)),
            dlxECLoop f0 lf (cover lf σ c) D.root sol' k c i = some res ∧
            ((∃ z ys', z ∈ Q ∧ (cover lf σ c).chead z = c ∧
              IsCover D sh1 (cover lf σ c) (c :: sh1.hdrs) (z :: ys')) →
              0 < res.1) := by
        intro Q
        induction Q with
        | nil =>
          intro _ i hfp sol'
          obtain ⟨h1, _⟩ := hfp
          refine ⟨1, (0, cover lf σ c, sol'), ?_, ?_⟩
          · unfold dlxECLoop
            rw [h1, if_pos rfl]
          · rintro ⟨z, ys', hz, _, _⟩
            exact absurd hz (List.not_mem_nil z)
        | cons y Q' ihQ =>
          intro hQ i hfp sol'
          obtain ⟨h1, h2⟩ := hfp
          have hyc : y ∈ sh1.col c := hQ y (List.mem_cons_self _ _)
          have hyN : y ∈ D.nodes := hI1.1.col_sub c hcHd y hyc
          have hync : y ≠ c :=
            fun h => hI1.1.hdr_node_disj c hcHd (h ▸ hyN)
          obtain ⟨hfoldO, hunwO, _⟩ :=
            rowLoopStep D sh1 (cover lf σ c) c y lf hI1 hcHd hyc hrows1 hlf
          obtain ⟨shA, hIA, hRHA, hiffA, hchA, hsubA, hkeepA, hndp,
            hmemL⟩ :=
            rowLoopCols D sh1 (cover lf σ c) c y lf hI1 hcHd hyc hrows1 hlf
          have hAnd : shA.hdrs.Nodup :=
            (List.nodup_cons.1 hIA.1.hdr_ring.2).2
          have hABound : shA.hdrs.length ≤ N := by
            have hsubh : ∀ a ∈ shA.hdrs, a ∈ sh1.hdrs :=
              fun a ha => ((hiffA a).1 ha).1
            have := (List.subperm_of_subset hAnd hsubh).length_le
            omega
          obtain ⟨fA, resA, heqA, himpA⟩ := ihN lf shA
            ((partsOf D y).foldl
              (fun t z => cover lf t ((cover lf σ c).chead z))
              (cover lf σ c))
            (updO sol' k y) (k + 1) hIA (hRHA hRH1') hlf hsmall hABound
          obtain ⟨n, σb, sol2⟩ := resA
          have hσb := (ecRestore D fA).1 lf shA
            ((partsOf D y).foldl
              (fun t z => cover lf t ((cover lf σ c).chead z))
              (cover lf σ c))
            (updO sol' k y) (k + 1) hIA (hRHA hRH1') hlf (n, σb, sol2) heqA
          simp only at hσb
          obtain ⟨fT, resT, heqT, himpT⟩ := ihQ
            (fun z hz => hQ z (List.mem_cons_of_mem _ hz)) y h2 sol2
          have heqA2 := (ecMono fA).1 (max fA fT) lf
            ((partsOf D y).foldl
              (fun t z => cover lf t ((cover lf σ c).chead z))
              (cover lf σ c))
            D.root (updO sol' k y) (k + 1) (n, σb, sol2)
            (Nat.le_max_left fA fT) heqA
          have heqT2 := (ecMono fT).2 (max fA fT) lf (cover lf σ c) D.root
            sol2 k c y resT (Nat.le_max_right fA fT) heqT
          by_cases hn : 0 < n
          · refine ⟨max fA fT + 1, (n, cover lf σ c, sol2), ?_, fun _ => hn⟩
            unfold dlxECLoop
            rw [h1, if_neg hync, hfoldO]
            simp only [heqA2, hσb, hunwO]
            rw [if_pos hn]
          · refine ⟨max fA fT + 1, resT, ?_, ?_⟩
            · unfold dlxECLoop
              rw [h1, if_neg hync, hfoldO]
              simp only [heqA2, hσb, hunwO]
              rw [if_neg hn]
              exact heqT2
            · rintro ⟨z, ys', hzQ, hchzc, hcov'⟩
              rcases List.mem_cons.1 hzQ with hzy | hzQ'
              · subst hzy
                have hcovA : IsCover D shA
                    ((partsOf D z).foldl
                      (fun t w => cover lf t ((cover lf σ c).chead w))
                      (cover lf σ c)) shA.hdrs ys' :=
                  isCover_step_down D sh1 shA (cover lf σ c) _ c z ys'
                    hI1.1 hcnot1 hcHd hyc hiffA hchA hkeepA hAnd hcov'
                rcases himpA ⟨ys', hcovA⟩ with h | ⟨_, hkn⟩
                · exact absurd h hn
                · omega
              · exact himpT ⟨z, ys', hzQ', hchzc, hcov'⟩
      obtain ⟨fL, resL, heqL, himpL⟩ := hloopF (sh1.col c)
        (fun y hy => hy) c hfp1 sol
      obtain ⟨n, σ2, sol2⟩ := resL
      refine ⟨fL + 1, (n, uncover lf σ2 c, sol2), ?_, ?_⟩
      · unfold dlx_exact_cover
        rw [if_neg hroot]
        simp only [hmin, heqL]
      · rintro ⟨ys, hcov⟩
        obtain ⟨z, ys', hz1, hchz, hcov1⟩ := isCover_descend D sh sh1 σ
          (cover lf σ c) c ys hI hcH hhd1 hcolc1 hch1 hkeep1 hcov
        exact Or.inl (himpL ⟨z, ys', hz1, hchz, hcov1⟩)

/-- Claim C2: functional correctness of dlx_exact_cover at a top-level call
(k = 0).  A positive return value is the number of rows of an exact cover
of the live matrix, with one representative node per chosen row recorded in
solution[0..n); a zero return on a nonempty matrix means no exact cover
exists; conversely, with enough fuel the search returns, reporting success
whenever a cover exists.  Within a frame, the row loop stops at the first
successful recursive return and hands the success upward, where the caller
uncovers its chosen column and propagates the same value. -/
theorem dlx_exact_cover_correct :
    (∀ (D : Desc) (sh : Shape) (σ : S) (fuel lf : Nat)
        (sol : Nat → Option Nat) (res : Nat × S × (Nat → Option Nat)),
      Inv D sh σ → RowHdr D sh σ →
      D.headers.length + 2 * D.nodes.length + 3 ≤ lf →
      dlx_exact_cover fuel lf σ D.root sol 0 = some res →
      0 < res.1 →
      ∃ ys : List Nat, IsCover D sh σ sh.hdrs ys ∧ res.1 = ys.length ∧
        ∀ (j : Nat) (hj : j < ys.length),
          res.2.2 j = some (ys.get ⟨j, hj⟩)) ∧
    (∀ (D : Desc) (sh : Shape) (σ : S) (fuel lf : Nat)
        (sol : Nat → Option Nat) (res : Nat × S × (Nat → Option Nat)),
      Inv D sh σ → RowHdr D sh σ →
      D.headers.length + 2 * D.nodes.length + 3 ≤ lf →
      D.nodes.length < 2 ^ 32 - 1 →
      dlx_exact_cover fuel lf σ D.root sol 0 = some res →
      res.1 = 0 → sh.hdrs ≠ [] →
      ¬∃ ys : List Nat, IsCover D sh σ sh.hdrs ys) ∧
    (∀ (D : Desc) (sh : Shape) (σ : S) (lf : Nat)
        (sol : Nat → Option Nat),
      Inv D sh σ → RowHdr D sh σ →
      D.headers.length + 2 * D.nodes.length + 3 ≤ lf →
      D.nodes.length < 2 ^ 32 - 1 →
      ∃ (f0 : Nat) (res : Nat × S × (Nat → Option Nat)),
        dlx_exact_cover f0 lf σ D.root sol 0 = some res ∧
        ((∃ ys, IsCover D sh σ sh.hdrs ys) → sh.hdrs ≠ [] → 0 < res.1)) ∧
    (∀ (f lf : Nat) (σ σb : S) (root : Nat)
        (sol sol2 : Nat → Option Nat) (k c i n : Nat),
      σ.down i ≠ c →
      dlx_exact_cover f lf (coverOthersLoop lf lf σ (σ.down i) (σ.down i))
        root (updO sol k (σ.down i)) (k + 1) = some (n, σb, sol2) →
      0 < n →
      dlxECLoop (f + 1) lf σ root sol k c i
        = some (n, uncoverOthersLoop lf lf σb (σ.down i) (σ.down i), sol2)) ∧
    (∀ (f lf : Nat) (σ σ2 : S) (root : Nat)
        (sol sol2 : Nat → Option Nat) (k c n : Nat),
      σ.right root ≠ root →
      min_hnode_s lf σ root = some c →
      dlxECLoop f lf (cover lf σ c) root sol k c c = some (n, σ2, sol2) →
      dlx_exact_cover (f + 1) lf σ root sol k
        = some (n, uncover lf σ2 c, sol2)) := by
  refine ⟨?_, ?_, ?_, ?_, ?_⟩
  · intro D sh σ fuel lf sol res hI hRH hlf hres hpos
    obtain ⟨_, hsucc⟩ := (ecSound D fuel).1 lf sh σ sol 0 hI hRH hlf res hres
    obtain ⟨ys, hcov, hlen, hrec⟩ := hsucc hpos
    rw [Nat.zero_add] at hlen
    refine ⟨ys, hcov, hlen, ?_⟩
    intro j hj
    have h := hrec j hj
    rw [Nat.zero_add] at h
    exact h
  · intro D sh σ fuel lf sol res hI hRH hlf hsmall hres h0 hne ⟨ys, hcov⟩
    obtain ⟨f0, res', heq', himp'⟩ := ecComplete D sh.hdrs.length lf sh σ
      sol 0 hI hRH hlf hsmall (Nat.le_refl _)
    have hpos : 0 < res'.1 := by
      rcases himp' ⟨ys, hcov⟩ with h | ⟨h, _⟩
      · exact h
      · exact absurd h hne
    have e1 := (ecMono fuel).1 (max fuel f0) lf σ D.root sol 0 res
      (Nat.le_max_left fuel f0) hres
    have e2 := (ecMono f0).1 (max fuel f0) lf σ D.root sol 0 res'
      (Nat.le_max_right fuel f0) heq'
    rw [e1] at e2
    rw [Option.some.injEq] at e2
    rw [e2] at h0
    omega
  · intro D sh σ lf sol hI hRH hlf hsmall
    obtain ⟨f0, res, heq, himp⟩ := ecComplete D sh.hdrs.length lf sh σ
      sol 0 hI hRH hlf hsmall (Nat.le_refl _)
    refine ⟨f0, res, heq, ?_⟩
    intro hcovex hne
    rcases himp hcovex with h | ⟨h, _⟩
    · exact h
    · exact absurd h hne
  · intro f lf σ σb root sol sol2 k c i n hne hrec hn
    unfold dlxECLoop
    rw [if_neg hne]
    simp only [hrec]
    rw [if_pos hn]
  · intro f lf σ σ2 root sol sol2 k c n hroot hmin hloop
    unfold dlx_exact_cover
    rw [if_neg hroot]
    simp only [hmin, hloop]

/-- The two-column one-row matrix is well formed and fully live. -/
theorem tiny2Inv : Inv tiny2D tiny2Sh tiny2S := by
  refine ⟨?_, by unfold RowLive; decide⟩
  constructor <;> decide

/-- The search correctness exercised on concrete matrices: the one-column
one-row matrix is solved with its unique one-row cover recorded, reports
success, stops on the first successful row, and propagates the value; the
two-column matrix with an empty column is correctly reported coverless. -/
theorem dlx_exact_cover_correct_witness :
    (∃ ys : List Nat, IsCover tinyD tinySh tinyS tinySh.hdrs ys ∧
      ys.length = 1) ∧
    (¬∃ ys : List Nat, IsCover tiny2D tiny2Sh tiny2S tiny2Sh.hdrs ys) ∧
    (∃ (f0 : Nat) (res : Nat × S × (Nat → Option Nat)),
      dlx_exact_cover f0 6 tinyS tinyD.root (fun _ => none) 0 = some res ∧
      0 < res.1) ∧
    ((dlxECLoop 3 6 (cover 6 tinyS 1) tinyD.root (fun _ => none) 0 1 1).map
      (fun p => p.1) = some 1) ∧
    ((dlx_exact_cover 3 6 tinyS tinyD.root (fun _ => none) 0).map
      (fun p => p.1) = some 1) := by
  obtain ⟨hS, hX, hC, hStop, hProp⟩ := dlx_exact_cover_correct
  refine ⟨?_, ?_, ?_, ?_, ?_⟩
  · have hsome : (dlx_exact_cover 3 6 tinyS tinyD.root
        (fun _ => none) 0).isSome = true := by decide
    obtain ⟨res, heq⟩ := Option.isSome_iff_exists.1 hsome
    have h2 : (dlx_exact_cover 3 6 tinyS tinyD.root
        (fun _ => none) 0).map (fun p => p.1) = some 1 := by decide
    rw [heq] at h2
    have hres1 : res.1 = 1 := Option.some.inj h2
    obtain ⟨ys, hcov, hlen, _⟩ := hS tinyD tinySh tinyS 3 6 (fun _ => none)
      res tinyInv (by unfold RowHdr; decide) (by decide) heq (by omega)
    exact ⟨ys, hcov, by omega⟩
  · have hsome : (dlx_exact_cover 2 7 tiny2S tiny2D.root
        (fun _ => none) 0).isSome = true := by decide
    obtain ⟨res, heq⟩ := Option.isSome_iff_exists.1 hsome
    have h2 : (dlx_exact_cover 2 7 tiny2S tiny2D.root
        (fun _ => none) 0).map (fun p => p.1) = some 0 := by decide
    rw [heq] at h2
    have hres0 : res.1 = 0 := Option.some.inj h2
    exact hX tiny2D tiny2Sh tiny2S 2 7 (fun _ => none) res tiny2Inv
      (by unfold RowHdr; decide) (by decide) (by decide) heq hres0
      (by decide)
  · obtain ⟨f0, res, heq, himp⟩ := hC tinyD tinySh tinyS 6 (fun _ => none)
      tinyInv (by unfold RowHdr; decide) (by decide) (by decide)
    exact ⟨f0, res, heq,
      himp ⟨[2], by unfold IsCover; decide⟩ (by decide)⟩
  · have hsome : (dlx_exact_cover 2 6 (coverOthersLoop 6 6 (cover 6 tinyS 1)
        ((cover 6 tinyS 1).down 1) ((cover 6 tinyS 1).down 1)) tinyD.root
        (updO (fun _ => none) 0 ((cover 6 tinyS 1).down 1)) 1).isSome
        = true := by decide
    obtain ⟨res4, heq4⟩ := Option.isSome_iff_exists.1 hsome
    obtain ⟨n, σb, sol2⟩ := res4
    have h2 : (dlx_exact_cover 2 6 (coverOthersLoop 6 6 (cover 6 tinyS 1)
        ((cover 6 tinyS 1).down 1) ((cover 6 tinyS 1).down 1)) tinyD.root
        (updO (fun _ => none) 0 ((cover 6 tinyS 1).down 1)) 1).map
        (fun p => p.1) = some 1 := by decide
    rw [heq4] at h2
    have hn1 : n = 1 := Option.some.inj h2
    subst hn1
    have hcall := hStop 2 6 (cover 6 tinyS 1) σb tinyD.root (fun _ => none)
      sol2 0 1 1 1 (by decide) heq4 (by omega)
    rw [hcall]
    rfl
  · have hsome : (dlxECLoop 2 6 (cover 6 tinyS 1) tinyD.root
        (fun _ => none) 0 1 1).isSome = true := by decide
    obtain ⟨res5, heq5⟩ := Option.isSome_iff_exists.1 hsome
    obtain ⟨n, σ2, sol2⟩ := res5
    have h2 : (dlxECLoop 2 6 (cover 6 tinyS 1) tinyD.root
        (fun _ => none) 0 1 1).map (fun p => p.1) = some 1 := by decide
    rw [heq5] at h2
    have hn1 : n = 1 := Option.some.inj h2
    subst hn1
    have hcall := hProp 2 6 tinyS σ2 tinyD.root (fun _ => none) sol2 0 1 1
      (by decide) (by decide) heq5
    rw [hcall]
    rfl

end DlxSudoku
